import Mathlib

/-!
Verification of the free-style CSS-in-JS library (`src/index.ts`).

The embedding below is a shallow translation of the source file:

* JS strings are Lean `String`s, manipulated through their character lists so
  that every definition is executable by kernel reduction.  JS `charCodeAt`
  is modelled by Unicode code points (`Char.toNat`); all characters relevant
  to the claims are ASCII, where the two notions agree.
* JS plain objects used as string-keyed dictionaries (`_children`,
  `_counters`, `CSS_NUMBER`) are modelled as insertion-ordered association
  lists: assignment to a fresh key appends, assignment to an existing key
  replaces in place, `delete` removes the pair.
* JS numbers appearing as CSS property values are modelled as a pair
  `(m : Int, e : Nat)` denoting the decimal `m * 10^(-e)`; `renderNum`
  reproduces JS number printing for such finite decimals (the only numeric
  values the spec and the claims exercise), and JS numeric truthiness is
  `m ≠ 0`.
* The module-global `uniqueId` counter is threaded explicitly through the
  functions that read or bump it.
* `process.env.NODE_ENV === "production"` is an explicit `prod : Bool`
  parameter of the functions that read it.
-/

namespace FreeStyle

/-! ### Association lists (JS string-keyed objects) -/

def lookupA {α : Type} : List (String × α) → String → Option α
  | [], _ => none
  | (k, v) :: rest, key => if k = key then some v else lookupA rest key

/-- Assignment `obj[key] = v`: replaces in place if present, else appends
(JS objects preserve insertion order of string keys). -/
def assocSet {α : Type} : List (String × α) → String → α → List (String × α)
  | [], key, v => [(key, v)]
  | (k, w) :: rest, key, v =>
      if k = key then (key, v) :: rest else (k, w) :: assocSet rest key v

/-- JS `delete obj[key]`. -/
def assocDelete {α : Type} : List (String × α) → String → List (String × α)
  | [], _ => []
  | (k, w) :: rest, key =>
      if k = key then assocDelete rest key else (k, w) :: assocDelete rest key

@[simp] theorem lookupA_nil {α : Type} (k : String) :
    lookupA ([] : List (String × α)) k = none := rfl

@[simp] theorem lookupA_cons {α : Type} (k key : String) (v : α) (rest : List (String × α)) :
    lookupA ((k, v) :: rest) key = if k = key then some v else lookupA rest key := rfl

theorem lookupA_assocSet_self {α : Type} (l : List (String × α)) (k : String) (v : α) :
    lookupA (assocSet l k v) k = some v := by
  induction l with
  | nil => simp [assocSet]
  | cons p rest ih =>
      obtain ⟨pk, pv⟩ := p
      by_cases h : pk = k <;> simp [assocSet, h, ih]

theorem lookupA_assocSet_ne {α : Type} (l : List (String × α)) (k k' : String) (v : α)
    (h : k ≠ k') : lookupA (assocSet l k v) k' = lookupA l k' := by
  induction l with
  | nil => simp [assocSet, h]
  | cons p rest ih =>
      obtain ⟨pk, pv⟩ := p
      by_cases hp : pk = k
      · subst hp; simp [assocSet, h]
      · simp [assocSet, hp, ih]

theorem lookupA_assocDelete_self {α : Type} (l : List (String × α)) (k : String) :
    lookupA (assocDelete l k) k = none := by
  induction l with
  | nil => simp [assocDelete]
  | cons p rest ih =>
      obtain ⟨pk, pv⟩ := p
      by_cases hp : pk = k
      · simpa [assocDelete, hp]
      · simp [assocDelete, hp, ih]

theorem lookupA_assocDelete_ne {α : Type} (l : List (String × α)) (k k' : String)
    (h : k ≠ k') : lookupA (assocDelete l k) k' = lookupA l k' := by
  induction l with
  | nil => simp [assocDelete]
  | cons p rest ih =>
      obtain ⟨pk, pv⟩ := p
      by_cases hp : pk = k
      · subst hp; simp [assocDelete, h, ih]
      · simp [assocDelete, hp, ih]

theorem lookupA_mem {α : Type} {l : List (String × α)} {k : String} {v : α}
    (h : lookupA l k = some v) : (k, v) ∈ l := by
  induction l with
  | nil => simp [lookupA] at h
  | cons p rest ih =>
      obtain ⟨pk, pv⟩ := p
      by_cases hp : pk = k
      · subst hp; simp [lookupA] at h; simp [h]
      · simp [lookupA, hp] at h
        exact List.mem_cons_of_mem _ (ih h)

/-- `Array.prototype.indexOf`: position of the first occurrence.  JS returns
`-1` when absent; this model returns the length instead, which agrees with JS
observationally in all reachable cache states (the cache only calls it on
present keys). -/
def idxOfStr : List String → String → Nat
  | [], _ => 0
  | k :: rest, key => if k = key then 0 else idxOfStr rest key + 1

theorem idxOfStr_append_not_mem (l : List String) (k : String) (h : k ∉ l) :
    idxOfStr (l ++ [k]) k = l.length := by
  induction l with
  | nil => simp [idxOfStr]
  | cons x rest ih =>
      simp only [List.mem_cons, not_or] at h
      simp [idxOfStr, Ne.symm h.1, ih h.2]

theorem idxOfStr_lt_length {l : List String} {k : String} (h : k ∈ l) :
    idxOfStr l k < l.length := by
  induction l with
  | nil => simp at h
  | cons x rest ih =>
      by_cases hx : x = k
      · simp [idxOfStr, hx]
      · rcases List.mem_cons.mp h with h1 | h1
        · exact absurd h1.symm hx
        · simpa [idxOfStr, hx] using ih h1

/-! ### Base-36 rendering of natural numbers (JS `Number.prototype.toString(36)`) -/

/-- Digit characters `0-9a-z`. -/
def digit36 (d : Nat) : Char :=
  if d < 10 then Char.ofNat (48 + d) else Char.ofNat (87 + d)

/-- Fuel-driven digit expansion; `fuel ≥ n` always suffices since the
argument shrinks by division by 36 each step. -/
def toB36L : Nat → Nat → List Char
  | 0, n => [digit36 (n % 36)]
  | fuel + 1, n =>
      if n < 36 then [digit36 n]
      else toB36L fuel (n / 36) ++ [digit36 (n % 36)]

def toBase36 (n : Nat) : String := String.mk (toB36L n n)

def val36 (c : Char) : Nat :=
  if c.toNat ≥ 87 then c.toNat - 87 else c.toNat - 48

def decode36 (l : List Char) : Nat := l.foldl (fun acc c => acc * 36 + val36 c) 0

theorem val36_digit36 (d : Nat) (h : d < 36) : val36 (digit36 d) = d := by
  interval_cases d <;> decide

theorem decode36_append (l : List Char) (c : Char) :
    decode36 (l ++ [c]) = decode36 l * 36 + val36 c := by
  simp [decode36, List.foldl_append]

theorem decode36_toB36L (fuel n : Nat) (hf : n ≤ fuel) :
    decode36 (toB36L fuel n) = n := by
  induction fuel generalizing n with
  | zero =>
      have : n = 0 := by omega
      subst this
      simp [toB36L, decode36, val36_digit36 0 (by omega)]
  | succ f ih =>
      by_cases h : n < 36
      · simp [toB36L, h, decode36, val36_digit36 n h]
      · have hdiv : n / 36 ≤ f := by
          have := Nat.div_lt_self (show 0 < n by omega) (show 1 < 36 by omega)
          omega
        simp [toB36L, h, decode36_append, ih _ hdiv, val36_digit36 _ (Nat.mod_lt _ (by omega))]
        omega

theorem toBase36_injective {a b : Nat} (h : toBase36 a = toBase36 b) : a = b := by
  have ha := decode36_toB36L a a le_rfl
  have hb := decode36_toB36L b b le_rfl
  have : toB36L a a = toB36L b b := by
    have := congrArg String.data h
    simpa [toBase36] using this
  rw [← ha, ← hb, this]

/-! ### Pure string helpers from the source -/

/-- CSS properties that are valid unit-less numbers (`CSS_NUMBER_KEYS`). -/
def cssNumberKeys : List String :=
  ["animation-iteration-count", "border-image-outset", "border-image-slice",
   "border-image-width", "box-flex", "box-flex-group", "box-ordinal-group",
   "column-count", "columns", "counter-increment", "counter-reset", "flex",
   "flex-grow", "flex-positive", "flex-shrink", "flex-negative", "flex-order",
   "font-weight", "grid-area", "grid-column", "grid-column-end",
   "grid-column-span", "grid-column-start", "grid-row", "grid-row-end",
   "grid-row-span", "grid-row-start", "line-clamp", "line-height", "opacity",
   "order", "orphans", "tab-size", "widows", "z-index", "zoom",
   "fill-opacity", "flood-opacity", "stop-opacity", "stroke-dasharray",
   "stroke-dashoffset", "stroke-miterlimit", "stroke-opacity", "stroke-width"]

/-- Vendor keys prepended to every unit-less property when building
`CSS_NUMBER` (the trailing `""` adds the bare property itself). -/
def vendorKeys : List String := ["-webkit-", "-ms-", "-moz-", "-o-", ""]

/-- Membership in the `CSS_NUMBER` lookup object: every vendor-prefixed
variant of every unit-less property. -/
def cssNumber (key : String) : Bool :=
  vendorKeys.any fun p => cssNumberKeys.any fun k => p ++ k = key

/-- Characters escaped by `escape` (the regex
character class: space ! # $ % & ( ) * + , . / ; < = > ? @ [ ] ^ backquote
braces | ~ double-quote quote backslash). -/
def escapeTargets : List Char :=
  [32, 33, 35, 36, 37, 38, 40, 41, 42, 43, 44, 46, 47, 59, 60, 61, 62, 63,
   64, 91, 93, 94, 96, 123, 124, 125, 126, 34, 39, 92].map Char.ofNat

/-- `escape`: backslash-escape CSS selector metacharacters. -/
def escape (s : String) : String :=
  String.mk (s.data.foldr (fun c acc =>
    if c ∈ escapeTargets then '\\' :: c :: acc else c :: acc) [])

/-- One step of `hyphenate`'s regex replace: an upper-case ASCII letter
becomes a hyphen followed by its lower case. -/
def hyphenateChar (c : Char) : List Char :=
  if 'A' ≤ c ∧ c ≤ 'Z' then ['-', c.toLower] else [c]

/-- `hyphenate`: camelCase to kebab-case, with the Internet Explorer
`ms-` → `-ms-` vendor fix applied afterwards. -/
def hyphenate (propertyName : String) : String :=
  let r := propertyName.data.foldr (fun c acc => hyphenateChar c ++ acc) []
  String.mk (match r with
    | 'm' :: 's' :: '-' :: rest => '-' :: 'm' :: 's' :: '-' :: rest
    | other => other)

/-- One loop iteration of `stringHash`: `value = (value * 33) ^ charCode`,
where JS `^` coerces to 32-bit; on unsigned representatives this is
multiplication mod 2^32 followed by bitwise xor. -/
def hashStep (v : Nat) (c : Char) : Nat :=
  Nat.xor ((v * 33) % 4294967296) c.toNat

/-- `stringHash`: djb2-xor over the characters from last to first (the JS
loop runs `while (len--)`), rendered unsigned (`>>> 0`) in base 36. -/
def stringHash (str : String) : String :=
  toBase36 (str.data.reverse.foldl hashStep 5381)

/-- JS number printing for the decimal `m * 10^(-e)` (exact for the
finite-decimal values the library is used with; `e = 0` prints the integer,
otherwise the digits of `|m|` with a decimal point inserted `e` places from
the right, zero-padded as needed). -/
def renderNum (m : Int) (e : Nat) : String :=
  if e = 0 then toString m
  else
    let ds := (Nat.repr m.natAbs).data
    let ds := if ds.length ≤ e then List.replicate (e + 1 - ds.length) '0' ++ ds else ds
    let intPart := ds.take (ds.length - e)
    let fracPart := ds.drop (ds.length - e)
    (if m < 0 then "-" else "") ++ String.mk intPart ++ "." ++ String.mk fracPart

/-- CSS property values: JS `number | boolean | string`.  A number carries
its decimal representation `(m, e)`, meaning `m * 10^(-e)`. -/
inductive PropertyValue where
  | num (m : Int) (e : Nat)
  | bool (b : Bool)
  | str (s : String)
deriving DecidableEq

/-- Rendering of a scalar value by JS string interpolation. -/
def valueToString : PropertyValue → String
  | .num m e => renderNum m e
  | .bool b => if b then "true" else "false"
  | .str s => s

/-- JS truthiness of a property value (`value &&` in `styleToString`):
`0` (and `NaN`, not representable here), `false` and `""` are falsy. -/
def valueTruthy : PropertyValue → Bool
  | .num m _ => m ≠ 0
  | .bool b => b
  | .str s => s ≠ ""

/-- Whether `typeof value === "number"`. -/
def valueIsNumber : PropertyValue → Bool
  | .num _ _ => true
  | _ => false

/-- `styleToString`: append `px` to truthy numbers of properties outside the
unit-less table; otherwise plain `key:value`. -/
def styleToString (key : String) (value : PropertyValue) : String :=
  if valueTruthy value ∧ valueIsNumber value ∧ ¬ cssNumber key then
    key ++ ":" ++ valueToString value ++ "px"
  else
    key ++ ":" ++ valueToString value

/-! ### Tuple sorting (`sortTuples`)

The JS comparator `(a, b) => (a[0] > b[0] ? 1 : -1)` never returns `0`, so it
orders tuples by ascending first component; its behaviour on tuples with
*equal* first components is inconsistent and therefore engine-defined.  We
model it as a stable insertion sort on the first component; all claims that
depend on the relative order of equal keys are settled relative to this
(deterministic) reading, and are robust to the choice because any
comparator-based sort leaves equal-key order a function of input order. -/

/-- Lexicographic order on character lists by code point. -/
def charListLt : List Char → List Char → Bool
  | [], [] => false
  | [], _ :: _ => true
  | _ :: _, [] => false
  | c :: cs, d :: ds =>
      if c.toNat < d.toNat then true
      else if c = d then charListLt cs ds else false

/-- Key comparison: JS `<` on strings is lexicographic on UTF-16 units,
which agrees with code-point order for the strings at hand. -/
def keyLt (a b : String) : Bool := charListLt a.data b.data

def insertTuple {α : Type} (p : String × α) : List (String × α) → List (String × α)
  | [] => [p]
  | q :: qs => if keyLt p.1 q.1 then p :: q :: qs else q :: insertTuple p qs

def sortTuples {α : Type} (l : List (String × α)) : List (String × α) :=
  l.foldr insertTuple []

theorem insertTuple_perm {α : Type} (p : String × α) (l : List (String × α)) :
    (insertTuple p l).Perm (p :: l) := by
  induction l with
  | nil => simp [insertTuple]
  | cons q qs ih =>
      by_cases h : keyLt p.1 q.1
      · simp [insertTuple, h]
      · simp only [insertTuple, h, if_false]
        exact (ih.cons q).trans (List.Perm.swap p q qs)

theorem sortTuples_perm {α : Type} (l : List (String × α)) :
    (sortTuples l).Perm l := by
  induction l with
  | nil => simp [sortTuples]
  | cons p ps ih =>
      simpa [sortTuples] using (insertTuple_perm p (sortTuples ps)).trans (ih.cons p)

/-! ### Selector interpolation -/

/-- Replace every `&` by `parent` (the JS `selector.replace(/&/g, parent)`,
a single-character global substitution). -/
def replaceAmp (selector parent : String) : String :=
  String.mk (selector.data.foldr
    (fun c acc => if c = '&' then parent.data ++ acc else c :: acc) [])

/-- Whether the selector mentions `&` (`selector.indexOf("&") === -1`). -/
def hasAmp (selector : String) : Bool := selector.data.any (· = '&')

/-- `interpolate`: `&` substitution when present, else descendant
combination with a space. -/
def interpolate (selector parent : String) : String :=
  if ¬ hasAmp selector then parent ++ " " ++ selector
  else replaceAmp selector parent

/-! ### The `Styles` input tree -/

mutual
/-- The `Styles` input mapping.  The two reserved control keys are modelled
as explicit fields (`$unique`, `$displayName`); any further `$`-prefixed
keys a user writes can still appear in `entries` and are skipped by
`parseStyles` exactly as in the source. -/
inductive Styles where
  | mk (isUnique : Bool) (displayName : Option String)
      (entries : List (String × StyleValue))

/-- A value in the mapping: `null`/`undefined`, a scalar, a list of scalars,
or a nested mapping. -/
inductive StyleValue where
  | null
  | val (v : PropertyValue)
  | vlist (l : List PropertyValue)
  | nested (s : Styles)
end

def Styles.isUnique : Styles → Bool
  | .mk u _ _ => u

def Styles.displayName : Styles → Option String
  | .mk _ d _ => d

def Styles.entries : Styles → List (String × StyleValue)
  | .mk _ _ es => es

/-- JS `String.prototype.trim`. -/
def jsTrim (s : String) : String :=
  String.mk (((s.data.dropWhile Char.isWhitespace).reverse.dropWhile
    Char.isWhitespace).reverse)

/-- `name.charCodeAt(0) === 36`: the (trimmed) key names a control entry. -/
def startsDollar (name : String) : Bool := name.data.head? = some '$'

/-- A property slot holds the raw scalar or the raw scalar array. -/
abbrev PropValue := PropertyValue ⊕ List PropertyValue

/-- Rendering of one property tuple inside `stringifyProperties`: scalars go
through `styleToString`, arrays expand to one declaration per element. -/
def stringifyOne (name : String) : PropValue → String
  | .inl v => styleToString name v
  | .inr l => String.intercalate ";" (l.map (styleToString name))

/-- `stringifyProperties`. -/
def stringifyProperties (properties : List (String × PropValue)) : String :=
  String.intercalate ";" (properties.map fun p => stringifyOne p.1 p.2)

/-- The classification loop of `parseStyles`: walk the entries in authoring
order, skip `$`-keys and null values, send sub-mappings to the nested list
and everything else (hyphenated) to the properties list. -/
def splitEntries : List (String × StyleValue) →
    List (String × PropValue) × List (String × Styles)
  | [] => ([], [])
  | (key, value) :: rest =>
      let r := splitEntries rest
      let name := jsTrim key
      if startsDollar name then r
      else
        match value with
        | .null => r
        | .nested s => (r.1, (name, s) :: r.2)
        | .val v => ((hyphenate name, Sum.inl v) :: r.1, r.2)
        | .vlist l => ((hyphenate name, Sum.inr l) :: r.1, r.2)

theorem splitEntries_dollar {key : String} {v : StyleValue}
    {rest : List (String × StyleValue)} (h : startsDollar (jsTrim key) = true) :
    splitEntries ((key, v) :: rest) = splitEntries rest := by
  simp [splitEntries, h]

theorem splitEntries_null {key : String} {rest : List (String × StyleValue)}
    (h : startsDollar (jsTrim key) = false) :
    splitEntries ((key, StyleValue.null) :: rest) = splitEntries rest := by
  simp [splitEntries, h]

theorem splitEntries_val {key : String} {v : PropertyValue}
    {rest : List (String × StyleValue)} (h : startsDollar (jsTrim key) = false) :
    splitEntries ((key, StyleValue.val v) :: rest) =
      ((hyphenate (jsTrim key), Sum.inl v) :: (splitEntries rest).1,
        (splitEntries rest).2) := by
  simp [splitEntries, h]

theorem splitEntries_vlist {key : String} {l : List PropertyValue}
    {rest : List (String × StyleValue)} (h : startsDollar (jsTrim key) = false) :
    splitEntries ((key, StyleValue.vlist l) :: rest) =
      ((hyphenate (jsTrim key), Sum.inr l) :: (splitEntries rest).1,
        (splitEntries rest).2) := by
  simp [splitEntries, h]

theorem splitEntries_sub {key : String} {sub : Styles}
    {rest : List (String × StyleValue)} (h : startsDollar (jsTrim key) = false) :
    splitEntries ((key, StyleValue.nested sub) :: rest) =
      ((splitEntries rest).1, (jsTrim key, sub) :: (splitEntries rest).2) := by
  simp [splitEntries, h]

structure ParseResult where
  style : String
  nested : List (String × Styles)
  isUnique : Bool

/-- `parseStyles`: declarations are sorted and rendered; nested entries are
sorted only when `hasNestedStyles` is false. -/
def parseStyles (styles : Styles) (hasNestedStyles : Bool) : ParseResult :=
  let r := splitEntries styles.entries
  { style := stringifyProperties (sortTuples r.1)
    nested := if hasNestedStyles then r.2 else sortTuples r.2
    isUnique := styles.isUnique }

/-! Depth measures over the mutual tree, for termination of the recursive
walkers. -/

mutual
def stylesDepth : Styles → Nat
  | .mk _ _ es => entriesDepth es + 1
def entriesDepth : List (String × StyleValue) → Nat
  | [] => 0
  | (_, v) :: rest => max (valueDepth v) (entriesDepth rest)
def valueDepth : StyleValue → Nat
  | .nested s => stylesDepth s
  | _ => 0
end

theorem valueDepth_le_entriesDepth {es : List (String × StyleValue)} {k : String}
    {v : StyleValue} (h : (k, v) ∈ es) : valueDepth v ≤ entriesDepth es := by
  induction es with
  | nil => simp at h
  | cons p rest ih =>
      obtain ⟨pk, pv⟩ := p
      rcases List.mem_cons.mp h with h1 | h1
      · cases h1
        rw [entriesDepth]
        exact Nat.le_max_left _ _
      · rw [entriesDepth]
        exact le_trans (ih h1) (Nat.le_max_right _ _)

theorem mem_splitEntries_nested {es : List (String × StyleValue)}
    {p : String × Styles} (h : p ∈ (splitEntries es).2) :
    ∃ key, (key, StyleValue.nested p.2) ∈ es := by
  induction es with
  | nil => simp [splitEntries] at h
  | cons q rest ih =>
      obtain ⟨qk, qv⟩ := q
      by_cases hd : startsDollar (jsTrim qk) = true
      · rw [splitEntries_dollar hd] at h
        obtain ⟨key, hk⟩ := ih h
        exact ⟨key, List.mem_cons_of_mem _ hk⟩
      · replace hd := Bool.not_eq_true _ ▸ hd
        cases qv with
        | null =>
            rw [splitEntries_null hd] at h
            obtain ⟨key, hk⟩ := ih h
            exact ⟨key, List.mem_cons_of_mem _ hk⟩
        | val v =>
            rw [splitEntries_val hd] at h
            obtain ⟨key, hk⟩ := ih h
            exact ⟨key, List.mem_cons_of_mem _ hk⟩
        | vlist l =>
            rw [splitEntries_vlist hd] at h
            obtain ⟨key, hk⟩ := ih h
            exact ⟨key, List.mem_cons_of_mem _ hk⟩
        | nested s =>
            rw [splitEntries_sub hd] at h
            rcases List.mem_cons.mp h with h1 | h1
            · rw [h1]
              exact ⟨qk, List.mem_cons_self _ _⟩
            · obtain ⟨key, hk⟩ := ih h1
              exact ⟨key, List.mem_cons_of_mem _ hk⟩

/-- Any sub-tree reachable through `parseStyles` is strictly shallower. -/
theorem parseStyles_nested_depth {s : Styles} {b : Bool} {n : String}
    {sub : Styles} (h : (n, sub) ∈ (parseStyles s b).nested) :
    stylesDepth sub < stylesDepth s := by
  have hmem : (n, sub) ∈ (splitEntries s.entries).2 := by
    by_cases hb : b
    · simpa [parseStyles, hb] using h
    · have := (sortTuples_perm (splitEntries s.entries).2).mem_iff.mp
        (by simpa [parseStyles, hb] using h)
      exact this
  obtain ⟨key, hk⟩ := mem_splitEntries_nested hmem
  have h1 : valueDepth (StyleValue.nested sub) ≤ entriesDepth s.entries :=
    valueDepth_le_entriesDepth hk
  obtain ⟨u, d, es⟩ := s
  simp only [Styles.entries] at h1
  calc stylesDepth sub = valueDepth (StyleValue.nested sub) := by rw [valueDepth]
    _ ≤ entriesDepth es := h1
    _ < entriesDepth es + 1 := Nat.lt_succ_self _
    _ = stylesDepth (Styles.mk u d es) := by rw [stylesDepth]

/-! Recursive predicates on the input tree used as claim hypotheses. -/

mutual
/-- No `$unique` flag anywhere in the tree. -/
def uniqueFreeS : Styles → Bool
  | .mk u _ es => !u && uniqueFreeE es
def uniqueFreeE : List (String × StyleValue) → Bool
  | [] => true
  | (_, v) :: rest => uniqueFreeV v && uniqueFreeE rest
def uniqueFreeV : StyleValue → Bool
  | .nested s => uniqueFreeS s
  | _ => true
end

/-- A tree of declarations only: no nested sub-mapping entries. -/
def flatStyles (s : Styles) : Bool :=
  s.entries.all fun p =>
    match p.2 with
    | .nested _ => false
    | _ => true

/-! ### `stylize` -/

structure StylizeStyle where
  selector : String
  style : String
  isUnique : Bool
deriving DecidableEq

inductive StylizeRule where
  | mk (selector : String) (style : String) (rules : List StylizeRule)
      (styles : List StylizeStyle)

def StylizeRule.selector : StylizeRule → String
  | .mk sel _ _ _ => sel

def StylizeRule.style : StylizeRule → String
  | .mk _ st _ _ => st

def StylizeRule.rules : StylizeRule → List StylizeRule
  | .mk _ _ rs _ => rs

def StylizeRule.styles : StylizeRule → List StylizeStyle
  | .mk _ _ _ ss => ss

/-- `selector.charCodeAt(0) === 64`: at-rule detection. -/
def startsAt (s : String) : Bool := s.data.head? = some '@'

def nestedListDepth : List (String × Styles) → Nat
  | [] => 0
  | (_, s) :: rest => max (stylesDepth s) (nestedListDepth rest)

theorem nestedListDepth_lt {l : List (String × Styles)} {K : Nat} (hK : 0 < K)
    (h : ∀ q ∈ l, stylesDepth q.2 < K) : nestedListDepth l < K := by
  induction l with
  | nil => simpa [nestedListDepth] using hK
  | cons q rest ih =>
      obtain ⟨qn, qs⟩ := q
      rw [nestedListDepth]
      exact max_lt (h _ (List.mem_cons_self _ _))
        (ih fun r hr => h r (List.mem_cons_of_mem _ hr))

theorem stylesDepth_pos (s : Styles) : 0 < stylesDepth s := by
  obtain ⟨u, d, es⟩ := s
  rw [stylesDepth]
  omega

theorem parseStyles_nested_listDepth (s : Styles) (b : Bool) :
    nestedListDepth (parseStyles s b).nested < stylesDepth s := by
  refine nestedListDepth_lt (stylesDepth_pos s) fun q hq => ?_
  exact @parseStyles_nested_depth s b q.1 q.2 (by simpa using hq)

theorem mem_nestedListDepth {l : List (String × Styles)} {q : String × Styles}
    (h : q ∈ l) : stylesDepth q.2 ≤ nestedListDepth l := by
  induction l with
  | nil => simp at h
  | cons r rest ih =>
      obtain ⟨rn, rs⟩ := r
      rcases List.mem_cons.mp h with h1 | h1
      · rw [h1, nestedListDepth]
        exact Nat.le_max_left _ _
      · rw [nestedListDepth]
        exact le_trans (ih h1) (Nat.le_max_right _ _)

mutual
/-- `stylize`: flatten one node of the tree into the accumulators.  The JS
accumulator arrays are threaded functionally (appends at the end).  The JS
`parent` parameter is either `undefined` (at the roots) or a string; both
`undefined` and `""` are falsy, and the function only ever tests `parent`
for truthiness or interpolates a truthy parent, so the model uses `""` for
the absent parent. -/
def stylize (selector : String) (styles : Styles) (rulesList : List StylizeRule)
    (stylesList : List StylizeStyle) (parent : String) :
    List StylizeRule × List StylizeStyle × String :=
  let p := parseStyles styles (selector != "")
  if startsAt selector then
    -- at-rule: open a block; its directly-owned declarations become a
    -- nested flat style under the parent selector when a parent exists
    let start : List StylizeStyle :=
      if p.style ≠ "" ∧ parent ≠ "" then [⟨parent, p.style, p.isUnique⟩] else []
    let r := stylizeList p.nested [] start parent p.style
    (rulesList ++ [StylizeRule.mk selector (if parent ≠ "" then "" else p.style) r.1 r.2.1],
      stylesList, r.2.2)
  else
    -- plain selector: compute the effective selector and emit a flat style
    let key := if parent ≠ "" then interpolate selector parent else selector
    let sl1 := if p.style ≠ "" then stylesList ++ [⟨key, p.style, p.isUnique⟩]
      else stylesList
    stylizeList p.nested rulesList sl1 key p.style
termination_by (stylesDepth styles, 0, 0)
decreasing_by
  all_goals exact Prod.Lex.left _ _ (parseStyles_nested_listDepth styles (selector != ""))

/-- The `for (const [name, value] of nested)` loop of `stylize`,
accumulating `pid += name + stylize(...)`. -/
def stylizeList (entries : List (String × Styles)) (rulesList : List StylizeRule)
    (stylesList : List StylizeStyle) (parent : String) (pid : String) :
    List StylizeRule × List StylizeStyle × String :=
  match entries with
  | [] => (rulesList, stylesList, pid)
  | e :: rest =>
      let r := stylize e.1 e.2 rulesList stylesList parent
      stylizeList rest r.1 r.2.1 parent (pid ++ e.1 ++ r.2.2)
termination_by (nestedListDepth entries, 1, entries.length)
decreasing_by
  · rcases lt_or_eq_of_le (mem_nestedListDepth (List.mem_cons_self e rest)) with h | h
    · exact Prod.Lex.left _ _ h
    · rw [h]
      exact Prod.Lex.right _ (Prod.Lex.left _ _ (by omega))
  · have h1 : nestedListDepth rest ≤ nestedListDepth (e :: rest) := by
      obtain ⟨en, es⟩ := e
      rw [nestedListDepth]
      exact Nat.le_max_right _ _
    rcases lt_or_eq_of_le h1 with h | h
    · exact Prod.Lex.left _ _ h
    · rw [h]
      exact Prod.Lex.right _ (Prod.Lex.right _ (by simp))
end

/-! ### Cache nodes

`Selector`, `Style` and `Rule` from the source; `Style`, `Rule` (and the
top-level `FreeStyle`) extend `Cache`, so the composite variants carry the
five cache fields (`sheet`, `changeId`, `_keys`, `_children`, `_counters`)
inline.  The top-level `FreeStyle` cache is represented by a bare `CState`
(its own `id` and `clone` play no role in the claims). -/

inductive Node where
  | selector (sel : String) (id : String)
  | style (css : String) (id : String) (sheet : List String) (changeId : Nat)
      (keys : List String) (children : List (String × Node))
      (counters : List (String × Nat))
  | rule (ruleText : String) (css : String) (id : String) (sheet : List String)
      (changeId : Nat) (keys : List String) (children : List (String × Node))
      (counters : List (String × Nat))

/-- The five fields of a `Cache` instance. -/
structure CState where
  sheet : List String
  changeId : Nat
  keys : List String
  children : List (String × Node)
  counters : List (String × Nat)

def emptyCState : CState := ⟨[], 0, [], [], []⟩

def nodeId : Node → String
  | .selector _ i => i
  | .style _ i _ _ _ _ _ => i
  | .rule _ _ i _ _ _ _ _ => i

/-- `instanceof Cache`: true for the composite variants. -/
def isCache : Node → Bool
  | .selector _ _ => false
  | _ => true

/-- The cache fields of a composite node (empty for a `Selector`, which has
none; the operations never consult it there). -/
def cstate : Node → CState
  | .selector _ _ => emptyCState
  | .style _ _ sh cid k ch cnt => ⟨sh, cid, k, ch, cnt⟩
  | .rule _ _ _ sh cid k ch cnt => ⟨sh, cid, k, ch, cnt⟩

/-- Write back mutated cache fields (JS mutation in place). -/
def setCState : Node → CState → Node
  | .selector s i, _ => .selector s i
  | .style css i _ _ _ _ _, c =>
      .style css i c.sheet c.changeId c.keys c.children c.counters
  | .rule r css i _ _ _ _ _, c =>
      .rule r css i c.sheet c.changeId c.keys c.children c.counters

/-- `getStyles` of each node kind.  The composite renderings read the cached
`sheet` strings, exactly as the source does. -/
def renderNode : Node → String
  | .selector sel _ => sel
  | .style css _ sh _ _ _ _ => String.intercalate "," sh ++ "\x7b" ++ css ++ "\x7d"
  | .rule r css _ sh _ _ _ _ => r ++ "\x7b" ++ css ++ String.join sh ++ "\x7d"

/-- `values()`: the stored nodes in key order (`_keys.map(k => _children[k]!)`;
the non-null assertion holds in every reachable state, and `filterMap` skips
the impossible missing case). -/
def nodeValues (s : CState) : List Node := s.keys.filterMap (lookupA s.children)

/-! Depth of a node tree, the termination measure of the cache walkers. -/

mutual
def nodeDepth : Node → Nat
  | .selector _ _ => 0
  | .style _ _ _ _ _ ch _ => childDepth ch + 1
  | .rule _ _ _ _ _ _ ch _ => childDepth ch + 1
def childDepth : List (String × Node) → Nat
  | [] => 0
  | (_, n) :: rest => max (nodeDepth n) (childDepth rest)
end

def listNodeDepth : List Node → Nat
  | [] => 0
  | n :: rest => max (nodeDepth n) (listNodeDepth rest)

theorem nodeDepth_le_childDepth {ch : List (String × Node)} {k : String}
    {v : Node} (h : (k, v) ∈ ch) : nodeDepth v ≤ childDepth ch := by
  induction ch with
  | nil => simp at h
  | cons p rest ih =>
      obtain ⟨pk, pv⟩ := p
      rcases List.mem_cons.mp h with h1 | h1
      · cases h1
        rw [childDepth]
        exact Nat.le_max_left _ _
      · rw [childDepth]
        exact le_trans (ih h1) (Nat.le_max_right _ _)

theorem mem_nodeValues {s : CState} {v : Node} (h : v ∈ nodeValues s) :
    ∃ k, (k, v) ∈ s.children := by
  rw [nodeValues] at h
  obtain ⟨key, -, hl⟩ := List.mem_filterMap.mp h
  exact ⟨key, lookupA_mem hl⟩

theorem listNodeDepth_le {l : List Node} {K : Nat}
    (h : ∀ v ∈ l, nodeDepth v ≤ K) : listNodeDepth l ≤ K := by
  induction l with
  | nil => simp [listNodeDepth]
  | cons n rest ih =>
      rw [listNodeDepth]
      exact max_le (h _ (List.mem_cons_self _ _))
        (ih fun v hv => h v (List.mem_cons_of_mem _ hv))

theorem values_depth_lt_mk (sh : List String) (cid : Nat) (k : List String)
    (ch : List (String × Node)) (cnt : List (String × Nat)) :
    listNodeDepth (nodeValues ⟨sh, cid, k, ch, cnt⟩) < childDepth ch + 1 := by
  refine Nat.lt_succ_of_le (listNodeDepth_le fun v hv => ?_)
  obtain ⟨key, hk⟩ := mem_nodeValues hv
  exact nodeDepth_le_childDepth hk

/-- The values stored inside a composite node are strictly shallower. -/
theorem values_depth_lt {n : Node} (h : isCache n = true) :
    listNodeDepth (nodeValues (cstate n)) < nodeDepth n := by
  cases n with
  | selector s i => simp [isCache] at h
  | style css i sh cid k ch cnt =>
      have : listNodeDepth (nodeValues (cstate (.style css i sh cid k ch cnt))) ≤
          childDepth ch := by
        refine listNodeDepth_le fun v hv => ?_
        obtain ⟨key, hk⟩ := mem_nodeValues hv
        exact nodeDepth_le_childDepth (by simpa [cstate] using hk)
      calc listNodeDepth (nodeValues (cstate (.style css i sh cid k ch cnt)))
          ≤ childDepth ch := this
        _ < childDepth ch + 1 := Nat.lt_succ_self _
        _ = nodeDepth (.style css i sh cid k ch cnt) := by rw [nodeDepth]
  | rule r css i sh cid k ch cnt =>
      have : listNodeDepth (nodeValues (cstate (.rule r css i sh cid k ch cnt))) ≤
          childDepth ch := by
        refine listNodeDepth_le fun v hv => ?_
        obtain ⟨key, hk⟩ := mem_nodeValues hv
        exact nodeDepth_le_childDepth (by simpa [cstate] using hk)
      calc listNodeDepth (nodeValues (cstate (.rule r css i sh cid k ch cnt)))
          ≤ childDepth ch := this
        _ < childDepth ch + 1 := Nat.lt_succ_self _
        _ = nodeDepth (.rule r css i sh cid k ch cnt) := by rw [nodeDepth]

/-! Helper lemmas for the lexicographic termination measures. -/

theorem lex3_of_lt {a1 a2 b1 b2 c1 c2 : Nat} (ha : a1 < a2) :
    Prod.Lex (fun x y => x < y) (Prod.Lex (fun x y => x < y) fun x y => x < y)
      (a1, b1, c1) (a2, b2, c2) :=
  Prod.Lex.left _ _ ha

theorem lex3_of_le_lt {a1 a2 b1 b2 c1 c2 : Nat} (ha : a1 ≤ a2) (hb : b1 < b2) :
    Prod.Lex (fun x y => x < y) (Prod.Lex (fun x y => x < y) fun x y => x < y)
      (a1, b1, c1) (a2, b2, c2) := by
  rcases lt_or_eq_of_le ha with h | h
  · exact Prod.Lex.left _ _ h
  · rw [h]
    exact Prod.Lex.right _ (Prod.Lex.left _ _ hb)

theorem lex3_of_le_le_lt {a1 a2 b1 b2 c1 c2 : Nat} (ha : a1 ≤ a2) (hb : b1 ≤ b2)
    (hc : c1 < c2) :
    Prod.Lex (fun x y => x < y) (Prod.Lex (fun x y => x < y) fun x y => x < y)
      (a1, b1, c1) (a2, b2, c2) := by
  rcases lt_or_eq_of_le ha with h | h
  · exact Prod.Lex.left _ _ h
  · rw [h]
    rcases lt_or_eq_of_le hb with h2 | h2
    · exact Prod.Lex.right _ (Prod.Lex.left _ _ h2)
    · rw [h2]
      exact Prod.Lex.right _ (Prod.Lex.right _ hc)

/-- Change events as passed to a cache's `Changes` handler; the node
argument is identified by its id.  Only the top-level `FreeStyle` cache has
a non-noop handler; the caches owned by `Style`/`Rule` nodes are constructed
with the noop handler, so the events the model returns for their internal
operations are discarded, exactly as the noop callbacks discard them. -/
inductive CEvent where
  | add (id : String) (index : Nat)
  | change (id : String) (oldIndex : Nat) (newIndex : Nat)
  | remove (id : String) (index : Nat)
deriving DecidableEq

def CEvent.isRemove : CEvent → Bool
  | .remove _ _ => true
  | _ => false

def CEvent.isChangeSameIndex : CEvent → Bool
  | .change _ o n => o = n
  | _ => false

mutual
/-- `Cache.prototype.add`.  Returns the new state together with the events
handed to this cache's `changes` handler. -/
def cacheAdd (s : CState) (style : Node) : CState × List CEvent :=
  let count := (lookupA s.counters (nodeId style)).getD 0
  let item := match lookupA s.children (nodeId style) with
    | some it => it
    | none => cloneNode style
  let counters1 := assocSet s.counters (nodeId style) (count + 1)
  if count = 0 then
    ({ sheet := s.sheet ++ [renderNode item], changeId := s.changeId + 1,
       keys := s.keys ++ [nodeId item],
       children := assocSet s.children (nodeId item) item,
       counters := counters1 },
     [CEvent.add (nodeId item) s.keys.length])
  else if hc : isCache item && isCache style then
    let curIndex := idxOfStr s.keys (nodeId style)
    -- `item.merge(style)` mutates `item`'s cache fields in place; reading
    -- `item.changeId` after the merge reads the merged state's counter.
    -- When `item` came from the dictionary the mutation is visible there,
    -- otherwise it only affects the transient clone (unreachable for
    -- well-formed caches).
    let mergedState := mergeCState (cstate item) (nodeValues (cstate style))
    let merged := setCState item mergedState
    let children1 := match lookupA s.children (nodeId style) with
      | some _ => assocSet s.children (nodeId style) merged
      | none => s.children
    if mergedState.changeId ≠ (cstate item).changeId then
      ({ sheet := s.sheet.set curIndex (renderNode merged),
         changeId := s.changeId + 1, keys := s.keys, children := children1,
         counters := counters1 },
       [CEvent.change (nodeId merged) curIndex curIndex])
    else
      ({ s with counters := counters1, children := children1 }, [])
  else
    ({ s with counters := counters1 }, [])
termination_by (nodeDepth style, 1, 0)
decreasing_by
  · exact Prod.Lex.right _ (Prod.Lex.left _ _ (by omega))
  · refine lex3_of_lt ?_
    simp only [Bool.and_eq_true] at hc
    exact values_depth_lt hc.2

/-- `new Style/Rule(...).merge(this)`: a clone is a fresh node of the same
content whose cache re-adds every stored value once. -/
def cloneNode : Node → Node
  | .selector s i => .selector s i
  | .style css i sh cid k ch cnt =>
      let c := mergeCState emptyCState (nodeValues ⟨sh, cid, k, ch, cnt⟩)
      .style css i c.sheet c.changeId c.keys c.children c.counters
  | .rule r css i sh cid k ch cnt =>
      let c := mergeCState emptyCState (nodeValues ⟨sh, cid, k, ch, cnt⟩)
      .rule r css i c.sheet c.changeId c.keys c.children c.counters
termination_by n => (nodeDepth n, 0, 0)
decreasing_by
  · refine lex3_of_lt ?_
    simp only [nodeDepth]
    exact values_depth_lt_mk _ _ _ _ _
  · refine lex3_of_lt ?_
    simp only [nodeDepth]
    exact values_depth_lt_mk _ _ _ _ _

/-- `merge`: add every value of the other cache, in key order.  The events
of the inner `add` calls go to the merged-into cache's own (noop) handler. -/
def mergeCState (s : CState) (vs : List Node) : CState :=
  match vs with
  | [] => s
  | v :: rest => mergeCState (cacheAdd s v).1 rest
termination_by (listNodeDepth vs, 2, vs.length)
decreasing_by
  · refine lex3_of_le_lt ?_ (by omega)
    rw [listNodeDepth]
    exact Nat.le_max_left _ _
  · refine lex3_of_le_le_lt ?_ le_rfl (by simp)
    rw [listNodeDepth]
    exact Nat.le_max_right _ _
end

mutual
/-- `Cache.prototype.remove`.  An unknown id (or an id whose counter slot
reads `0`, which no reachable state stores) is a silent no-op. -/
def cacheRemove (s : CState) (style : Node) : CState × List CEvent :=
  match lookupA s.counters (nodeId style) with
  | none => (s, [])
  | some count =>
    if count = 0 then (s, [])
    else
      let counters1 := assocSet s.counters (nodeId style) (count - 1)
      match lookupA s.children (nodeId style) with
      | none =>
          -- unreachable for well-formed caches (`_children[style.id]!`):
          -- JS would throw reading `item.id` after the counter write
          ({ s with counters := counters1 }, [])
      | some item =>
        let index := idxOfStr s.keys (nodeId item)
        if count = 1 then
          ({ sheet := s.sheet.eraseIdx index, changeId := s.changeId + 1,
             keys := s.keys.eraseIdx index,
             children := assocDelete s.children (nodeId style),
             counters := assocDelete counters1 (nodeId style) },
           [CEvent.remove (nodeId item) index])
        else if hc : isCache item && isCache style then
          -- `item.unmerge(style)` mutates in place, as in `add`
          let mergedState := unmergeCState (cstate item) (nodeValues (cstate style))
          let merged := setCState item mergedState
          let children1 := assocSet s.children (nodeId style) merged
          if mergedState.changeId ≠ (cstate item).changeId then
            ({ sheet := s.sheet.set index (renderNode merged),
               changeId := s.changeId + 1, keys := s.keys,
               children := children1, counters := counters1 },
             [CEvent.change (nodeId merged) index index])
          else
            ({ s with counters := counters1, children := children1 }, [])
        else
          ({ s with counters := counters1 }, [])
termination_by (nodeDepth style, 1, 0)
decreasing_by
  · refine lex3_of_lt ?_
    simp only [Bool.and_eq_true] at hc
    exact values_depth_lt hc.2

/-- `unmerge`: remove every value of the other cache, in key order. -/
def unmergeCState (s : CState) (vs : List Node) : CState :=
  match vs with
  | [] => s
  | v :: rest => unmergeCState (cacheRemove s v).1 rest
termination_by (listNodeDepth vs, 2, vs.length)
decreasing_by
  · refine lex3_of_le_lt ?_ (by omega)
    rw [listNodeDepth]
    exact Nat.le_max_left _ _
  · refine lex3_of_le_le_lt ?_ le_rfl (by simp)
    rw [listNodeDepth]
    exact Nat.le_max_right _ _
end

/-! ### `composeStylize` and the registration entry point -/

/-- One composed `Style` node: `new Style(style, id)` followed by
`item.add(new Selector(key, "k\0" + pid + "\0" + key))` on its (empty,
noop-handled) cache. -/
def mkStyleNode (style id pid key : String) : Node :=
  let r := cacheAdd emptyCState
    (Node.selector key ("k\x00" ++ pid ++ "\x00" ++ key))
  Node.style style id r.1.sheet r.1.changeId r.1.keys r.1.children r.1.counters

/-- The flat-style loop of `composeStylize`: construct the `Style` node of
each `StylizeStyle` entry, threading the global `uniqueId` counter through
the `(++uniqueId)` bumps of unique entries.  Construction never reads the
target cache, so `composeStylize` below is factored into building this node
list and then folding `cache.add` over it, which is observably the same as
the source's interleaved build-and-add loop. -/
def composeNodesStyles (uid : Nat) (pid : String) (stylesList : List StylizeStyle)
    (className : String) (isStyle : Bool) : List Node × Nat :=
  match stylesList with
  | [] => ([], uid)
  | st :: rest =>
      let key := if isStyle then interpolate st.selector className else st.selector
      let idUid : String × Nat :=
        if st.isUnique then ("u\x00" ++ toBase36 (uid + 1), uid + 1)
        else ("s\x00" ++ pid ++ "\x00" ++ st.style, uid)
      let node := mkStyleNode st.style idUid.1 pid key
      let r := composeNodesStyles idUid.2 pid rest className isStyle
      (node :: r.1, r.2)

/-- The rule loop of `composeStylize`: a `Rule` node per `StylizeRule`,
recursively composed from its own styles-then-rules accumulators. -/
def composeNodesRules (uid : Nat) (pid : String) (rulesList : List StylizeRule)
    (className : String) (isStyle : Bool) : List Node × Nat :=
  match rulesList with
  | [] => ([], uid)
  | StylizeRule.mk sel sty rules styles :: rest =>
      let rid := "r\x00" ++ pid ++ "\x00" ++ sel ++ "\x00" ++ sty
      let sres := composeNodesStyles uid pid styles className isStyle
      let rres := composeNodesRules sres.2 pid rules className isStyle
      let c := mergeCState emptyCState (sres.1 ++ rres.1)
      let node := Node.rule sel sty rid c.sheet c.changeId c.keys c.children
        c.counters
      let r := composeNodesRules rres.2 pid rest className isStyle
      (node :: r.1, r.2)

/-- `composeStylize`: all flat styles first, then all rules, added to the
target cache in accumulator order. -/
def composeStylize (cache : CState) (uid : Nat) (pid : String)
    (rulesList : List StylizeRule) (stylesList : List StylizeStyle)
    (className : String) (isStyle : Bool) : CState × Nat :=
  let sres := composeNodesStyles uid pid stylesList className isStyle
  let rres := composeNodesRules sres.2 pid rulesList className isStyle
  (mergeCState cache (sres.1 ++ rres.1), rres.2)

/-- The `key` helper: base-36 content hash, with the `$displayName` label
prefixed outside production mode (an empty label is falsy in JS and is
ignored like a missing one). -/
def key (pid : String) (styles : Styles) (prod : Bool) : String :=
  let k := "f" ++ stringHash pid
  match styles.displayName with
  | none => k
  | some dn => if prod ∨ dn = "" then k else dn ++ "_" ++ k

/-- `FreeStyle.prototype.registerStyle`, acting on the top-level cache state
and the global `uniqueId` counter; returns the identifier and the new
state. -/
def registerStyle (cache : CState) (uid : Nat) (styles : Styles)
    (prod : Bool) : String × CState × Nat :=
  let r := stylize "&" styles [] [] ""
  let id := key r.2.2 styles prod
  let selector := "." ++ (if prod then id else escape id)
  let c := composeStylize cache uid r.2.2 r.1 r.2.1 selector true
  (id, c.1, c.2)

/-- `FreeStyle.prototype.getStyles`: concatenation of the cached texts. -/
def getStyles (cache : CState) : String := String.join cache.sheet

/-! ### Basic lemmas about the cache operations -/

/-! ### Case-equation lemmas for the cache operations -/

/-- Counter read with JS `|| 0` defaulting. -/
def lookupD (l : List (String × Nat)) (k : String) : Nat := (lookupA l k).getD 0

theorem setCState_id (n : Node) (c : CState) : nodeId (setCState n c) = nodeId n := by
  cases n <;> rfl

theorem isCache_setCState (n : Node) (c : CState) :
    isCache (setCState n c) = isCache n := by
  cases n <;> rfl

theorem cstate_setCState {n : Node} (c : CState) (h : isCache n = true) :
    cstate (setCState n c) = c := by
  cases n with
  | selector s i => simp [isCache] at h
  | style css i sh cid k ch cnt => rfl
  | rule r css i sh cid k ch cnt => rfl

theorem cloneNode_id (n : Node) : nodeId (cloneNode n) = nodeId n := by
  cases n <;> simp [cloneNode, nodeId]

theorem isCache_cloneNode (n : Node) : isCache (cloneNode n) = isCache n := by
  cases n <;> simp [cloneNode, isCache]

theorem cstate_cloneNode {n : Node} (h : isCache n = true) :
    cstate (cloneNode n) = mergeCState emptyCState (nodeValues (cstate n)) := by
  cases n with
  | selector s i => simp [isCache] at h
  | style css i sh cid k ch cnt => simp [cloneNode, cstate]
  | rule r css i sh cid k ch cnt => simp [cloneNode, cstate]

theorem cloneNode_selector (sel i : String) :
    cloneNode (Node.selector sel i) = Node.selector sel i := by
  simp [cloneNode]

/-- `getStyles` only reads a node's own static fields and its cached
`sheet`, so replacing the cache state with one of equal `sheet` preserves
the rendering. -/
theorem renderNode_setCState {n : Node} {c : CState}
    (h : c.sheet = (cstate n).sheet) :
    renderNode (setCState n c) = renderNode n := by
  cases n with
  | selector s i => rfl
  | style css i sh cid k ch cnt =>
      simp only [cstate] at h
      simp [setCState, renderNode, h]
  | rule r css i sh cid k ch cnt =>
      simp only [cstate] at h
      simp [setCState, renderNode, h]

theorem mergeCState_nil (s : CState) : mergeCState s [] = s := by
  rw [mergeCState]

theorem mergeCState_cons (s : CState) (v : Node) (rest : List Node) :
    mergeCState s (v :: rest) = mergeCState (cacheAdd s v).1 rest := by
  rw [mergeCState]

theorem unmergeCState_nil (s : CState) : unmergeCState s [] = s := by
  rw [unmergeCState]

theorem unmergeCState_cons (s : CState) (v : Node) (rest : List Node) :
    unmergeCState s (v :: rest) = unmergeCState (cacheRemove s v).1 rest := by
  rw [unmergeCState]

/-- `Cache.add`, fresh-id branch (with the id also absent from the children
dictionary, as in every well-formed state): adopt a clone. -/
theorem cacheAdd_fresh {s : CState} {n : Node}
    (h : lookupD s.counters (nodeId n) = 0)
    (hch : lookupA s.children (nodeId n) = none) :
    cacheAdd s n =
      ({ sheet := s.sheet ++ [renderNode (cloneNode n)],
         changeId := s.changeId + 1,
         keys := s.keys ++ [nodeId n],
         children := assocSet s.children (nodeId n) (cloneNode n),
         counters := assocSet s.counters (nodeId n) 1 },
       [CEvent.add (nodeId n) s.keys.length]) := by
  rw [cacheAdd, hch]
  rw [lookupD] at h
  simp only [h, if_pos rfl, cloneNode_id]
  simp

/-- `Cache.add`, seen id, at least one of stored/incoming not a composite:
only the reference count moves. -/
theorem cacheAdd_seen_flat {s : CState} {n : Node} {item : Node}
    (h : lookupD s.counters (nodeId n) ≠ 0)
    (hch : lookupA s.children (nodeId n) = some item)
    (hc : (isCache item && isCache n) = false) :
    cacheAdd s n =
      ({ s with counters := (assocSet s.counters (nodeId n)
          (lookupD s.counters (nodeId n) + 1)) }, []) := by
  rw [cacheAdd, hch]
  rw [lookupD] at h ⊢
  simp only [if_neg h]
  rw [dif_neg (by simp [hc])]

/-- `Cache.add`, seen id, both composite, the sub-merge changed the stored
node: splice the re-rendered text in place and emit `change` with equal
indices. -/
theorem cacheAdd_seen_changed {s : CState} {n : Node} {item : Node}
    (h : lookupD s.counters (nodeId n) ≠ 0)
    (hch : lookupA s.children (nodeId n) = some item)
    (hc : (isCache item && isCache n) = true)
    (h3 : (mergeCState (cstate item) (nodeValues (cstate n))).changeId ≠
      (cstate item).changeId) :
    cacheAdd s n =
      ({ sheet := (s.sheet.set (idxOfStr s.keys (nodeId n))
           (renderNode (setCState item
             (mergeCState (cstate item) (nodeValues (cstate n)))))),
         changeId := s.changeId + 1, keys := s.keys,
         children := (assocSet s.children (nodeId n)
           (setCState item (mergeCState (cstate item) (nodeValues (cstate n))))),
         counters := (assocSet s.counters (nodeId n)
           (lookupD s.counters (nodeId n) + 1)) },
       [CEvent.change (nodeId item) (idxOfStr s.keys (nodeId n))
          (idxOfStr s.keys (nodeId n))]) := by
  rw [cacheAdd, hch]
  rw [lookupD] at h ⊢
  simp only [if_neg h]
  rw [dif_pos hc]
  rw [if_pos h3]
  simp only [setCState_id]

/-- `Cache.add`, seen id, both composite, silent sub-merge: the reference
count moves and the (invisibly) mutated node is written back. -/
theorem cacheAdd_seen_silent {s : CState} {n : Node} {item : Node}
    (h : lookupD s.counters (nodeId n) ≠ 0)
    (hch : lookupA s.children (nodeId n) = some item)
    (hc : (isCache item && isCache n) = true)
    (h3 : (mergeCState (cstate item) (nodeValues (cstate n))).changeId =
      (cstate item).changeId) :
    cacheAdd s n =
      ({ s with children := (assocSet s.children (nodeId n)
                  (setCState item (mergeCState (cstate item) (nodeValues (cstate n))))),
                counters := (assocSet s.counters (nodeId n)
                  (lookupD s.counters (nodeId n) + 1)) }, []) := by
  rw [cacheAdd, hch]
  rw [lookupD] at h ⊢
  simp only [if_neg h]
  rw [dif_pos hc]
  rw [if_neg (by simp [h3])]

/-- `Cache.remove` of an id with no (or a zeroed) counter entry is a silent
no-op. -/
theorem cacheRemove_absent {s : CState} {n : Node}
    (h : lookupD s.counters (nodeId n) = 0) :
    cacheRemove s n = (s, []) := by
  rw [cacheRemove]
  rw [lookupD] at h
  cases hcnt : lookupA s.counters (nodeId n) with
  | none => rfl
  | some c =>
      rw [hcnt] at h
      simp only [Option.getD_some] at h
      simp [h]

/-- `Cache.remove`, last reference: delete the entry, its key and its text
slot, and emit exactly one `remove`. -/
theorem cacheRemove_last {s : CState} {n : Node} {item : Node}
    (h : lookupA s.counters (nodeId n) = some 1)
    (hch : lookupA s.children (nodeId n) = some item) :
    cacheRemove s n =
      ({ sheet := s.sheet.eraseIdx (idxOfStr s.keys (nodeId item)),
         changeId := s.changeId + 1,
         keys := s.keys.eraseIdx (idxOfStr s.keys (nodeId item)),
         children := assocDelete s.children (nodeId n),
         counters := (assocDelete (assocSet s.counters (nodeId n) 0) (nodeId n)) },
       [CEvent.remove (nodeId item) (idxOfStr s.keys (nodeId item))]) := by
  rw [cacheRemove, h, hch]
  simp

/-- `Cache.remove`, remaining references, at least one side not composite:
only the counter moves. -/
theorem cacheRemove_dec_flat {s : CState} {n : Node} {item : Node} {c : Nat}
    (h : lookupA s.counters (nodeId n) = some c) (hc1 : c ≠ 0) (hc2 : c ≠ 1)
    (hch : lookupA s.children (nodeId n) = some item)
    (hflat : (isCache item && isCache n) = false) :
    cacheRemove s n =
      ({ s with counters := assocSet s.counters (nodeId n) (c - 1) }, []) := by
  rw [cacheRemove, h, hch]
  simp only [if_neg hc1, if_neg hc2]
  rw [dif_neg (by simp [hflat])]

/-- `Cache.remove`, remaining references, both composite, the sub-unmerge
changed the stored node: splice the re-rendered text and emit `change`. -/
theorem cacheRemove_dec_changed {s : CState} {n : Node} {item : Node} {c : Nat}
    (h : lookupA s.counters (nodeId n) = some c) (hc1 : c ≠ 0) (hc2 : c ≠ 1)
    (hch : lookupA s.children (nodeId n) = some item)
    (hcc : (isCache item && isCache n) = true)
    (h3 : (unmergeCState (cstate item) (nodeValues (cstate n))).changeId ≠
      (cstate item).changeId) :
    cacheRemove s n =
      ({ sheet := (s.sheet.set (idxOfStr s.keys (nodeId item))
           (renderNode (setCState item
             (unmergeCState (cstate item) (nodeValues (cstate n)))))),
         changeId := s.changeId + 1, keys := s.keys,
         children := (assocSet s.children (nodeId n)
           (setCState item (unmergeCState (cstate item) (nodeValues (cstate n))))),
         counters := assocSet s.counters (nodeId n) (c - 1) },
       [CEvent.change (nodeId item) (idxOfStr s.keys (nodeId item))
          (idxOfStr s.keys (nodeId item))]) := by
  rw [cacheRemove, h, hch]
  simp only [if_neg hc1, if_neg hc2]
  rw [dif_pos hcc]
  rw [if_pos h3]
  simp only [setCState_id]

/-- `Cache.remove`, remaining references, both composite, silent
sub-unmerge. -/
theorem cacheRemove_dec_silent {s : CState} {n : Node} {item : Node} {c : Nat}
    (h : lookupA s.counters (nodeId n) = some c) (hc1 : c ≠ 0) (hc2 : c ≠ 1)
    (hch : lookupA s.children (nodeId n) = some item)
    (hcc : (isCache item && isCache n) = true)
    (h3 : (unmergeCState (cstate item) (nodeValues (cstate n))).changeId =
      (cstate item).changeId) :
    cacheRemove s n =
      ({ s with children := (assocSet s.children (nodeId n)
                  (setCState item (unmergeCState (cstate item) (nodeValues (cstate n))))),
                counters := assocSet s.counters (nodeId n) (c - 1) }, []) := by
  rw [cacheRemove, h, hch]
  simp only [if_neg hc1, if_neg hc2]
  rw [dif_pos hcc]
  rw [if_neg (by simp [h3])]


/-! ### Structural invariants of reachable cache states -/

mutual
def nodeSz : Node → Nat
  | .selector _ _ => 1
  | .style _ _ _ _ _ ch _ => chSz ch + 1
  | .rule _ _ _ _ _ _ ch _ => chSz ch + 1
def chSz : List (String × Node) → Nat
  | [] => 0
  | (_, n) :: rest => nodeSz n + chSz rest + 1
end

theorem nodeSz_lt_chSz {ch : List (String × Node)} {k : String} {v : Node}
    (h : (k, v) ∈ ch) : nodeSz v < chSz ch := by
  induction ch with
  | nil => simp at h
  | cons p rest ih =>
      obtain ⟨pk, pv⟩ := p
      rcases List.mem_cons.mp h with h1 | h1
      · cases h1
        rw [chSz]
        omega
      · rw [chSz]
        have := ih h1
        omega

theorem cSz_cstate_lt (n : Node) : chSz (cstate n).children < nodeSz n := by
  cases n with
  | selector s i => simp [cstate, emptyCState, chSz, nodeSz]
  | style css i sh cid k ch cnt => simp [cstate, nodeSz]
  | rule r css i sh cid k ch cnt => simp [cstate, nodeSz]

theorem nodeSz_lt_of_child {s : CState} {k : String} {v : Node}
    (h : lookupA s.children k = some v) :
    chSz (cstate v).children < chSz s.children := by
  have h1 := nodeSz_lt_chSz (lookupA_mem h)
  have h2 := cSz_cstate_lt v
  omega

theorem nodeSz_lt_of_value {s : CState} {v : Node} (h : v ∈ nodeValues s) :
    nodeSz v < chSz s.children + 1 := by
  obtain ⟨k, hk⟩ := mem_nodeValues h
  have := nodeSz_lt_chSz hk
  omega

theorem nodeSz_value_lt {n : Node} {v : Node}
    (h : v ∈ nodeValues (cstate n)) : nodeSz v < nodeSz n := by
  have h1 := nodeSz_lt_of_value h
  have h2 := cSz_cstate_lt n
  omega

/-- Deep well-formedness of a cache state, as established by every sequence
of operations from an empty cache:
* every stored node is keyed by its own id;
* every stored node's own cache is recursively well-formed;
* an id has a stored node exactly when its reference count is positive. -/
def stateWF (s : CState) : Prop :=
  (∀ k it, lookupA s.children k = some it →
    nodeId it = k ∧ stateWF (cstate it)) ∧
  (∀ i, (lookupA s.children i).isSome ↔ 0 < lookupD s.counters i)
termination_by chSz s.children
decreasing_by
  exact nodeSz_lt_of_child (by assumption)

theorem stateWF_def (s : CState) : stateWF s ↔
    ((∀ k it, lookupA s.children k = some it →
      nodeId it = k ∧ stateWF (cstate it)) ∧
     (∀ i, (lookupA s.children i).isSome ↔ 0 < lookupD s.counters i)) := by
  rw [stateWF]

theorem stateWF_empty : stateWF emptyCState := by
  rw [stateWF]
  constructor
  · intro k it h
    simp [emptyCState] at h
  · intro i
    simp [emptyCState, lookupD]

/-- The stored node's content subsumes `n`: `n`'s id is present with a
positive count, and (when both the stored node and `n` are composites)
every value of `n` is recursively absorbed in the stored node's cache.
Adding an absorbed node is silent: only reference counts move. -/
def absorbs (s : CState) (n : Node) : Prop :=
  0 < lookupD s.counters (nodeId n) ∧
  ∀ item, lookupA s.children (nodeId n) = some item →
    (isCache item && isCache n) = true →
      ∀ v ∈ nodeValues (cstate n), absorbs (cstate item) v
termination_by nodeSz n
decreasing_by
  exact nodeSz_value_lt (by assumption)

theorem absorbs_def (s : CState) (n : Node) : absorbs s n ↔
    (0 < lookupD s.counters (nodeId n) ∧
     ∀ item, lookupA s.children (nodeId n) = some item →
       (isCache item && isCache n) = true →
         ∀ v ∈ nodeValues (cstate n), absorbs (cstate item) v) := by
  rw [absorbs]

/-! ### Flat facts about single operations and their folds -/

/-- Every branch of `add` writes `count + 1` into the counter slot. -/
theorem cacheAdd_counters (s : CState) (n : Node) :
    (cacheAdd s n).1.counters =
      assocSet s.counters (nodeId n) (lookupD s.counters (nodeId n) + 1) := by
  rw [cacheAdd, lookupD]
  cases hch : lookupA s.children (nodeId n) <;>
    simp only [hch] <;> split_ifs <;> rfl

theorem cacheAdd_changeId_ge (s : CState) (n : Node) :
    s.changeId ≤ (cacheAdd s n).1.changeId := by
  rw [cacheAdd]
  cases hch : lookupA s.children (nodeId n) <;>
    simp only [hch] <;> split_ifs <;> simp

theorem cacheAdd_silent {s : CState} {n : Node}
    (h : (cacheAdd s n).1.changeId = s.changeId) :
    (cacheAdd s n).1.keys = s.keys ∧ (cacheAdd s n).1.sheet = s.sheet ∧
      (cacheAdd s n).2 = [] := by
  rw [cacheAdd] at h ⊢
  cases hch : lookupA s.children (nodeId n) <;>
    simp only [] at h ⊢ <;> split_ifs at h ⊢ <;> simp_all

theorem cacheAdd_keys_seen {s : CState} {n : Node}
    (h : lookupD s.counters (nodeId n) ≠ 0) :
    (cacheAdd s n).1.keys = s.keys := by
  rw [lookupD] at h
  rw [cacheAdd]
  cases hch : lookupA s.children (nodeId n) <;>
    simp only [hch] <;> split_ifs <;> simp_all

theorem cacheRemove_changeId_ge (s : CState) (n : Node) :
    s.changeId ≤ (cacheRemove s n).1.changeId := by
  rw [cacheRemove]
  cases hc : lookupA s.counters (nodeId n) with
  | none => simp
  | some c =>
      cases hch : lookupA s.children (nodeId n) <;>
        simp only [hch] <;> split_ifs <;> simp

theorem cacheRemove_silent {s : CState} {n : Node}
    (h : (cacheRemove s n).1.changeId = s.changeId) :
    (cacheRemove s n).1.keys = s.keys ∧ (cacheRemove s n).1.sheet = s.sheet ∧
      (cacheRemove s n).2 = [] := by
  rw [cacheRemove] at h ⊢
  cases hc : lookupA s.counters (nodeId n) with
  | none => simp
  | some c =>
      simp only [] at h ⊢
      cases hch : lookupA s.children (nodeId n) <;>
        simp only [hch] at h ⊢ <;> split_ifs at h ⊢ <;> simp_all

theorem mergeCState_changeId_ge (s : CState) (vs : List Node) :
    s.changeId ≤ (mergeCState s vs).changeId := by
  induction vs generalizing s with
  | nil => rw [mergeCState_nil]
  | cons v rest ih =>
      rw [mergeCState_cons]
      exact le_trans (cacheAdd_changeId_ge s v) (ih _)

/-- A merge that does not move the change counter moves neither the key
list nor the text list: `changeId` bumps exactly when something observable
changes. -/
theorem mergeCState_silent {s : CState} {vs : List Node}
    (h : (mergeCState s vs).changeId = s.changeId) :
    (mergeCState s vs).keys = s.keys ∧ (mergeCState s vs).sheet = s.sheet := by
  induction vs generalizing s with
  | nil => rw [mergeCState_nil]; exact ⟨rfl, rfl⟩
  | cons v rest ih =>
      rw [mergeCState_cons] at h ⊢
      have h1 : (cacheAdd s v).1.changeId = s.changeId := by
        have := cacheAdd_changeId_ge s v
        have := mergeCState_changeId_ge (cacheAdd s v).1 rest
        omega
      obtain ⟨hk, hs, -⟩ := cacheAdd_silent h1
      have h2 := ih (s := (cacheAdd s v).1) (by rw [h, h1])
      exact ⟨h2.1.trans hk, h2.2.trans hs⟩

theorem unmergeCState_changeId_ge (s : CState) (vs : List Node) :
    s.changeId ≤ (unmergeCState s vs).changeId := by
  induction vs generalizing s with
  | nil => rw [unmergeCState_nil]
  | cons v rest ih =>
      rw [unmergeCState_cons]
      exact le_trans (cacheRemove_changeId_ge s v) (ih _)

theorem unmergeCState_silent {s : CState} {vs : List Node}
    (h : (unmergeCState s vs).changeId = s.changeId) :
    (unmergeCState s vs).keys = s.keys ∧
      (unmergeCState s vs).sheet = s.sheet := by
  induction vs generalizing s with
  | nil => rw [unmergeCState_nil]; exact ⟨rfl, rfl⟩
  | cons v rest ih =>
      rw [unmergeCState_cons] at h ⊢
      have h1 : (cacheRemove s v).1.changeId = s.changeId := by
        have := cacheRemove_changeId_ge s v
        have := unmergeCState_changeId_ge (cacheRemove s v).1 rest
        omega
      obtain ⟨hk, hs, -⟩ := cacheRemove_silent h1
      have h2 := ih (s := (cacheRemove s v).1) (by rw [h, h1])
      exact ⟨h2.1.trans hk, h2.2.trans hs⟩

/-- Reference counters are additive: each `add` bumps exactly the incoming
node's id. -/
theorem cacheAdd_lookupD (s : CState) (n : Node) (i : String) :
    lookupD (cacheAdd s n).1.counters i =
      lookupD s.counters i + (if nodeId n = i then 1 else 0) := by
  rw [lookupD, cacheAdd_counters]
  by_cases hi : nodeId n = i
  · subst hi
    rw [lookupA_assocSet_self]
    simp [lookupD]
  · rw [lookupA_assocSet_ne _ _ _ _ hi]
    simp [lookupD, hi]

/-- Count of nodes with a given id in a list. -/
def countId (vs : List Node) (i : String) : Nat :=
  (vs.filter fun v => nodeId v = i).length

theorem mergeCState_lookupD (s : CState) (vs : List Node) (i : String) :
    lookupD (mergeCState s vs).counters i =
      lookupD s.counters i + countId vs i := by
  induction vs generalizing s with
  | nil => rw [mergeCState_nil]; simp [countId]
  | cons v rest ih =>
      rw [mergeCState_cons, ih, cacheAdd_lookupD]
      by_cases hv : nodeId v = i <;> simp [countId, hv] <;> omega

/-! ### Preservation of `stateWF` -/

theorem cstate_cloneNode_flat {n : Node} (h : isCache n = false) :
    cstate (cloneNode n) = emptyCState := by
  cases n with
  | selector s i => rw [cloneNode_selector]; rfl
  | style css i sh cid k ch cnt => simp [isCache] at h
  | rule r css i sh cid k ch cnt => simp [isCache] at h

/-- `stateWF` only reads the dictionaries. -/
theorem stateWF_congr {s t : CState} (hch : s.children = t.children)
    (hcnt : s.counters = t.counters) (h : stateWF s) : stateWF t := by
  rw [stateWF_def] at h ⊢
  rw [← hch, ← hcnt]
  exact h

theorem stateWF_cacheAdd_aux :
    ∀ N n, nodeSz n ≤ N → ∀ s, stateWF s → stateWF (cacheAdd s n).1 := by
  intro N
  induction N using Nat.strong_induction_on with
  | _ N IH =>
    intro n hn s hs
    have hfold : ∀ vs : List Node, (∀ v ∈ vs, nodeSz v < N) →
        ∀ t, stateWF t → stateWF (mergeCState t vs) := by
      intro vs
      induction vs with
      | nil => intro _ t ht; rw [mergeCState_nil]; exact ht
      | cons v rest ihv =>
          intro hv t ht
          rw [mergeCState_cons]
          exact ihv (fun w hw => hv w (List.mem_cons_of_mem _ hw)) _
            (IH (nodeSz v) (hv v (List.mem_cons_self _ _)) v le_rfl t ht)
    have hvals : ∀ v ∈ nodeValues (cstate n), nodeSz v < N :=
      fun v hv => lt_of_lt_of_le (nodeSz_value_lt hv) hn
    obtain ⟨hs1, hs2⟩ := (stateWF_def s).mp hs
    by_cases hcnt : lookupD s.counters (nodeId n) = 0
    · -- fresh id
      have hch : lookupA s.children (nodeId n) = none := by
        rcases hopt : lookupA s.children (nodeId n) with - | it
        · rfl
        · exact absurd ((hs2 (nodeId n)).mp (by rw [hopt]; rfl)) (by omega)
      rw [cacheAdd_fresh hcnt hch]
      rw [stateWF_def]
      constructor
      · intro k it hit
        by_cases hk : nodeId n = k
        · subst hk
          rw [lookupA_assocSet_self] at hit
          cases hit
          refine ⟨cloneNode_id n, ?_⟩
          by_cases hcn : isCache n = true
          · rw [cstate_cloneNode hcn]
            exact hfold _ hvals _ stateWF_empty
          · rw [cstate_cloneNode_flat (by simpa using hcn)]
            exact stateWF_empty
        · rw [lookupA_assocSet_ne _ _ _ _ hk] at hit
          exact hs1 k it hit
      · intro i
        by_cases hi : nodeId n = i
        · subst hi
          rw [lookupA_assocSet_self]
          simp [lookupD, lookupA_assocSet_self]
        · rw [lookupA_assocSet_ne _ _ _ _ hi]
          rw [lookupD, lookupA_assocSet_ne _ _ _ _ hi]
          exact hs2 i
    · -- seen id
      have hsome : (lookupA s.children (nodeId n)).isSome := by
        refine (hs2 (nodeId n)).mpr ?_
        omega
      obtain ⟨item, hch⟩ := Option.isSome_iff_exists.mp hsome
      obtain ⟨hid, hwf_item⟩ := hs1 (nodeId n) item hch
      by_cases hcc : (isCache item && isCache n) = true
      · -- merge branch (silent or changed): same dictionaries either way
        have hmain : stateWF
            { sheet := [], changeId := 0, keys := [],
              children := (assocSet s.children (nodeId n)
                (setCState item
                  (mergeCState (cstate item) (nodeValues (cstate n))))),
              counters := (assocSet s.counters (nodeId n)
                (lookupD s.counters (nodeId n) + 1)) } := by
          rw [stateWF_def]
          constructor
          · intro k it hit
            by_cases hk : nodeId n = k
            · subst hk
              rw [lookupA_assocSet_self] at hit
              cases hit
              refine ⟨by rw [setCState_id, hid], ?_⟩
              rw [cstate_setCState _ ((Bool.and_eq_true _ _).mp hcc).1]
              exact hfold _ hvals _ hwf_item
            · rw [lookupA_assocSet_ne _ _ _ _ hk] at hit
              exact hs1 k it hit
          · intro i
            by_cases hi : nodeId n = i
            · subst hi
              rw [lookupA_assocSet_self]
              simp [lookupD, lookupA_assocSet_self]
            · rw [lookupA_assocSet_ne _ _ _ _ hi]
              rw [lookupD, lookupA_assocSet_ne _ _ _ _ hi]
              exact hs2 i
        by_cases h3 : (mergeCState (cstate item) (nodeValues (cstate n))).changeId =
            (cstate item).changeId
        · rw [cacheAdd_seen_silent hcnt hch hcc h3]
          refine stateWF_congr ?_ ?_ hmain <;> rfl
        · rw [cacheAdd_seen_changed hcnt hch hcc h3]
          refine stateWF_congr ?_ ?_ hmain <;> rfl
      · rw [cacheAdd_seen_flat hcnt hch (by simpa using hcc)]
        rw [stateWF_def]
        dsimp only
        refine ⟨hs1, fun i => ?_⟩
        by_cases hi : nodeId n = i
        · subst hi
          rw [hch]
          simp [lookupD, lookupA_assocSet_self]
        · rw [lookupD, lookupA_assocSet_ne _ _ _ _ hi]
          exact hs2 i

theorem stateWF_cacheAdd {s : CState} (n : Node) (h : stateWF s) :
    stateWF (cacheAdd s n).1 :=
  stateWF_cacheAdd_aux (nodeSz n) n le_rfl s h

theorem stateWF_mergeCState {s : CState} (vs : List Node) (h : stateWF s) :
    stateWF (mergeCState s vs) := by
  induction vs generalizing s with
  | nil => rw [mergeCState_nil]; exact h
  | cons v rest ih =>
      rw [mergeCState_cons]
      exact ih (stateWF_cacheAdd v h)

theorem stateWF_cacheRemove_aux :
    ∀ N n, nodeSz n ≤ N → ∀ s, stateWF s → stateWF (cacheRemove s n).1 := by
  intro N
  induction N using Nat.strong_induction_on with
  | _ N IH =>
    intro n hn s hs
    have hfold : ∀ vs : List Node, (∀ v ∈ vs, nodeSz v < N) →
        ∀ t, stateWF t → stateWF (unmergeCState t vs) := by
      intro vs
      induction vs with
      | nil => intro _ t ht; rw [unmergeCState_nil]; exact ht
      | cons v rest ihv =>
          intro hv t ht
          rw [unmergeCState_cons]
          exact ihv (fun w hw => hv w (List.mem_cons_of_mem _ hw)) _
            (IH (nodeSz v) (hv v (List.mem_cons_self _ _)) v le_rfl t ht)
    have hvals : ∀ v ∈ nodeValues (cstate n), nodeSz v < N :=
      fun v hv => lt_of_lt_of_le (nodeSz_value_lt hv) hn
    obtain ⟨hs1, hs2⟩ := (stateWF_def s).mp hs
    by_cases hcnt : lookupD s.counters (nodeId n) = 0
    · rw [cacheRemove_absent hcnt]
      exact hs
    · have hsome : (lookupA s.counters (nodeId n)).isSome := by
        rcases hopt : lookupA s.counters (nodeId n) with - | c
        · rw [lookupD, hopt] at hcnt
          simp at hcnt
        · rfl
      obtain ⟨c, hc⟩ := Option.isSome_iff_exists.mp hsome
      have hc0 : c ≠ 0 := by
        rw [lookupD, hc] at hcnt
        simp only [Option.getD_some] at hcnt
        exact hcnt
      have hchsome : (lookupA s.children (nodeId n)).isSome := by
        refine (hs2 (nodeId n)).mpr ?_
        rw [lookupD, hc]
        simp only [Option.getD_some]
        omega
      obtain ⟨item, hch⟩ := Option.isSome_iff_exists.mp hchsome
      obtain ⟨hid, hwf_item⟩ := hs1 (nodeId n) item hch
      by_cases hc1 : c = 1
      · subst hc1
        rw [cacheRemove_last hc hch]
        rw [stateWF_def]
        dsimp only
        constructor
        · intro k it hit
          by_cases hk : nodeId n = k
          · subst hk
            rw [lookupA_assocDelete_self] at hit
            cases hit
          · rw [lookupA_assocDelete_ne _ _ _ hk] at hit
            exact hs1 k it hit
        · intro i
          by_cases hi : nodeId n = i
          · subst hi
            rw [lookupA_assocDelete_self]
            simp [lookupD, lookupA_assocDelete_self]
          · rw [lookupA_assocDelete_ne _ _ _ hi]
            rw [lookupD, lookupA_assocDelete_ne _ _ _ hi,
              lookupA_assocSet_ne _ _ _ _ hi]
            exact hs2 i
      · by_cases hcc : (isCache item && isCache n) = true
        · have hmain : stateWF
              { sheet := [], changeId := 0, keys := [],
                children := (assocSet s.children (nodeId n)
                  (setCState item
                    (unmergeCState (cstate item) (nodeValues (cstate n))))),
                counters := assocSet s.counters (nodeId n) (c - 1) } := by
            rw [stateWF_def]
            constructor
            · intro k it hit
              by_cases hk : nodeId n = k
              · subst hk
                rw [lookupA_assocSet_self] at hit
                cases hit
                refine ⟨by rw [setCState_id, hid], ?_⟩
                rw [cstate_setCState _ ((Bool.and_eq_true _ _).mp hcc).1]
                exact hfold _ hvals _ hwf_item
              · rw [lookupA_assocSet_ne _ _ _ _ hk] at hit
                exact hs1 k it hit
            · intro i
              by_cases hi : nodeId n = i
              · subst hi
                rw [lookupA_assocSet_self]
                simp only [lookupD, lookupA_assocSet_self, Option.getD_some,
                  Option.isSome_some, true_iff]
                omega
              · rw [lookupA_assocSet_ne _ _ _ _ hi]
                rw [lookupD, lookupA_assocSet_ne _ _ _ _ hi]
                exact hs2 i
          by_cases h3 : (unmergeCState (cstate item) (nodeValues (cstate n))).changeId =
              (cstate item).changeId
          · rw [cacheRemove_dec_silent hc hc0 hc1 hch hcc h3]
            refine stateWF_congr ?_ ?_ hmain <;> rfl
          · rw [cacheRemove_dec_changed hc hc0 hc1 hch hcc h3]
            refine stateWF_congr ?_ ?_ hmain <;> rfl
        · rw [cacheRemove_dec_flat hc hc0 hc1 hch (by simpa using hcc)]
          rw [stateWF_def]
          dsimp only
          refine ⟨hs1, fun i => ?_⟩
          by_cases hi : nodeId n = i
          · subst hi
            rw [hch]
            simp only [lookupD, lookupA_assocSet_self, Option.getD_some,
              Option.isSome_some, true_iff]
            omega
          · rw [lookupD, lookupA_assocSet_ne _ _ _ _ hi]
            exact hs2 i

theorem stateWF_cacheRemove {s : CState} (n : Node) (h : stateWF s) :
    stateWF (cacheRemove s n).1 :=
  stateWF_cacheRemove_aux (nodeSz n) n le_rfl s h

/-! ### Absorption: deduplicating re-registration is observably silent -/

theorem absorbs_cacheAdd_aux :
    ∀ N m, nodeSz m ≤ N → ∀ s n, stateWF s → absorbs s m →
      absorbs (cacheAdd s n).1 m := by
  intro N
  induction N using Nat.strong_induction_on with
  | _ N IH =>
  intro m hm s n hWF habs
  have hfold : ∀ vs : List Node, ∀ t v, stateWF t → nodeSz v < N →
      absorbs t v → absorbs (mergeCState t vs) v := by
    intro vs
    induction vs with
    | nil => intro t v _ _ hav; rw [mergeCState_nil]; exact hav
    | cons w rest ihw =>
        intro t v ht hvN hav
        rw [mergeCState_cons]
        exact ihw _ v (stateWF_cacheAdd w ht) hvN
          (IH (nodeSz v) hvN v le_rfl t w ht hav)
  obtain ⟨hpos, hrec⟩ := (absorbs_def s m).mp habs
  obtain ⟨hs1, hs2⟩ := (stateWF_def s).mp hWF
  have hcnt' : 0 < lookupD (cacheAdd s n).1.counters (nodeId m) := by
    rw [lookupD, cacheAdd_counters]
    by_cases hnm : nodeId n = nodeId m
    · rw [hnm, lookupA_assocSet_self]
      simp
    · rw [lookupA_assocSet_ne _ _ _ _ hnm]
      exact hpos
  rw [absorbs_def]
  refine ⟨hcnt', ?_⟩
  intro item' hit' hcc' v hv
  by_cases hcnt0 : lookupD s.counters (nodeId n) = 0
  · -- fresh add of `n`: the children dictionary gains only `n.id`
    have hchn : lookupA s.children (nodeId n) = none := by
      rcases hopt : lookupA s.children (nodeId n) with - | it
      · rfl
      · exact absurd ((hs2 (nodeId n)).mp (by rw [hopt]; rfl)) (by omega)
    have hnm : nodeId n ≠ nodeId m := by
      intro he
      rw [he] at hcnt0
      omega
    rw [cacheAdd_fresh hcnt0 hchn] at hit'
    dsimp only at hit'
    rw [lookupA_assocSet_ne _ _ _ _ hnm] at hit'
    exact hrec item' hit' hcc' v hv
  · have hsome : (lookupA s.children (nodeId n)).isSome := by
      refine (hs2 (nodeId n)).mpr ?_
      omega
    obtain ⟨item, hch⟩ := Option.isSome_iff_exists.mp hsome
    by_cases hcc : (isCache item && isCache n) = true
    · have hchildren' : (cacheAdd s n).1.children =
          assocSet s.children (nodeId n)
            (setCState item (mergeCState (cstate item) (nodeValues (cstate n)))) := by
        by_cases h3 : (mergeCState (cstate item) (nodeValues (cstate n))).changeId =
            (cstate item).changeId
        · rw [cacheAdd_seen_silent hcnt0 hch hcc h3]
        · rw [cacheAdd_seen_changed hcnt0 hch hcc h3]
      rw [hchildren'] at hit'
      by_cases hnm : nodeId n = nodeId m
      · rw [hnm, lookupA_assocSet_self] at hit'
        cases hit'
        rw [cstate_setCState _ ((Bool.and_eq_true _ _).mp hcc).1]
        rw [isCache_setCState] at hcc'
        have hchm : lookupA s.children (nodeId m) = some item := by
          rw [← hnm]; exact hch
        have hin : ∀ w ∈ nodeValues (cstate m), absorbs (cstate item) w :=
          hrec item hchm hcc'
        have hWFitem : stateWF (cstate item) := (hs1 _ _ hch).2
        exact hfold _ _ v hWFitem
          (lt_of_lt_of_le (nodeSz_value_lt hv) hm) (hin v hv)
      · rw [lookupA_assocSet_ne _ _ _ _ hnm] at hit'
        exact hrec item' hit' hcc' v hv
    · rw [cacheAdd_seen_flat hcnt0 hch (by simpa using hcc)] at hit'
      dsimp only at hit'
      exact hrec item' hit' hcc' v hv

theorem absorbs_cacheAdd {s : CState} {m : Node} (hWF : stateWF s)
    (h : absorbs s m) (n : Node) : absorbs (cacheAdd s n).1 m :=
  absorbs_cacheAdd_aux (nodeSz m) m le_rfl s n hWF h

theorem absorbs_mergeCState {s : CState} {m : Node} (hWF : stateWF s)
    (h : absorbs s m) (vs : List Node) : absorbs (mergeCState s vs) m := by
  induction vs generalizing s with
  | nil => rw [mergeCState_nil]; exact h
  | cons v rest ih =>
      rw [mergeCState_cons]
      exact ih (stateWF_cacheAdd v hWF) (absorbs_cacheAdd hWF h v)

theorem cacheAdd_absorbs_self_aux :
    ∀ N n, nodeSz n ≤ N → ∀ s, stateWF s → absorbs (cacheAdd s n).1 n := by
  intro N
  induction N using Nat.strong_induction_on with
  | _ N IH =>
  intro n hn s hWF
  have hfoldabs : ∀ vs : List Node, ∀ t, stateWF t → (∀ v ∈ vs, nodeSz v < N) →
      ∀ v ∈ vs, absorbs (mergeCState t vs) v := by
    intro vs
    induction vs with
    | nil => intro t _ _ v hv; simp at hv
    | cons w rest ihw =>
        intro t ht hsz v hv
        rw [mergeCState_cons]
        rcases List.mem_cons.mp hv with h1 | h1
        · subst h1
          exact absorbs_mergeCState (stateWF_cacheAdd v ht)
            (IH (nodeSz v) (hsz v (List.mem_cons_self _ _)) v le_rfl t ht) rest
        · exact ihw _ (stateWF_cacheAdd w ht)
            (fun u hu => hsz u (List.mem_cons_of_mem _ hu)) v h1
  have hvals : ∀ v ∈ nodeValues (cstate n), nodeSz v < N :=
    fun v hv => lt_of_lt_of_le (nodeSz_value_lt hv) hn
  obtain ⟨hs1, hs2⟩ := (stateWF_def s).mp hWF
  by_cases hcnt0 : lookupD s.counters (nodeId n) = 0
  · have hchn : lookupA s.children (nodeId n) = none := by
      rcases hopt : lookupA s.children (nodeId n) with - | it
      · rfl
      · exact absurd ((hs2 (nodeId n)).mp (by rw [hopt]; rfl)) (by omega)
    rw [cacheAdd_fresh hcnt0 hchn, absorbs_def]
    dsimp only
    constructor
    · rw [lookupD, lookupA_assocSet_self]
      simp
    · intro item' hit' hcc' v hv
      rw [lookupA_assocSet_self] at hit'
      cases hit'
      have hcn : isCache n = true := ((Bool.and_eq_true _ _).mp hcc').2
      rw [cstate_cloneNode hcn]
      exact hfoldabs _ _ stateWF_empty hvals v hv
  · have hsome : (lookupA s.children (nodeId n)).isSome := by
      refine (hs2 (nodeId n)).mpr ?_
      omega
    obtain ⟨item, hch⟩ := Option.isSome_iff_exists.mp hsome
    by_cases hcc : (isCache item && isCache n) = true
    · have hchildren' : (cacheAdd s n).1.children =
          assocSet s.children (nodeId n)
            (setCState item (mergeCState (cstate item) (nodeValues (cstate n)))) := by
        by_cases h3 : (mergeCState (cstate item) (nodeValues (cstate n))).changeId =
            (cstate item).changeId
        · rw [cacheAdd_seen_silent hcnt0 hch hcc h3]
        · rw [cacheAdd_seen_changed hcnt0 hch hcc h3]
      rw [absorbs_def]
      constructor
      · rw [lookupD, cacheAdd_counters, lookupA_assocSet_self]
        simp
      · intro item' hit' hcc' v hv
        rw [hchildren', lookupA_assocSet_self] at hit'
        cases hit'
        rw [cstate_setCState _ ((Bool.and_eq_true _ _).mp hcc).1]
        exact hfoldabs _ _ (hs1 _ _ hch).2 hvals v hv
    · rw [cacheAdd_seen_flat hcnt0 hch (by simpa using hcc), absorbs_def]
      dsimp only
      constructor
      · rw [lookupD, lookupA_assocSet_self]
        simp
      · intro item' hit' hcc' v hv
        rw [hch] at hit'
        cases hit'
        exact absurd hcc' (by simpa using hcc)

theorem cacheAdd_absorbs_self {s : CState} (n : Node) (hWF : stateWF s) :
    absorbs (cacheAdd s n).1 n :=
  cacheAdd_absorbs_self_aux (nodeSz n) n le_rfl s hWF

/-- Every value merged into a well-formed cache ends up absorbed there. -/
theorem mergeCState_absorbs_self {s : CState} (vs : List Node)
    (hWF : stateWF s) : ∀ v ∈ vs, absorbs (mergeCState s vs) v := by
  induction vs generalizing s with
  | nil => intro v hv; simp at hv
  | cons w rest ih =>
      intro v hv
      rw [mergeCState_cons]
      rcases List.mem_cons.mp hv with h1 | h1
      · subst h1
        exact absorbs_mergeCState (stateWF_cacheAdd v hWF)
          (cacheAdd_absorbs_self v hWF) rest
      · exact ih (stateWF_cacheAdd w hWF) v h1

/-- Adding an absorbed node is observably silent: the key list, text list
and change counter are untouched, no event fires, and only the reference
count moves. -/
theorem cacheAdd_absorbed_silent_aux :
    ∀ N n, nodeSz n ≤ N → ∀ s, stateWF s → absorbs s n →
      (cacheAdd s n).1.keys = s.keys ∧ (cacheAdd s n).1.sheet = s.sheet ∧
      (cacheAdd s n).1.changeId = s.changeId ∧ (cacheAdd s n).2 = [] := by
  intro N
  induction N using Nat.strong_induction_on with
  | _ N IH =>
  intro n hn s hWF habs
  have hfold3 : ∀ vs : List Node, ∀ t, stateWF t → (∀ v ∈ vs, nodeSz v < N) →
      (∀ v ∈ vs, absorbs t v) → (mergeCState t vs).changeId = t.changeId := by
    intro vs
    induction vs with
    | nil => intro t _ _ _; rw [mergeCState_nil]
    | cons w rest ihw =>
        intro t ht hsz hab
        rw [mergeCState_cons]
        have hstep := IH (nodeSz w) (hsz w (List.mem_cons_self _ _)) w le_rfl t ht
          (hab w (List.mem_cons_self _ _))
        rw [ihw _ (stateWF_cacheAdd w ht)
          (fun u hu => hsz u (List.mem_cons_of_mem _ hu))
          (fun u hu => absorbs_cacheAdd ht (hab u (List.mem_cons_of_mem _ hu)) w)]
        exact hstep.2.2.1
  obtain ⟨hpos, hrec⟩ := (absorbs_def s n).mp habs
  obtain ⟨hs1, hs2⟩ := (stateWF_def s).mp hWF
  have hcnt0 : lookupD s.counters (nodeId n) ≠ 0 := by omega
  have hsome : (lookupA s.children (nodeId n)).isSome := by
    refine (hs2 (nodeId n)).mpr ?_
    omega
  obtain ⟨item, hch⟩ := Option.isSome_iff_exists.mp hsome
  by_cases hcc : (isCache item && isCache n) = true
  · have h3 : (mergeCState (cstate item) (nodeValues (cstate n))).changeId =
        (cstate item).changeId := by
      refine hfold3 _ _ (hs1 _ _ hch).2
        (fun v hv => lt_of_lt_of_le (nodeSz_value_lt hv) hn) ?_
      exact hrec item hch hcc
    rw [cacheAdd_seen_silent hcnt0 hch hcc h3]
    exact ⟨rfl, rfl, rfl, rfl⟩
  · rw [cacheAdd_seen_flat hcnt0 hch (by simpa using hcc)]
    exact ⟨rfl, rfl, rfl, rfl⟩

theorem cacheAdd_absorbed_silent {s : CState} {n : Node} (hWF : stateWF s)
    (habs : absorbs s n) :
    (cacheAdd s n).1.keys = s.keys ∧ (cacheAdd s n).1.sheet = s.sheet ∧
      (cacheAdd s n).1.changeId = s.changeId ∧ (cacheAdd s n).2 = [] :=
  cacheAdd_absorbed_silent_aux (nodeSz n) n le_rfl s hWF habs

/-- Re-merging a list of absorbed nodes leaves the key list and the
rendered text list unchanged. -/
theorem mergeCState_absorbed_silent {s : CState} {vs : List Node}
    (hWF : stateWF s) (h : ∀ v ∈ vs, absorbs s v) :
    (mergeCState s vs).keys = s.keys ∧ (mergeCState s vs).sheet = s.sheet := by
  induction vs generalizing s with
  | nil => rw [mergeCState_nil]; exact ⟨rfl, rfl⟩
  | cons w rest ih =>
      rw [mergeCState_cons]
      obtain ⟨hk, hsh, -, -⟩ := cacheAdd_absorbed_silent hWF
        (h w (List.mem_cons_self _ _))
      have hrest := ih (stateWF_cacheAdd w hWF)
        (fun u hu => absorbs_cacheAdd hWF (h u (List.mem_cons_of_mem _ hu)) w)
      exact ⟨hrest.1.trans hk, hrest.2.trans hsh⟩

/-! ### Unfolding lemmas for `stylize` -/

theorem stylizeList_nil (rl : List StylizeRule) (sl : List StylizeStyle)
    (parent pid : String) : stylizeList [] rl sl parent pid = (rl, sl, pid) := by
  rw [stylizeList]

theorem stylizeList_cons (e : String × Styles) (rest : List (String × Styles))
    (rl : List StylizeRule) (sl : List StylizeStyle) (parent pid : String) :
    stylizeList (e :: rest) rl sl parent pid =
      stylizeList rest (stylize e.1 e.2 rl sl parent).1
        (stylize e.1 e.2 rl sl parent).2.1 parent
        (pid ++ e.1 ++ (stylize e.1 e.2 rl sl parent).2.2) := by
  rw [stylizeList]

theorem stylize_at {selector : String} (styles : Styles)
    (rl : List StylizeRule) (sl : List StylizeStyle) (parent : String)
    (h : startsAt selector = true) :
    stylize selector styles rl sl parent =
      (rl ++ [StylizeRule.mk selector
          (if parent ≠ "" then "" else (parseStyles styles (selector != "")).style)
          (stylizeList (parseStyles styles (selector != "")).nested []
            (if (parseStyles styles (selector != "")).style ≠ "" ∧ parent ≠ ""
              then [⟨parent, (parseStyles styles (selector != "")).style,
                (parseStyles styles (selector != "")).isUnique⟩] else [])
            parent (parseStyles styles (selector != "")).style).1
          (stylizeList (parseStyles styles (selector != "")).nested []
            (if (parseStyles styles (selector != "")).style ≠ "" ∧ parent ≠ ""
              then [⟨parent, (parseStyles styles (selector != "")).style,
                (parseStyles styles (selector != "")).isUnique⟩] else [])
            parent (parseStyles styles (selector != "")).style).2.1],
        sl,
        (stylizeList (parseStyles styles (selector != "")).nested []
          (if (parseStyles styles (selector != "")).style ≠ "" ∧ parent ≠ ""
            then [⟨parent, (parseStyles styles (selector != "")).style,
              (parseStyles styles (selector != "")).isUnique⟩] else [])
          parent (parseStyles styles (selector != "")).style).2.2) := by
  rw [stylize]
  simp only [h, if_true]

theorem stylize_plain {selector : String} (styles : Styles)
    (rl : List StylizeRule) (sl : List StylizeStyle) (parent : String)
    (h : startsAt selector = false) :
    stylize selector styles rl sl parent =
      stylizeList (parseStyles styles (selector != "")).nested rl
        (if (parseStyles styles (selector != "")).style ≠ "" then
          sl ++ [⟨if parent ≠ "" then interpolate selector parent else selector,
            (parseStyles styles (selector != "")).style,
            (parseStyles styles (selector != "")).isUnique⟩]
          else sl)
        (if parent ≠ "" then interpolate selector parent else selector)
        (parseStyles styles (selector != "")).style := by
  rw [stylize]
  simp only [h, Bool.false_eq_true, if_false]

/-! ### Unique-free trees produce unique-free accumulators -/

/-- No `isUnique` flag anywhere in a `StylizeRule` tree. -/
def ruleUF : StylizeRule → Prop
  | .mk _ _ rs ss => (∀ st ∈ ss, st.isUnique = false) ∧ ∀ r ∈ rs, ruleUF r

theorem uniqueFreeE_mem {es : List (String × StyleValue)} {k : String}
    {v : StyleValue} (h : uniqueFreeE es = true) (hm : (k, v) ∈ es) :
    uniqueFreeV v = true := by
  induction es with
  | nil => simp at hm
  | cons p rest ih =>
      obtain ⟨pk, pv⟩ := p
      rw [uniqueFreeE, Bool.and_eq_true] at h
      rcases List.mem_cons.mp hm with h1 | h1
      · cases h1
        exact h.1
      · exact ih h.2 h1

theorem parse_isUnique_false {styles : Styles} (b : Bool)
    (h : uniqueFreeS styles = true) :
    (parseStyles styles b).isUnique = false := by
  obtain ⟨u, d, es⟩ := styles
  rw [uniqueFreeS, Bool.and_eq_true] at h
  have : u = false := by
    rcases u with - | -
    · rfl
    · simp at h
  simp [parseStyles, Styles.isUnique, this]

theorem parse_nested_uniqueFree {styles : Styles} {b : Bool} {n : String}
    {sub : Styles} (h : uniqueFreeS styles = true)
    (hm : (n, sub) ∈ (parseStyles styles b).nested) :
    uniqueFreeS sub = true := by
  have hmem : (n, sub) ∈ (splitEntries styles.entries).2 := by
    by_cases hb : b
    · simpa [parseStyles, hb] using hm
    · exact (sortTuples_perm (splitEntries styles.entries).2).mem_iff.mp
        (by simpa [parseStyles, hb] using hm)
  obtain ⟨key, hk⟩ := mem_splitEntries_nested hmem
  obtain ⟨u, d, es⟩ := styles
  rw [uniqueFreeS, Bool.and_eq_true] at h
  have := uniqueFreeE_mem h.2 (by simpa [Styles.entries] using hk)
  rwa [uniqueFreeV] at this

theorem stylize_uniqueFree :
    ∀ D styles, stylesDepth styles ≤ D → uniqueFreeS styles = true →
    ∀ selector (rl : List StylizeRule) (sl : List StylizeStyle) parent,
      (∀ st ∈ sl, st.isUnique = false) → (∀ r ∈ rl, ruleUF r) →
      (∀ st ∈ (stylize selector styles rl sl parent).2.1, st.isUnique = false) ∧
      (∀ r ∈ (stylize selector styles rl sl parent).1, ruleUF r) := by
  intro D
  induction D using Nat.strong_induction_on with
  | _ D IH =>
  intro styles hD hUF selector rl sl parent hsl hrl
  have hlist : ∀ (entries : List (String × Styles)),
      (∀ q ∈ entries, stylesDepth q.2 < D ∧ uniqueFreeS q.2 = true) →
      ∀ (rl' : List StylizeRule) (sl' : List StylizeStyle) par pid,
        (∀ st ∈ sl', st.isUnique = false) → (∀ r ∈ rl', ruleUF r) →
        (∀ st ∈ (stylizeList entries rl' sl' par pid).2.1, st.isUnique = false) ∧
        (∀ r ∈ (stylizeList entries rl' sl' par pid).1, ruleUF r) := by
    intro entries
    induction entries with
    | nil =>
        intro _ rl' sl' par pid hsl' hrl'
        rw [stylizeList_nil]
        exact ⟨hsl', hrl'⟩
    | cons e rest ihe =>
        intro he rl' sl' par pid hsl' hrl'
        rw [stylizeList_cons]
        have hstep := IH (stylesDepth e.2) (he e (List.mem_cons_self _ _)).1 e.2
          le_rfl (he e (List.mem_cons_self _ _)).2 e.1 rl' sl' par hsl' hrl'
        exact ihe (fun q hq => he q (List.mem_cons_of_mem _ hq)) _ _ par _
          hstep.1 hstep.2
  have hnested : ∀ q ∈ (parseStyles styles (selector != "")).nested,
      stylesDepth q.2 < D ∧ uniqueFreeS q.2 = true := by
    intro q hq
    refine ⟨lt_of_lt_of_le (@parseStyles_nested_depth styles (selector != "")
      q.1 q.2 (by simpa using hq)) hD, ?_⟩
    exact parse_nested_uniqueFree hUF (by simpa using hq)
  by_cases hat : startsAt selector = true
  · rw [stylize_at styles rl sl parent hat]
    have hstart : ∀ st ∈ (if (parseStyles styles (selector != "")).style ≠ "" ∧
        parent ≠ "" then [(⟨parent, (parseStyles styles (selector != "")).style,
          (parseStyles styles (selector != "")).isUnique⟩ : StylizeStyle)] else []),
        st.isUnique = false := by
      intro st hst
      split_ifs at hst
      · rcases List.mem_singleton.mp hst with rfl
        exact parse_isUnique_false (selector != "") hUF
      · simp at hst
    have hinner := hlist _ hnested [] _ parent
      (parseStyles styles (selector != "")).style hstart (by simp)
    constructor
    · intro st hst
      exact hsl st hst
    · intro r hr
      rcases List.mem_append.mp hr with h1 | h1
      · exact hrl r h1
      · rcases List.mem_singleton.mp h1 with rfl
        rw [ruleUF]
        exact ⟨hinner.1, hinner.2⟩
  · rw [stylize_plain styles rl sl parent (by simpa using hat)]
    refine hlist _ hnested rl _ _ _ ?_ hrl
    intro st hst
    by_cases hsty : (parseStyles styles (selector != "")).style ≠ ""
    · rw [if_pos hsty] at hst
      rcases List.mem_append.mp hst with h1 | h1
      · exact hsl st h1
      · rcases List.mem_singleton.mp h1 with rfl
        exact parse_isUnique_false (selector != "") hUF
    · rw [if_neg hsty] at hst
      exact hsl st hst

/-! ### Registration as a fold of `add` over a pure node list -/

theorem composeNodesStyles_uf {sl : List StylizeStyle}
    (h : ∀ st ∈ sl, st.isUnique = false) (uid uid' : Nat) (pid cn : String)
    (isStyle : Bool) :
    (composeNodesStyles uid pid sl cn isStyle).1 =
      (composeNodesStyles uid' pid sl cn isStyle).1 ∧
    (composeNodesStyles uid pid sl cn isStyle).2 = uid := by
  induction sl generalizing uid uid' with
  | nil => rw [composeNodesStyles, composeNodesStyles]; exact ⟨rfl, rfl⟩
  | cons st rest ih =>
      have hst : st.isUnique = false := h st (List.mem_cons_self _ _)
      have ihr := ih (fun u hu => h u (List.mem_cons_of_mem _ hu)) uid uid'
      rw [composeNodesStyles, composeNodesStyles]
      simp only [hst, Bool.false_eq_true, if_false]
      exact ⟨by rw [ihr.1], ihr.2⟩

theorem composeNodesRules_uf_aux :
    ∀ N (rl : List StylizeRule), sizeOf rl ≤ N → (∀ r ∈ rl, ruleUF r) →
    ∀ uid uid' pid cn isStyle,
    (composeNodesRules uid pid rl cn isStyle).1 =
      (composeNodesRules uid' pid rl cn isStyle).1 ∧
    (composeNodesRules uid pid rl cn isStyle).2 = uid := by
  intro N
  induction N using Nat.strong_induction_on with
  | _ N IH =>
  intro rl hN h uid uid' pid cn isStyle
  match rl with
  | [] => rw [composeNodesRules, composeNodesRules]; exact ⟨rfl, rfl⟩
  | StylizeRule.mk sel sty rules styles :: rest =>
      have hhd := h _ (List.mem_cons_self _ _)
      rw [ruleUF] at hhd
      have hszr : sizeOf rules < N := by
        have : sizeOf (StylizeRule.mk sel sty rules styles :: rest) ≤ N := hN
        simp at this
        omega
      have hszrest : sizeOf rest < N := by
        have : sizeOf (StylizeRule.mk sel sty rules styles :: rest) ≤ N := hN
        simp at this
        omega
      have hsu := (composeNodesStyles_uf hhd.1 uid uid pid cn isStyle).2
      have hsu' := (composeNodesStyles_uf hhd.1 uid' uid' pid cn isStyle).2
      have hs1 := (composeNodesStyles_uf hhd.1 uid uid' pid cn isStyle).1
      have hru := fun a b => IH (sizeOf rules) hszr rules le_rfl hhd.2 a b pid cn isStyle
      have hrestu := fun a b => IH (sizeOf rest) hszrest rest le_rfl
        (fun r hr => h r (List.mem_cons_of_mem _ hr)) a b pid cn isStyle
      rw [composeNodesRules, composeNodesRules]
      simp only []
      rw [hsu, hsu', hs1]
      rw [(hru uid uid).2, (hru uid' uid').2]
      rw [(hru uid uid').1]
      rw [(hrestu uid uid').1, (hrestu uid uid).2]
      exact ⟨rfl, rfl⟩

theorem composeNodesRules_uf {rl : List StylizeRule} (h : ∀ r ∈ rl, ruleUF r)
    (uid uid' : Nat) (pid cn : String) (isStyle : Bool) :
    (composeNodesRules uid pid rl cn isStyle).1 =
      (composeNodesRules uid' pid rl cn isStyle).1 ∧
    (composeNodesRules uid pid rl cn isStyle).2 = uid :=
  composeNodesRules_uf_aux (sizeOf rl) rl le_rfl h uid uid' pid cn isStyle

/-- The node list (and final counter) produced by one `registerStyle`
invocation, before it is folded into the target cache. -/
def regNodes (uid : Nat) (styles : Styles) (prod : Bool) : List Node × Nat :=
  let r := stylize "&" styles [] [] ""
  let id := key r.2.2 styles prod
  let selector := "." ++ (if prod then id else escape id)
  let sres := composeNodesStyles uid r.2.2 r.2.1 selector true
  let rres := composeNodesRules sres.2 r.2.2 r.1 selector true
  (sres.1 ++ rres.1, rres.2)

theorem registerStyle_as_merge (cache : CState) (uid : Nat) (styles : Styles)
    (prod : Bool) :
    registerStyle cache uid styles prod =
      (key (stylize "&" styles [] [] "").2.2 styles prod,
       mergeCState cache (regNodes uid styles prod).1,
       (regNodes uid styles prod).2) := rfl

/-- For a `$unique`-free tree the registration's node list does not depend
on the global counter, and the counter is returned unchanged. -/
theorem regNodes_uf {styles : Styles} (h : uniqueFreeS styles = true)
    (uid uid' : Nat) (prod : Bool) :
    (regNodes uid styles prod).1 = (regNodes uid' styles prod).1 ∧
    (regNodes uid styles prod).2 = uid := by
  have hst := stylize_uniqueFree (stylesDepth styles) styles le_rfl h "&" [] [] ""
    (by simp) (by simp)
  rw [regNodes, regNodes]
  simp only []
  have hs := composeNodesStyles_uf hst.1 uid uid'
    (stylize "&" styles [] [] "").2.2
    ("." ++ (if prod then key (stylize "&" styles [] [] "").2.2 styles prod
      else escape (key (stylize "&" styles [] [] "").2.2 styles prod))) true
  have hr := composeNodesRules_uf hst.2
    (composeNodesStyles uid (stylize "&" styles [] [] "").2.2
      (stylize "&" styles [] [] "").2.1
      ("." ++ (if prod then key (stylize "&" styles [] [] "").2.2 styles prod
        else escape (key (stylize "&" styles [] [] "").2.2 styles prod))) true).2
    (composeNodesStyles uid' (stylize "&" styles [] [] "").2.2
      (stylize "&" styles [] [] "").2.1
      ("." ++ (if prod then key (stylize "&" styles [] [] "").2.2 styles prod
        else escape (key (stylize "&" styles [] [] "").2.2 styles prod))) true).2
    (stylize "&" styles [] [] "").2.2
    ("." ++ (if prod then key (stylize "&" styles [] [] "").2.2 styles prod
      else escape (key (stylize "&" styles [] [] "").2.2 styles prod))) true
  constructor
  · rw [hs.1, hr.1]
  · rw [hr.2, hs.2]

/-- Double registration of a `$unique`-free tree: same identifier, no new
output, reference counts double. -/
theorem registerStyle_twice (styles : Styles) (prod : Bool)
    (h : uniqueFreeS styles = true) :
    (registerStyle (registerStyle emptyCState 0 styles prod).2.1
        (registerStyle emptyCState 0 styles prod).2.2 styles prod).1 =
      (registerStyle emptyCState 0 styles prod).1 ∧
    (registerStyle (registerStyle emptyCState 0 styles prod).2.1
        (registerStyle emptyCState 0 styles prod).2.2 styles prod).2.1.keys =
      (registerStyle emptyCState 0 styles prod).2.1.keys ∧
    (registerStyle (registerStyle emptyCState 0 styles prod).2.1
        (registerStyle emptyCState 0 styles prod).2.2 styles prod).2.1.sheet =
      (registerStyle emptyCState 0 styles prod).2.1.sheet ∧
    ∀ i, lookupD (registerStyle (registerStyle emptyCState 0 styles prod).2.1
        (registerStyle emptyCState 0 styles prod).2.2 styles prod).2.1.counters i =
      2 * lookupD (registerStyle emptyCState 0 styles prod).2.1.counters i := by
  have h0 : (regNodes 0 styles prod).2 = 0 := (regNodes_uf h 0 0 prod).2
  simp only [registerStyle_as_merge]
  rw [h0]
  have hWF1 : stateWF (mergeCState emptyCState (regNodes 0 styles prod).1) :=
    stateWF_mergeCState _ stateWF_empty
  have habs : ∀ v ∈ (regNodes 0 styles prod).1,
      absorbs (mergeCState emptyCState (regNodes 0 styles prod).1) v :=
    mergeCState_absorbs_self _ stateWF_empty
  obtain ⟨hk, hsh⟩ := mergeCState_absorbed_silent hWF1 habs
  refine ⟨trivial, hk, hsh, fun i => ?_⟩
  rw [mergeCState_lookupD, mergeCState_lookupD]
  have hz : lookupD emptyCState.counters i = 0 := rfl
  rw [hz]
  omega

/-! ### Evaluation of `registerStyle` on declaration-only trees -/

theorem flat_splitEntries_nested {styles : Styles}
    (h : flatStyles styles = true) : (splitEntries styles.entries).2 = [] := by
  obtain ⟨u, d, es⟩ := styles
  rw [flatStyles] at h
  simp only [Styles.entries] at h ⊢
  induction es with
  | nil => rfl
  | cons p rest ih =>
      obtain ⟨pk, pv⟩ := p
      rw [List.all_cons, Bool.and_eq_true] at h
      have hrest := ih h.2
      by_cases hd : startsDollar (jsTrim pk) = true
      · rw [splitEntries_dollar hd]
        exact hrest
      · replace hd := Bool.not_eq_true _ ▸ hd
        cases pv with
        | null => rw [splitEntries_null hd]; exact hrest
        | val v => rw [splitEntries_val hd]; exact hrest
        | vlist l => rw [splitEntries_vlist hd]; exact hrest
        | nested s => simp at h

theorem parseStyles_flat_nested {styles : Styles} (b : Bool)
    (h : flatStyles styles = true) : (parseStyles styles b).nested = [] := by
  rw [parseStyles]
  simp only [flat_splitEntries_nested h]
  cases b <;> simp [sortTuples]

/-- `stylize` at the root of `registerStyle` on a declaration-only tree. -/
theorem stylize_flat {styles : Styles} (h : flatStyles styles = true) :
    stylize "&" styles [] [] "" =
      ([], if (parseStyles styles true).style ≠ "" then
          [⟨"&", (parseStyles styles true).style, styles.isUnique⟩] else [],
        (parseStyles styles true).style) := by
  have hat : startsAt "&" = false := by decide
  rw [stylize_plain styles [] [] "" hat]
  have hb : ("&" != "") = true := by decide
  rw [hb]
  rw [parseStyles_flat_nested true h, stylizeList_nil]
  have hpar : ¬(("" : String) ≠ "") := by simp
  rw [if_neg hpar]
  rfl

theorem interpolate_amp (p : String) : interpolate "&" p = p := by
  rw [interpolate, if_neg (by decide : ¬¬(hasAmp "&" = true))]
  show String.mk (p.data ++ []) = p
  rw [List.append_nil]

/-- The class selector and the selector-node id used by a flat
registration. -/
def flatCls (styles : Styles) (prod : Bool) : String :=
  "." ++ (if prod then key (parseStyles styles true).style styles prod
    else escape (key (parseStyles styles true).style styles prod))

def flatKid (styles : Styles) (prod : Bool) : String :=
  "k\x00" ++ (parseStyles styles true).style ++ "\x00" ++ flatCls styles prod

/-- The single `Style` node produced by a flat registration with node id
`nid`: one selector child, already rendered. -/
def flatNode (styles : Styles) (prod : Bool) (nid : String) : Node :=
  Node.style (parseStyles styles true).style nid [flatCls styles prod] 1
    [flatKid styles prod]
    [(flatKid styles prod, Node.selector (flatCls styles prod) (flatKid styles prod))]
    [(flatKid styles prod, 1)]

theorem mkStyleNode_eval (st nid pid k : String) :
    mkStyleNode st nid pid k =
      Node.style st nid [k] 1 ["k\x00" ++ pid ++ "\x00" ++ k]
        [("k\x00" ++ pid ++ "\x00" ++ k,
          Node.selector k ("k\x00" ++ pid ++ "\x00" ++ k))]
        [("k\x00" ++ pid ++ "\x00" ++ k, 1)] := by
  rw [mkStyleNode]
  rw [cacheAdd_fresh (by rfl) (by rfl)]
  simp [emptyCState, assocSet, cloneNode_selector, renderNode, nodeId]

theorem regNodes_flat {styles : Styles} (prod : Bool) (uid : Nat)
    (hflat : flatStyles styles = true)
    (hst : (parseStyles styles true).style ≠ "") :
    regNodes uid styles prod =
      ([flatNode styles prod (if styles.isUnique then
          "u\x00" ++ toBase36 (uid + 1)
        else "s\x00" ++ (parseStyles styles true).style ++ "\x00" ++
          (parseStyles styles true).style)],
        if styles.isUnique then uid + 1 else uid) := by
  rw [regNodes]
  simp only [stylize_flat hflat, if_pos hst]
  rw [composeNodesStyles, composeNodesStyles, composeNodesRules]
  simp only []
  cases hu : styles.isUnique <;>
    simp only [Bool.false_eq_true, if_false, if_true, List.append_nil] <;>
    rw [interpolate_amp, mkStyleNode_eval] <;>
    rw [flatNode, flatKid, flatCls]

theorem singleStyleNode_clone (st nid k kid : String) :
    cloneNode (Node.style st nid [k] 1 [kid] [(kid, Node.selector k kid)]
      [(kid, 1)]) =
      Node.style st nid [k] 1 [kid] [(kid, Node.selector k kid)] [(kid, 1)] := by
  simp only [cloneNode]
  have hv : nodeValues ⟨[k], 1, [kid], [(kid, Node.selector k kid)], [(kid, 1)]⟩ =
      [Node.selector k kid] := by
    rw [nodeValues]
    simp [lookupA]
  rw [hv, mergeCState_cons, cacheAdd_fresh (by rfl) (by rfl), mergeCState_nil]
  simp [emptyCState, assocSet, cloneNode_selector, renderNode, nodeId]

theorem cloneNode_flatNode (styles : Styles) (prod : Bool) (nid : String) :
    cloneNode (flatNode styles prod nid) = flatNode styles prod nid := by
  rw [flatNode]
  exact singleStyleNode_clone _ _ _ _

theorem nodeId_flatNode (styles : Styles) (prod : Bool) (nid : String) :
    nodeId (flatNode styles prod nid) = nid := rfl

/-- Rendered text of the flat registration's entry:
`cls{declarations}`. -/
def flatRender (styles : Styles) (prod : Bool) : String :=
  flatCls styles prod ++ "\x7b" ++ (parseStyles styles true).style ++ "\x7d"

theorem renderNode_flatNode (styles : Styles) (prod : Bool) (nid : String) :
    renderNode (flatNode styles prod nid) = flatRender styles prod := rfl

theorem mergeC_single_fresh (s : CState) (node : Node)
    (hcnt : lookupD s.counters (nodeId node) = 0)
    (hch : lookupA s.children (nodeId node) = none)
    (hclone : cloneNode node = node) :
    mergeCState s [node] =
      ⟨s.sheet ++ [renderNode node], s.changeId + 1, s.keys ++ [nodeId node],
        assocSet s.children (nodeId node) node,
        assocSet s.counters (nodeId node) 1⟩ := by
  rw [mergeCState_cons, cacheAdd_fresh hcnt hch, mergeCState_nil]
  rw [hclone]

theorem uid_token_injective {a b : Nat}
    (h : "u\x00" ++ toBase36 a = "u\x00" ++ toBase36 b) : a = b := by
  have := congrArg String.data h
  rw [String.data_append, String.data_append] at this
  exact toBase36_injective (congrArg String.mk (List.append_cancel_left this))

/-- Registering a non-empty declaration-only tree with `$unique` set twice:
the same class identifier comes back both times, but the cache gains two
distinct counter-derived entries, each holding one reference, with the same
rendered text stored twice. -/
theorem registerStyle_unique_twice (styles : Styles) (prod : Bool) (uid : Nat)
    (hflat : flatStyles styles = true) (hu : styles.isUnique = true)
    (hst : (parseStyles styles true).style ≠ "") :
    (registerStyle (registerStyle emptyCState uid styles prod).2.1
        (registerStyle emptyCState uid styles prod).2.2 styles prod).1 =
      (registerStyle emptyCState uid styles prod).1 ∧
    (registerStyle (registerStyle emptyCState uid styles prod).2.1
        (registerStyle emptyCState uid styles prod).2.2 styles prod).2.1.keys =
      ["u\x00" ++ toBase36 (uid + 1), "u\x00" ++ toBase36 (uid + 2)] ∧
    "u\x00" ++ toBase36 (uid + 1) ≠ "u\x00" ++ toBase36 (uid + 2) ∧
    (registerStyle (registerStyle emptyCState uid styles prod).2.1
        (registerStyle emptyCState uid styles prod).2.2 styles prod).2.1.sheet =
      [flatRender styles prod, flatRender styles prod] ∧
    (registerStyle (registerStyle emptyCState uid styles prod).2.1
        (registerStyle emptyCState uid styles prod).2.2 styles prod).2.1.counters =
      [("u\x00" ++ toBase36 (uid + 1), 1), ("u\x00" ++ toBase36 (uid + 2), 1)] := by
  have hne : "u\x00" ++ toBase36 (uid + 1) ≠ "u\x00" ++ toBase36 (uid + 2) := by
    intro he
    have := uid_token_injective he
    omega
  simp only [registerStyle_as_merge]
  rw [regNodes_flat prod uid hflat hst]
  simp only [hu, if_true]
  rw [regNodes_flat prod (uid + 1) hflat hst]
  simp only [hu, if_true]
  rw [mergeC_single_fresh emptyCState _ (by rfl) (by rfl)
    (cloneNode_flatNode styles prod _)]
  have hcnt2 : lookupD (assocSet emptyCState.counters
      (nodeId (flatNode styles prod ("u\x00" ++ toBase36 (uid + 1)))) 1)
      (nodeId (flatNode styles prod ("u\x00" ++ toBase36 (uid + 2)))) = 0 := by
    rw [nodeId_flatNode, nodeId_flatNode, lookupD]
    show (lookupA (assocSet [] _ 1) _).getD 0 = 0
    rw [lookupA_assocSet_ne _ _ _ _ hne]
    rfl
  have hch2 : lookupA (assocSet emptyCState.children
      (nodeId (flatNode styles prod ("u\x00" ++ toBase36 (uid + 1))))
      (flatNode styles prod ("u\x00" ++ toBase36 (uid + 1))))
      (nodeId (flatNode styles prod ("u\x00" ++ toBase36 (uid + 2)))) = none := by
    rw [nodeId_flatNode, nodeId_flatNode]
    show lookupA (assocSet [] _ _) _ = none
    rw [lookupA_assocSet_ne _ _ _ _ hne]
    rfl
  rw [mergeC_single_fresh _ _ hcnt2 hch2 (cloneNode_flatNode styles prod _)]
  have hne2 : ¬("u\x00" ++ toBase36 (uid + 1) = "u\x00" ++ toBase36 (uid + 1 + 1)) := by
    intro he
    have := uid_token_injective he
    omega
  refine ⟨trivial, ?_, hne, ?_, ?_⟩ <;>
    simp [emptyCState, assocSet, nodeId_flatNode, renderNode_flatNode, hne2]

/-! ### Declaration order-independence: facts about `sortTuples` -/

theorem charListLt_asymm : ∀ {l₁ l₂ : List Char},
    charListLt l₁ l₂ = true → charListLt l₂ l₁ = false := by
  intro l₁
  induction l₁ with
  | nil =>
      intro l₂ h
      cases l₂ with
      | nil => simpa [charListLt] using h
      | cons d ds => rw [charListLt]
  | cons c cs ih =>
      intro l₂ h
      cases l₂ with
      | nil => simpa [charListLt] using h
      | cons d ds =>
          rw [charListLt] at h ⊢
          by_cases hcd : c.toNat < d.toNat
          · have hdc : ¬ d.toNat < c.toNat := by omega
            have hne : ¬ d = c := by
              intro he
              rw [he] at hcd
              omega
            simp [hdc, hne]
          · rw [if_neg hcd] at h
            by_cases heq : c = d
            · rw [if_pos heq] at h
              subst heq
              simp only [if_neg hcd, if_pos rfl]
              exact ih h
            · rw [if_neg heq] at h
              simp at h

theorem charListLt_connex : ∀ {l₁ l₂ : List Char},
    charListLt l₁ l₂ = false → charListLt l₂ l₁ = false → l₁ = l₂ := by
  intro l₁
  induction l₁ with
  | nil =>
      intro l₂ h1 h2
      cases l₂ with
      | nil => rfl
      | cons d ds => simp [charListLt] at h1
  | cons c cs ih =>
      intro l₂ h1 h2
      cases l₂ with
      | nil => simp [charListLt] at h2
      | cons d ds =>
          rw [charListLt] at h1 h2
          by_cases hcd : c.toNat < d.toNat
          · simp [hcd] at h1
          · by_cases hdc : d.toNat < c.toNat
            · simp [hdc] at h2
            · have heq : c = d := by
                have : c.toNat = d.toNat := by omega
                exact Char.ext (UInt32.ext this)
              subst heq
              rw [if_neg hcd, if_pos rfl] at h1 h2
              rw [ih h1 h2]

theorem keyLt_asymm {a b : String} (h : keyLt a b = true) : keyLt b a = false :=
  charListLt_asymm h

theorem keyLt_connex {a b : String} (h1 : keyLt a b = false)
    (h2 : keyLt b a = false) : a = b := by
  have := charListLt_connex h1 h2
  exact congrArg String.mk this

theorem char_toNat_inj {c d : Char} (h : c.toNat = d.toNat) : c = d :=
  Char.ext (UInt32.ext h)

theorem charListLt_irrefl : ∀ l : List Char, charListLt l l = false := by
  intro l
  induction l with
  | nil => rfl
  | cons c cs ih => simp [charListLt, ih]

theorem charListLt_trans : ∀ {l₁ l₂ l₃ : List Char},
    charListLt l₁ l₂ = true → charListLt l₂ l₃ = true →
    charListLt l₁ l₃ = true := by
  intro l₁
  induction l₁ with
  | nil =>
      intro l₂ l₃ h1 h2
      cases l₂ with
      | nil => simp [charListLt] at h1
      | cons d ds =>
          cases l₃ with
          | nil => simp [charListLt] at h2
          | cons e es => rw [charListLt]
  | cons c cs ih =>
      intro l₂ l₃ h1 h2
      cases l₂ with
      | nil => simp [charListLt] at h1
      | cons d ds =>
          cases l₃ with
          | nil => simp [charListLt] at h2
          | cons e es =>
              rw [charListLt] at h1 h2 ⊢
              by_cases hcd : c.toNat < d.toNat
              · by_cases hde : d.toNat < e.toNat
                · simp [show c.toNat < e.toNat by omega]
                · rw [if_neg hde] at h2
                  by_cases hdeq : d = e
                  · subst hdeq
                    simp [hcd]
                  · rw [if_neg hdeq] at h2
                    simp at h2
              · rw [if_neg hcd] at h1
                by_cases hcdeq : c = d
                · subst hcdeq
                  rw [if_pos rfl] at h1
                  by_cases hce : c.toNat < e.toNat
                  · simp [hce]
                  · rw [if_neg hce] at h2 ⊢
                    by_cases hceq : c = e
                    · subst hceq
                      rw [if_pos rfl] at h2 ⊢
                      exact ih h1 h2
                    · rw [if_neg hceq] at h2
                      simp at h2
                · rw [if_neg hcdeq] at h1
                  simp at h1

def keyLe (a b : String) : Prop := keyLt b a = false

theorem keyLt_irrefl (a : String) : keyLt a a = false := charListLt_irrefl _

theorem keyLt_trans {a b c : String} (h1 : keyLt a b = true)
    (h2 : keyLt b c = true) : keyLt a c = true := charListLt_trans h1 h2

theorem keyLe_trans {a b c : String} (h1 : keyLe a b) (h2 : keyLe b c) :
    keyLe a c := by
  rw [keyLe] at h1 h2 ⊢
  by_cases hca : keyLt c a = true
  · exfalso
    have tri1 : keyLt a b = true ∨ a = b := by
      by_cases hab : keyLt a b = true
      · exact Or.inl hab
      · exact Or.inr (keyLt_connex (Bool.not_eq_true _ ▸ hab) h1)
    have tri2 : keyLt b c = true ∨ b = c := by
      by_cases hbc : keyLt b c = true
      · exact Or.inl hbc
      · exact Or.inr (keyLt_connex (Bool.not_eq_true _ ▸ hbc) h2)
    rcases tri1 with hab | hab <;> rcases tri2 with hbc | hbc
    · have hac := keyLt_trans hab hbc
      have := keyLt_trans hac hca
      rw [keyLt_irrefl] at this
      exact Bool.false_ne_true this
    · subst hbc
      have := keyLt_trans hab hca
      rw [keyLt_irrefl] at this
      exact Bool.false_ne_true this
    · subst hab
      have := keyLt_trans hbc hca
      rw [keyLt_irrefl] at this
      exact Bool.false_ne_true this
    · subst hab
      subst hbc
      rw [keyLt_irrefl] at hca
      exact Bool.false_ne_true hca
  · exact Bool.not_eq_true _ ▸ hca

/-- The (non-strict) order in which `sortTuples` leaves tuples. -/
def tupleLe {α : Type} (p q : String × α) : Prop := keyLe p.1 q.1

theorem insertTuple_pairwise {α : Type} (p : String × α)
    {l : List (String × α)} (h : l.Pairwise tupleLe) :
    (insertTuple p l).Pairwise tupleLe := by
  induction l with
  | nil => simp [insertTuple, List.pairwise_cons]
  | cons q qs ih =>
      rw [List.pairwise_cons] at h
      by_cases hlt : keyLt p.1 q.1 = true
      · rw [insertTuple, if_pos hlt]
        rw [List.pairwise_cons]
        refine ⟨?_, List.pairwise_cons.mpr ⟨h.1, h.2⟩⟩
        intro r hr
        rcases List.mem_cons.mp hr with h1 | h1
        · rw [h1, tupleLe, keyLe]
          exact keyLt_asymm hlt
        · exact keyLe_trans (show keyLe p.1 q.1 from keyLt_asymm hlt) (h.1 r h1)
      · rw [insertTuple, if_neg hlt]
        rw [List.pairwise_cons]
        refine ⟨?_, ih h.2⟩
        intro r hr
        have hr2 := (insertTuple_perm p qs).mem_iff.mp hr
        rcases List.mem_cons.mp hr2 with h1 | h1
        · rw [h1, tupleLe, keyLe]
          exact Bool.not_eq_true _ ▸ hlt
        · exact h.1 r h1

theorem sortTuples_pairwise {α : Type} (l : List (String × α)) :
    (sortTuples l).Pairwise tupleLe := by
  induction l with
  | nil => simp [sortTuples]
  | cons p ps ih =>
      have : sortTuples (p :: ps) = insertTuple p (sortTuples ps) := rfl
      rw [this]
      exact insertTuple_pairwise p ih

/-- Two sorted tuple lists that are permutations of each other and have
pairwise-distinct keys are equal. -/
theorem sorted_perm_nodup_eq {α : Type} :
    ∀ {l₁ l₂ : List (String × α)}, l₁.Perm l₂ → l₁.Pairwise tupleLe →
      l₂.Pairwise tupleLe → (l₁.map Prod.fst).Nodup → l₁ = l₂ := by
  intro l₁
  induction l₁ with
  | nil =>
      intro l₂ hperm _ _ _
      exact (List.Perm.nil_eq hperm).symm ▸ rfl
  | cons a t₁ ih =>
      intro l₂ hperm h1 h2 hnd
      cases l₂ with
      | nil => exact absurd hperm.symm (by simp)
      | cons b t₂ =>
          rw [List.pairwise_cons] at h1 h2
          by_cases hab : a = b
          · subst hab
            have htail := hperm.cons_inv
            rw [ih htail h1.2 h2.2 (by
              rw [List.map_cons] at hnd
              exact hnd.of_cons)]
          · exfalso
            have hainb : a ∈ b :: t₂ := hperm.mem_iff.mp (List.mem_cons_self _ _)
            have haint2 : a ∈ t₂ := by
              rcases List.mem_cons.mp hainb with h3 | h3
              · exact absurd h3 hab
              · exact h3
            have hbint1 : b ∈ a :: t₁ :=
              hperm.symm.mem_iff.mp (List.mem_cons_self _ _)
            have hbt1 : b ∈ t₁ := by
              rcases List.mem_cons.mp hbint1 with h3 | h3
              · exact absurd h3.symm hab
              · exact h3
            have hba : keyLe b.1 a.1 := h2.1 a haint2
            have hab2 : keyLe a.1 b.1 := h1.1 b hbt1
            have hkey : a.1 = b.1 := by
              rw [keyLe] at hba hab2
              exact (keyLt_connex hba hab2)
            rw [List.map_cons, List.nodup_cons] at hnd
            exact hnd.1 (hkey ▸ List.mem_map_of_mem Prod.fst hbt1)

/-- `sortTuples` on permuted inputs with pairwise-distinct keys agrees. -/
theorem sortTuples_eq_of_perm {α : Type} {l₁ l₂ : List (String × α)}
    (hperm : l₁.Perm l₂) (hnd : (l₁.map Prod.fst).Nodup) :
    sortTuples l₁ = sortTuples l₂ := by
  refine sorted_perm_nodup_eq ?_ (sortTuples_pairwise l₁) (sortTuples_pairwise l₂) ?_
  · exact (sortTuples_perm l₁).trans (hperm.trans (sortTuples_perm l₂).symm)
  · refine ((sortTuples_perm l₁).map Prod.fst).nodup_iff.mpr hnd

/-- The declaration extraction of `parseStyles` as a `filterMap`. -/
def entrySlot (p : String × StyleValue) : Option (String × PropValue) :=
  if startsDollar (jsTrim p.1) then none
  else
    match p.2 with
    | .null => none
    | .nested _ => none
    | .val v => some (hyphenate (jsTrim p.1), Sum.inl v)
    | .vlist l => some (hyphenate (jsTrim p.1), Sum.inr l)

theorem splitEntries_fst_eq (es : List (String × StyleValue)) :
    (splitEntries es).1 = es.filterMap entrySlot := by
  induction es with
  | nil => rfl
  | cons p rest ih =>
      obtain ⟨pk, pv⟩ := p
      by_cases hd : startsDollar (jsTrim pk) = true
      · rw [splitEntries_dollar hd, List.filterMap_cons]
        simp only [entrySlot, hd, if_pos]
        exact ih
      · replace hd := Bool.not_eq_true _ ▸ hd
        cases pv with
        | null =>
            rw [splitEntries_null hd, List.filterMap_cons]
            simp only [entrySlot, hd, Bool.false_eq_true, if_false]
            exact ih
        | val v =>
            rw [splitEntries_val hd, List.filterMap_cons]
            simp only [entrySlot, hd, Bool.false_eq_true, if_false]
            rw [ih]
        | vlist l =>
            rw [splitEntries_vlist hd, List.filterMap_cons]
            simp only [entrySlot, hd, Bool.false_eq_true, if_false]
            rw [ih]
        | nested s =>
            rw [splitEntries_sub hd, List.filterMap_cons]
            simp only [entrySlot, hd, Bool.false_eq_true, if_false]
            exact ih

/-- Permuting the authored entries permutes the extracted declarations. -/
theorem splitEntries_fst_perm {e₁ e₂ : List (String × StyleValue)}
    (h : e₁.Perm e₂) : (splitEntries e₁).1.Perm (splitEntries e₂).1 := by
  rw [splitEntries_fst_eq, splitEntries_fst_eq]
  exact h.filterMap entrySlot

/-- Sorted rendering is permutation-invariant when the hyphenated names are
pairwise distinct. -/
theorem parseStyles_style_of_perm {A B : Styles}
    (hperm : A.entries.Perm B.entries)
    (hnd : (((splitEntries A.entries).1).map Prod.fst).Nodup) :
    (parseStyles A true).style = (parseStyles B true).style := by
  rw [parseStyles, parseStyles]
  simp only []
  rw [sortTuples_eq_of_perm (splitEntries_fst_perm hperm) hnd]

theorem key_congr {A B : Styles} (pid : String) (prod : Bool)
    (hdn : A.displayName = B.displayName) :
    key pid A prod = key pid B prod := by
  rw [key, key, hdn]

theorem flatNode_congr {A B : Styles} (prod : Bool) (nid : String)
    (hst : (parseStyles A true).style = (parseStyles B true).style)
    (hdn : A.displayName = B.displayName) :
    flatNode A prod nid = flatNode B prod nid := by
  rw [flatNode, flatNode, flatKid, flatKid, flatCls, flatCls, hst,
    key_congr _ prod hdn]

theorem regNodes_flat_empty {styles : Styles} (prod : Bool) (uid : Nat)
    (hflat : flatStyles styles = true)
    (hst : (parseStyles styles true).style = "") :
    regNodes uid styles prod = ([], uid) := by
  rw [regNodes]
  simp only [stylize_flat hflat, hst]
  simp only [ne_eq, not_true_eq_false, Bool.false_eq_true, if_false,
    reduceIte]
  rw [composeNodesStyles, composeNodesRules]
  rfl

theorem flatStyles_of_perm {A B : Styles} (hperm : A.entries.Perm B.entries)
    (h : flatStyles A = true) : flatStyles B = true := by
  rw [flatStyles, List.all_eq_true] at h ⊢
  intro p hp
  exact h p (hperm.mem_iff.mpr hp)

/-- Permuted declaration-only trees with pairwise-distinct hyphenated names
and identical control keys register identically (same identifier, same
resulting state). -/
theorem registerStyle_perm_flat (A B : Styles) (uid : Nat) (prod : Bool)
    (hperm : A.entries.Perm B.entries) (hflatA : flatStyles A = true)
    (hu : A.isUnique = B.isUnique) (hdn : A.displayName = B.displayName)
    (hnd : (((splitEntries A.entries).1).map Prod.fst).Nodup) :
    registerStyle emptyCState uid A prod = registerStyle emptyCState uid B prod := by
  have hflatB : flatStyles B = true := flatStyles_of_perm hperm hflatA
  have hstyle := parseStyles_style_of_perm hperm hnd
  have hid : key (stylize "&" A [] [] "").2.2 A prod =
      key (stylize "&" B [] [] "").2.2 B prod := by
    rw [stylize_flat hflatA, stylize_flat hflatB]
    simp only []
    rw [hstyle, key_congr _ prod hdn]
  by_cases hstz : (parseStyles A true).style = ""
  · simp only [registerStyle_as_merge]
    rw [regNodes_flat_empty prod uid hflatA hstz,
      regNodes_flat_empty prod uid hflatB (hstyle ▸ hstz), hid]
  · simp only [registerStyle_as_merge]
    rw [regNodes_flat prod uid hflatA hstz,
      regNodes_flat prod uid hflatB (hstyle ▸ hstz), hid, hu,
      flatNode_congr prod _ hstyle hdn, hstyle]

/-! ### Key/sheet alignment: the indexable invariant of `Cache` -/

theorem getElem?_idxOfStr {l : List String} {k : String} (h : k ∈ l) :
    l[idxOfStr l k]? = some k := by
  induction l with
  | nil => cases h
  | cons x rest ih =>
      by_cases hx : x = k
      · simp [idxOfStr, hx]
      · rcases List.mem_cons.mp h with h1 | h1
        · exact absurd h1.symm hx
        · simpa [idxOfStr, hx] using ih h1

theorem idxOfStr_unique {l : List String} {k : String} :
    ∀ {j : Nat}, l.Nodup → l[j]? = some k → j = idxOfStr l k := by
  induction l with
  | nil => intro j _ hj; simp at hj
  | cons x rest ih =>
      intro j hnd hj
      rcases List.nodup_cons.mp hnd with ⟨hx, hnd'⟩
      cases j with
      | zero =>
          simp only [List.getElem?_cons_zero, Option.some.injEq] at hj
          simp [idxOfStr, hj]
      | succ j' =>
          simp only [List.getElem?_cons_succ] at hj
          have hkr : k ∈ rest := List.getElem?_mem hj
          have hxk : x ≠ k := fun he => hx (he ▸ hkr)
          simp only [idxOfStr, if_neg hxk]
          exact congrArg Nat.succ (ih hnd' hj)

theorem not_mem_eraseIdx_of_nodup {k : String} :
    ∀ {l : List String} {j : Nat}, l.Nodup → l[j]? = some k →
      k ∉ l.eraseIdx j := by
  intro l
  induction l with
  | nil => intro j _ hj; simp at hj
  | cons x rest ih =>
      intro j hnd hj
      rcases List.nodup_cons.mp hnd with ⟨hx, hnd'⟩
      cases j with
      | zero =>
          simp only [List.getElem?_cons_zero, Option.some.injEq] at hj
          subst hj
          simpa [List.eraseIdx] using hx
      | succ j' =>
          simp only [List.getElem?_cons_succ] at hj
          have hkr : k ∈ rest := List.getElem?_mem hj
          have hxk : x ≠ k := fun he => hx (he ▸ hkr)
          simp only [List.eraseIdx, List.mem_cons]
          rintro (h1 | h1)
          · exact hxk h1.symm
          · exact ih hnd' hj h1

theorem mem_eraseIdx_iff_strs {k i : String} :
    ∀ {l : List String} {j : Nat}, l[j]? = some k → i ≠ k →
      (i ∈ l.eraseIdx j ↔ i ∈ l) := by
  intro l
  induction l with
  | nil => intro j hj; simp at hj
  | cons x rest ih =>
      intro j hj hne
      cases j with
      | zero =>
          simp only [List.getElem?_cons_zero, Option.some.injEq] at hj
          subst hj
          simp [List.eraseIdx, hne]
      | succ j' =>
          simp only [List.getElem?_cons_succ] at hj
          simp [List.eraseIdx, ih hj hne]

/-- The index-alignment invariant of a cache: the key list has no
duplicates, it is exactly the domain of the children dictionary, and for
every position `j` the rendered-text list holds the rendering of the node
whose id sits at position `j` of the key list. -/
def keysWF (s : CState) : Prop :=
  s.keys.Nodup ∧
  (∀ i, (lookupA s.children i).isSome ↔ i ∈ s.keys) ∧
  (∀ j : Nat, s.sheet[j]? =
    (s.keys[j]?.bind (lookupA s.children)).map renderNode)

/-- The full invariant preserved by `Cache.add` and `Cache.remove`. -/
def cacheWF (s : CState) : Prop := stateWF s ∧ keysWF s

theorem keysWF_empty : keysWF emptyCState := by
  refine ⟨List.nodup_nil, ?_, ?_⟩ <;> simp [emptyCState, lookupA]

theorem cacheWF_empty : cacheWF emptyCState := ⟨stateWF_empty, keysWF_empty⟩

/-- Index alignment forces the two lists to have equal length. -/
theorem keysWF_length {s : CState} (h : keysWF s) :
    s.sheet.length = s.keys.length := by
  obtain ⟨hnd, hdom, hal⟩ := h
  rcases Nat.lt_trichotomy s.sheet.length s.keys.length with hlt | he | hgt
  · exfalso
    have h1 := hal s.sheet.length
    rw [List.getElem?_eq_none le_rfl,
      List.getElem?_eq_getElem hlt] at h1
    have hsome := (hdom _).mpr (List.getElem_mem hlt)
    rcases Option.isSome_iff_exists.mp hsome with ⟨it, hit⟩
    rw [Option.some_bind, hit] at h1
    exact Option.noConfusion h1
  · exact he
  · exfalso
    have h1 := hal s.keys.length
    rw [List.getElem?_eq_getElem hgt, List.getElem?_eq_none le_rfl] at h1
    exact Option.noConfusion h1

theorem nodup_append_singleton {l : List String} {k : String}
    (hnd : l.Nodup) (hk : k ∉ l) : (l ++ [k]).Nodup := by
  rw [List.nodup_append]
  refine ⟨hnd, List.nodup_singleton k, ?_⟩
  intro a ha hak
  rw [List.mem_singleton] at hak
  subst hak
  exact hk ha

/-- `Cache.add` preserves the key/sheet alignment invariant. -/
theorem cacheWF_cacheAdd {s : CState} (h : cacheWF s) (n : Node) :
    cacheWF (cacheAdd s n).1 := by
  have hWF : stateWF s := h.1
  obtain ⟨hnd, hdom, hal⟩ := h.2
  refine ⟨stateWF_cacheAdd n hWF, ?_⟩
  have hlen := keysWF_length h.2
  by_cases h0 : lookupD s.counters (nodeId n) = 0
  · -- fresh: append key, children entry and sheet line together
    have hch : lookupA s.children (nodeId n) = none := by
      cases hc : lookupA s.children (nodeId n) with
      | none => rfl
      | some it =>
          exfalso
          have := (hdom (nodeId n)).mp (by rw [hc]; rfl)
          have h2 := ((stateWF_def s).mp hWF).2 (nodeId n)
          have := h2.mp (by rw [hc]; rfl)
          omega
    have hni : nodeId n ∉ s.keys := by
      intro hmem
      have := (hdom (nodeId n)).mpr hmem
      rw [hch] at this
      exact Bool.noConfusion this
    rw [cacheAdd_fresh h0 hch]
    refine ⟨nodup_append_singleton hnd hni, ?_, ?_⟩
    · intro i
      show (lookupA (assocSet s.children (nodeId n) (cloneNode n)) i).isSome ↔ _
      by_cases hi : i = nodeId n
      · subst hi
        rw [lookupA_assocSet_self]
        simp
      · rw [lookupA_assocSet_ne _ _ _ _ (fun he => hi he.symm)]
        simp only [List.mem_append, List.mem_singleton]
        rw [hdom i]
        exact ⟨Or.inl, fun hh => hh.elim id fun he => absurd he hi⟩
    · intro j
      show (s.sheet ++ [renderNode (cloneNode n)])[j]? =
        ((s.keys ++ [nodeId n])[j]?.bind
          (lookupA (assocSet s.children (nodeId n) (cloneNode n)))).map renderNode
      rcases Nat.lt_trichotomy j s.keys.length with hj | hj | hj
      · rw [List.getElem?_append_left (by omega),
          List.getElem?_append_left hj, hal j,
          List.getElem?_eq_getElem hj, Option.some_bind, Option.some_bind]
        have hkj : s.keys[j] ≠ nodeId n := fun he => hni (he ▸ List.getElem_mem hj)
        rw [lookupA_assocSet_ne _ _ _ _ (fun he => hkj he.symm)]
      · subst hj
        rw [List.getElem?_concat_length, Option.some_bind,
          lookupA_assocSet_self, ← hlen, List.getElem?_concat_length]
        rfl
      · rw [List.getElem?_eq_none (by simp; omega),
          List.getElem?_eq_none (by simp; omega)]
        rfl
  · -- seen: children may be rewritten at the merged id, sheet at its index
    obtain ⟨item, hch⟩ : ∃ it, lookupA s.children (nodeId n) = some it := by
      have := ((stateWF_def s).mp hWF).2 (nodeId n)
      have hsome := this.mpr (by omega)
      cases hc : lookupA s.children (nodeId n) with
      | none => rw [hc] at hsome; exact Bool.noConfusion hsome
      | some it => exact ⟨it, rfl⟩
    have hmem : nodeId n ∈ s.keys := (hdom (nodeId n)).mp (by rw [hch]; rfl)
    have hidx := getElem?_idxOfStr hmem
    have hidxlt : idxOfStr s.keys (nodeId n) < s.keys.length :=
      idxOfStr_lt_length hmem
    by_cases hcc : (isCache item && isCache n) = true
    · by_cases h3 : (mergeCState (cstate item) (nodeValues (cstate n))).changeId =
          (cstate item).changeId
      · -- silent in-place merge: rendered text of the merged node is unchanged
        rw [cacheAdd_seen_silent h0 hch hcc h3]
        have hsheq : (mergeCState (cstate item) (nodeValues (cstate n))).sheet =
            (cstate item).sheet := (mergeCState_silent h3).2
        refine ⟨hnd, ?_, ?_⟩
        · intro i
          show (lookupA (assocSet s.children (nodeId n) _) i).isSome ↔ _
          by_cases hi : i = nodeId n
          · subst hi
            rw [lookupA_assocSet_self]
            exact iff_of_true rfl hmem
          · rw [lookupA_assocSet_ne _ _ _ _ (fun he => hi he.symm)]
            exact hdom i
        · intro j
          show s.sheet[j]? = (s.keys[j]?.bind
            (lookupA (assocSet s.children (nodeId n) _))).map renderNode
          rw [hal j]
          cases hkj : s.keys[j]? with
          | none => rfl
          | some k =>
              rw [Option.some_bind, Option.some_bind]
              by_cases hk : k = nodeId n
              · subst hk
                rw [lookupA_assocSet_self, hch]
                show some (renderNode item) = some (renderNode (setCState item _))
                rw [renderNode_setCState hsheq]
              · rw [lookupA_assocSet_ne _ _ _ _ (fun he => hk he.symm)]
      · -- visible in-place merge: sheet line at the entry's index is respliced
        rw [cacheAdd_seen_changed h0 hch hcc h3]
        refine ⟨hnd, ?_, ?_⟩
        · intro i
          show (lookupA (assocSet s.children (nodeId n) _) i).isSome ↔ _
          by_cases hi : i = nodeId n
          · subst hi
            rw [lookupA_assocSet_self]
            exact iff_of_true rfl hmem
          · rw [lookupA_assocSet_ne _ _ _ _ (fun he => hi he.symm)]
            exact hdom i
        · intro j
          show (s.sheet.set (idxOfStr s.keys (nodeId n)) _)[j]? =
            (s.keys[j]?.bind
              (lookupA (assocSet s.children (nodeId n) _))).map renderNode
          by_cases hj : j = idxOfStr s.keys (nodeId n)
          · subst hj
            rw [List.getElem?_set_self (by omega), hidx, Option.some_bind,
              lookupA_assocSet_self]
            rfl
          · rw [List.getElem?_set_ne (fun he => hj he.symm), hal j]
            cases hkj : s.keys[j]? with
            | none => rfl
            | some k =>
                rw [Option.some_bind, Option.some_bind]
                have hk : k ≠ nodeId n := by
                  intro he
                  subst he
                  exact hj (idxOfStr_unique hnd hkj)
                rw [lookupA_assocSet_ne _ _ _ _ (fun he => hk he.symm)]
    · -- flat: only the reference count moves
      rw [cacheAdd_seen_flat h0 hch (by simpa using hcc)]
      exact ⟨hnd, hdom, hal⟩

/-- Adding to a well-formed cache either leaves the key list untouched or
appends the new id at the end: existing order is never disturbed. -/
theorem cacheAdd_keys_shape {s : CState} (hWF : stateWF s) (n : Node) :
    (cacheAdd s n).1.keys = s.keys ∨
    (cacheAdd s n).1.keys = s.keys ++ [nodeId n] := by
  by_cases h : lookupD s.counters (nodeId n) = 0
  · have hch : lookupA s.children (nodeId n) = none := by
      have := (stateWF_def s).mp hWF
      have h2 := (this.2 (nodeId n)).not
      cases hc : lookupA s.children (nodeId n) with
      | none => rfl
      | some it =>
          exfalso
          exact (h2.mpr (by omega)) (by rw [hc]; rfl)
    right
    rw [cacheAdd_fresh h hch]
  · left
    exact cacheAdd_keys_seen h

/-- `Cache.remove`, remaining references but no stored node (unreachable in a
well-formed cache): only the counter moves. -/
theorem cacheRemove_orphan {s : CState} {n : Node} {c : Nat}
    (h : lookupA s.counters (nodeId n) = some c) (hc0 : c ≠ 0)
    (hch : lookupA s.children (nodeId n) = none) :
    cacheRemove s n =
      ({ s with counters := assocSet s.counters (nodeId n) (c - 1) }, []) := by
  rw [cacheRemove, h]
  simp only [if_neg hc0, hch]

/-- Removing from any cache either leaves the key list untouched or deletes
exactly one slot: the relative order of the remaining ids is preserved. -/
theorem cacheRemove_keys_shape (s : CState) (n : Node) :
    (cacheRemove s n).1.keys = s.keys ∨
    ∃ j, (cacheRemove s n).1.keys = s.keys.eraseIdx j := by
  by_cases h0 : lookupD s.counters (nodeId n) = 0
  · rw [cacheRemove_absent h0]
    exact Or.inl rfl
  · rw [lookupD] at h0
    rcases hc : lookupA s.counters (nodeId n) with _ | c
    · rw [hc] at h0
      exact absurd rfl h0
    · rw [hc] at h0
      simp only [Option.getD_some] at h0
      rcases hch : lookupA s.children (nodeId n) with _ | item
      · rw [cacheRemove_orphan hc h0 hch]
        exact Or.inl rfl
      · by_cases h1 : c = 1
        · subst h1
          rw [cacheRemove_last hc hch]
          exact Or.inr ⟨_, rfl⟩
        · by_cases hcc : (isCache item && isCache n) = true
          · by_cases h3 : (unmergeCState (cstate item)
                (nodeValues (cstate n))).changeId = (cstate item).changeId
            · rw [cacheRemove_dec_silent hc h0 h1 hch hcc h3]
              exact Or.inl rfl
            · rw [cacheRemove_dec_changed hc h0 h1 hch hcc h3]
              exact Or.inl rfl
          · rw [cacheRemove_dec_flat hc h0 h1 hch (by simpa using hcc)]
            exact Or.inl rfl

/-- Adding a node whose id is already stored in a well-formed cache is an
in-place merge: the key list is unchanged, the sheet keeps its length and is
modified at most at the merged entry's existing index, and any event emitted
is a `change` whose old and new indices both equal that index. -/
theorem cacheAdd_seen_in_place {s : CState} {n : Node}
    (hWF : stateWF s) (h : lookupD s.counters (nodeId n) ≠ 0) :
    (cacheAdd s n).1.keys = s.keys ∧
    (cacheAdd s n).1.sheet.length = s.sheet.length ∧
    (∀ j, j ≠ idxOfStr s.keys (nodeId n) →
      (cacheAdd s n).1.sheet[j]? = s.sheet[j]?) ∧
    ∀ e ∈ (cacheAdd s n).2,
      e = CEvent.change (nodeId n) (idxOfStr s.keys (nodeId n))
            (idxOfStr s.keys (nodeId n)) := by
  obtain ⟨hids, hdom⟩ := (stateWF_def s).mp hWF
  obtain ⟨item, hch⟩ : ∃ it, lookupA s.children (nodeId n) = some it := by
    have := (hdom (nodeId n)).mpr (by omega)
    cases hc : lookupA s.children (nodeId n) with
    | none => rw [hc] at this; exact absurd this (by simp)
    | some it => exact ⟨it, rfl⟩
  have hitid : nodeId item = nodeId n := (hids _ _ hch).1
  by_cases hcc : (isCache item && isCache n) = true
  · by_cases h3 : (mergeCState (cstate item) (nodeValues (cstate n))).changeId =
        (cstate item).changeId
    · rw [cacheAdd_seen_silent h hch hcc h3]
      exact ⟨rfl, rfl, fun _ _ => rfl, by simp⟩
    · rw [cacheAdd_seen_changed h hch hcc h3]
      refine ⟨rfl, List.length_set _ _ _, ?_, ?_⟩
      · intro j hj
        exact List.getElem?_set_ne (Ne.symm hj)
      · intro e he
        rcases List.mem_singleton.mp he with rfl
        rw [hitid]
  · rw [cacheAdd_seen_flat h hch (by simpa using hcc)]
    exact ⟨rfl, rfl, fun _ _ => rfl, by simp⟩

/-- `Cache.remove` preserves the key/sheet alignment invariant. -/
theorem cacheWF_cacheRemove {s : CState} (h : cacheWF s) (n : Node) :
    cacheWF (cacheRemove s n).1 := by
  have hWF : stateWF s := h.1
  obtain ⟨hnd, hdom, hal⟩ := h.2
  refine ⟨stateWF_cacheRemove n hWF, ?_⟩
  have hlen := keysWF_length h.2
  by_cases h0 : lookupD s.counters (nodeId n) = 0
  · rw [cacheRemove_absent h0]
    exact ⟨hnd, hdom, hal⟩
  · rw [lookupD] at h0
    rcases hc : lookupA s.counters (nodeId n) with _ | c
    · rw [hc] at h0
      exact absurd rfl h0
    · rw [hc] at h0
      simp only [Option.getD_some] at h0
      rcases hch : lookupA s.children (nodeId n) with _ | item
      · rw [cacheRemove_orphan hc h0 hch]
        exact ⟨hnd, hdom, hal⟩
      · have hitid : nodeId item = nodeId n :=
          (((stateWF_def s).mp hWF).1 _ _ hch).1
        have hmem : nodeId n ∈ s.keys := (hdom (nodeId n)).mp (by rw [hch]; rfl)
        have hidx := getElem?_idxOfStr hmem
        have hidxlt : idxOfStr s.keys (nodeId n) < s.keys.length :=
          idxOfStr_lt_length hmem
        by_cases h1 : c = 1
        · -- last reference: delete key, sheet line and stored node together
          subst h1
          rw [cacheRemove_last hc hch, hitid]
          refine ⟨List.Nodup.eraseIdx _ hnd, ?_, ?_⟩
          · intro i
            show (lookupA (assocDelete s.children (nodeId n)) i).isSome ↔ _
            by_cases hi : i = nodeId n
            · subst hi
              rw [lookupA_assocDelete_self]
              simp only [Option.isSome_none, Bool.false_eq_true, false_iff]
              exact not_mem_eraseIdx_of_nodup hnd hidx
            · rw [lookupA_assocDelete_ne _ _ _ (fun he => hi he.symm)]
              rw [mem_eraseIdx_iff_strs hidx hi]
              exact hdom i
          · intro j
            show (s.sheet.eraseIdx (idxOfStr s.keys (nodeId n)))[j]? =
              ((s.keys.eraseIdx (idxOfStr s.keys (nodeId n)))[j]?.bind
                (lookupA (assocDelete s.children (nodeId n)))).map renderNode
            rw [List.getElem?_eraseIdx, List.getElem?_eraseIdx]
            by_cases hj : j < idxOfStr s.keys (nodeId n)
            · rw [if_pos hj, if_pos hj, hal j]
              cases hkj : s.keys[j]? with
              | none => rfl
              | some k =>
                  rw [Option.some_bind, Option.some_bind]
                  have hk : k ≠ nodeId n := by
                    intro he
                    subst he
                    exact absurd (idxOfStr_unique hnd hkj) (by omega)
                  rw [lookupA_assocDelete_ne _ _ _ (fun he => hk he.symm)]
            · rw [if_neg hj, if_neg hj, hal (j + 1)]
              cases hkj : s.keys[j + 1]? with
              | none => rfl
              | some k =>
                  rw [Option.some_bind, Option.some_bind]
                  have hk : k ≠ nodeId n := by
                    intro he
                    subst he
                    exact absurd (idxOfStr_unique hnd hkj) (by omega)
                  rw [lookupA_assocDelete_ne _ _ _ (fun he => hk he.symm)]
        · by_cases hcc : (isCache item && isCache n) = true
          · by_cases h3 : (unmergeCState (cstate item)
                (nodeValues (cstate n))).changeId = (cstate item).changeId
            · -- silent in-place unmerge
              rw [cacheRemove_dec_silent hc h0 h1 hch hcc h3]
              have hsheq : (unmergeCState (cstate item)
                  (nodeValues (cstate n))).sheet = (cstate item).sheet :=
                (unmergeCState_silent h3).2
              refine ⟨hnd, ?_, ?_⟩
              · intro i
                show (lookupA (assocSet s.children (nodeId n) _) i).isSome ↔ _
                by_cases hi : i = nodeId n
                · subst hi
                  rw [lookupA_assocSet_self]
                  exact iff_of_true rfl hmem
                · rw [lookupA_assocSet_ne _ _ _ _ (fun he => hi he.symm)]
                  exact hdom i
              · intro j
                show s.sheet[j]? = (s.keys[j]?.bind
                  (lookupA (assocSet s.children (nodeId n) _))).map renderNode
                rw [hal j]
                cases hkj : s.keys[j]? with
                | none => rfl
                | some k =>
                    rw [Option.some_bind, Option.some_bind]
                    by_cases hk : k = nodeId n
                    · subst hk
                      rw [lookupA_assocSet_self, hch]
                      show some (renderNode item) =
                        some (renderNode (setCState item _))
                      rw [renderNode_setCState hsheq]
                    · rw [lookupA_assocSet_ne _ _ _ _ (fun he => hk he.symm)]
            · -- visible in-place unmerge
              rw [cacheRemove_dec_changed hc h0 h1 hch hcc h3, hitid]
              refine ⟨hnd, ?_, ?_⟩
              · intro i
                show (lookupA (assocSet s.children (nodeId n) _) i).isSome ↔ _
                by_cases hi : i = nodeId n
                · subst hi
                  rw [lookupA_assocSet_self]
                  exact iff_of_true rfl hmem
                · rw [lookupA_assocSet_ne _ _ _ _ (fun he => hi he.symm)]
                  exact hdom i
              · intro j
                show (s.sheet.set (idxOfStr s.keys (nodeId n)) _)[j]? =
                  (s.keys[j]?.bind
                    (lookupA (assocSet s.children (nodeId n) _))).map renderNode
                by_cases hj : j = idxOfStr s.keys (nodeId n)
                · subst hj
                  rw [List.getElem?_set_self (by omega), hidx, Option.some_bind,
                    lookupA_assocSet_self]
                  rfl
                · rw [List.getElem?_set_ne (fun he => hj he.symm), hal j]
                  cases hkj : s.keys[j]? with
                  | none => rfl
                  | some k =>
                      rw [Option.some_bind, Option.some_bind]
                      have hk : k ≠ nodeId n := by
                        intro he
                        subst he
                        exact hj (idxOfStr_unique hnd hkj)
                      rw [lookupA_assocSet_ne _ _ _ _ (fun he => hk he.symm)]
          · rw [cacheRemove_dec_flat hc h0 h1 hch (by simpa using hcc)]
            exact ⟨hnd, hdom, hal⟩

theorem cacheWF_mergeCState {s : CState} (h : cacheWF s) (vs : List Node) :
    cacheWF (mergeCState s vs) := by
  induction vs generalizing s with
  | nil => rw [mergeCState_nil]; exact h
  | cons v rest ih =>
      rw [mergeCState_cons]
      exact ih (cacheWF_cacheAdd h v)

/-! ### Reference-count cycles: N adds, N-1 removes, final remove -/

/-- A sequence of `remove` calls, collecting the events of each. -/
def removeSeq (s : CState) (ms : List Node) : CState × List CEvent :=
  match ms with
  | [] => (s, [])
  | m :: rest =>
      let r := cacheRemove s m
      let r2 := removeSeq r.1 rest
      (r2.1, r.2 ++ r2.2)

/-- One `add` of a node whose id is already counted: the counter bumps, the
stored node keeps its id, the key list is untouched. -/
theorem seen_add_step {s : CState} {n : Node} {i : String} {c : Nat} {it : Node}
    (hid : nodeId n = i) (hc : lookupA s.counters i = some c) (hc0 : c ≠ 0)
    (hit : lookupA s.children i = some it) (hitid : nodeId it = i) :
    lookupA (cacheAdd s n).1.counters i = some (c + 1) ∧
    (∃ it', lookupA (cacheAdd s n).1.children i = some it' ∧ nodeId it' = i) ∧
    (cacheAdd s n).1.keys = s.keys := by
  have hcD : lookupD s.counters (nodeId n) ≠ 0 := by
    rw [lookupD, hid, hc]
    simpa using hc0
  have hcnt : (cacheAdd s n).1.counters =
      assocSet s.counters i (lookupD s.counters i + 1) := by
    rw [cacheAdd_counters, hid]
  have hcv : lookupD s.counters i + 1 = c + 1 := by
    rw [lookupD, hc]
    rfl
  refine ⟨by rw [hcnt, hcv, lookupA_assocSet_self], ?_,
    cacheAdd_keys_seen hcD⟩
  have hch : lookupA s.children (nodeId n) = some it := by rw [hid]; exact hit
  by_cases hcc : (isCache it && isCache n) = true
  · have hchildren' : (cacheAdd s n).1.children =
        assocSet s.children (nodeId n)
          (setCState it (mergeCState (cstate it) (nodeValues (cstate n)))) := by
      by_cases h3 : (mergeCState (cstate it) (nodeValues (cstate n))).changeId =
          (cstate it).changeId
      · rw [cacheAdd_seen_silent hcD hch hcc h3]
      · rw [cacheAdd_seen_changed hcD hch hcc h3]
    refine ⟨setCState it (mergeCState (cstate it) (nodeValues (cstate n))), ?_, ?_⟩
    · rw [hchildren', hid, lookupA_assocSet_self]
    · rw [setCState_id, hitid]
  · rw [cacheAdd_seen_flat hcD hch (by simpa using hcc)]
    exact ⟨it, hit, hitid⟩

/-- One `remove` of a node whose id still has at least two references: the
counter decrements, nothing else observable happens, and in particular no
`remove` event fires. -/
theorem dec_remove_step {s : CState} {n : Node} {i : String} {c : Nat} {it : Node}
    (hid : nodeId n = i) (hc : lookupA s.counters i = some c) (hc2 : 2 ≤ c)
    (hit : lookupA s.children i = some it) (hitid : nodeId it = i) :
    lookupA (cacheRemove s n).1.counters i = some (c - 1) ∧
    (∃ it', lookupA (cacheRemove s n).1.children i = some it' ∧ nodeId it' = i) ∧
    (cacheRemove s n).1.keys = s.keys ∧
    (∀ e ∈ (cacheRemove s n).2, e.isRemove = false) := by
  have hc0 : c ≠ 0 := by omega
  have hc1 : c ≠ 1 := by omega
  have hcn : lookupA s.counters (nodeId n) = some c := by rw [hid]; exact hc
  have hchn : lookupA s.children (nodeId n) = some it := by rw [hid]; exact hit
  by_cases hcc : (isCache it && isCache n) = true
  · by_cases h3 : (unmergeCState (cstate it) (nodeValues (cstate n))).changeId =
        (cstate it).changeId
    · rw [cacheRemove_dec_silent hcn hc0 hc1 hchn hcc h3]
      refine ⟨?_, ?_, rfl, by simp⟩
      · show lookupA (assocSet s.counters (nodeId n) (c - 1)) i = some (c - 1)
        rw [hid, lookupA_assocSet_self]
      · refine ⟨setCState it (unmergeCState (cstate it) (nodeValues (cstate n))),
          ?_, ?_⟩
        · show lookupA (assocSet s.children (nodeId n) _) i = some _
          rw [hid, lookupA_assocSet_self]
        · rw [setCState_id, hitid]
    · rw [cacheRemove_dec_changed hcn hc0 hc1 hchn hcc h3]
      refine ⟨?_, ?_, rfl, ?_⟩
      · show lookupA (assocSet s.counters (nodeId n) (c - 1)) i = some (c - 1)
        rw [hid, lookupA_assocSet_self]
      · refine ⟨setCState it (unmergeCState (cstate it) (nodeValues (cstate n))),
          ?_, ?_⟩
        · show lookupA (assocSet s.children (nodeId n) _) i = some _
          rw [hid, lookupA_assocSet_self]
        · rw [setCState_id, hitid]
      · intro e he
        rcases List.mem_singleton.mp he with rfl
        rfl
  · rw [cacheRemove_dec_flat hcn hc0 hc1 hchn (by simpa using hcc)]
    refine ⟨?_, ⟨it, hit, hitid⟩, rfl, by simp⟩
    show lookupA (assocSet s.counters (nodeId n) (c - 1)) i = some (c - 1)
    rw [hid, lookupA_assocSet_self]

theorem add_fold_same_id {i : String} :
    ∀ (ns : List Node) (s : CState) (c : Nat) (it : Node),
      (∀ n ∈ ns, nodeId n = i) → lookupA s.counters i = some c → c ≠ 0 →
      lookupA s.children i = some it → nodeId it = i →
      lookupA (mergeCState s ns).counters i = some (c + ns.length) ∧
      (∃ it', lookupA (mergeCState s ns).children i = some it' ∧ nodeId it' = i) ∧
      (mergeCState s ns).keys = s.keys := by
  intro ns
  induction ns with
  | nil =>
      intro s c it _ hc _ hit hitid
      rw [mergeCState_nil]
      exact ⟨by simpa using hc, ⟨it, hit, hitid⟩, rfl⟩
  | cons n rest ih =>
      intro s c it hid hc hc0 hit hitid
      rw [mergeCState_cons]
      obtain ⟨hc', ⟨it', hit', hitid'⟩, hk'⟩ :=
        seen_add_step (hid n (List.mem_cons_self _ _)) hc hc0 hit hitid
      obtain ⟨hc'', hch'', hk''⟩ := ih (cacheAdd s n).1 (c + 1) it'
        (fun m hm => hid m (List.mem_cons_of_mem _ hm)) hc' (by omega) hit' hitid'
      refine ⟨by rw [hc'']; congr 1; simp; omega, hch'', by rw [hk'', hk']⟩

theorem remove_fold_same_id {i : String} :
    ∀ (ms : List Node) (s : CState) (c : Nat) (it : Node),
      (∀ n ∈ ms, nodeId n = i) → lookupA s.counters i = some c →
      ms.length < c → lookupA s.children i = some it → nodeId it = i →
      lookupA (removeSeq s ms).1.counters i = some (c - ms.length) ∧
      (∃ it', lookupA (removeSeq s ms).1.children i = some it' ∧ nodeId it' = i) ∧
      (removeSeq s ms).1.keys = s.keys ∧
      (∀ e ∈ (removeSeq s ms).2, e.isRemove = false) := by
  intro ms
  induction ms with
  | nil =>
      intro s c it _ hc _ hit hitid
      rw [removeSeq]
      exact ⟨by simpa using hc, ⟨it, hit, hitid⟩, rfl, by simp⟩
  | cons m rest ih =>
      intro s c it hid hc hlen hit hitid
      rw [removeSeq]
      simp only []
      obtain ⟨hc', ⟨it', hit', hitid'⟩, hk', hev'⟩ :=
        dec_remove_step (hid m (List.mem_cons_self _ _)) hc
          (by simp at hlen; omega) hit hitid
      obtain ⟨hc'', hch'', hk'', hev''⟩ := ih (cacheRemove s m).1 (c - 1) it'
        (fun n hn => hid n (List.mem_cons_of_mem _ hn)) hc'
        (by simp at hlen ⊢; omega) hit' hitid'
      refine ⟨by rw [hc'']; congr 1; simp; omega, hch'', by rw [hk'', hk'], ?_⟩
      intro e he
      rcases List.mem_append.mp he with h1 | h1
      · exact hev' e h1
      · exact hev'' e h1

theorem eraseIdx_append_last {α : Type} (l : List α) (x : α) :
    (l ++ [x]).eraseIdx l.length = l := by
  induction l with
  | nil => rfl
  | cons a rest ih => simp [List.eraseIdx, ih]

/-- The full reference-count life cycle of one id: after the first `add` and
any number of further adds of nodes with the same id, the counter equals the
number of adds and the key sits at the end of the key list; after one fewer
`remove` the entry is still present with counter 1 and no `remove` event has
fired; the final `remove` deletes counter, stored node, key and text slot and
emits exactly one `remove` event. -/
theorem refcount_cycle (s₀ : CState) (i : String) (n₁ : Node) (ns ms : List Node)
    (m : Node)
    (hid1 : nodeId n₁ = i) (hnsid : ∀ n ∈ ns, nodeId n = i)
    (hmsid : ∀ n ∈ ms, nodeId n = i) (hm : nodeId m = i)
    (hlen : ms.length = ns.length)
    (hk : i ∉ s₀.keys)
    (hcnt : lookupA s₀.counters i = none)
    (hch : lookupA s₀.children i = none) :
    lookupA (mergeCState s₀ (n₁ :: ns)).counters i = some (1 + ns.length) ∧
    lookupA (removeSeq (mergeCState s₀ (n₁ :: ns)) ms).1.counters i = some 1 ∧
    (removeSeq (mergeCState s₀ (n₁ :: ns)) ms).1.keys = s₀.keys ++ [i] ∧
    (∀ e ∈ (removeSeq (mergeCState s₀ (n₁ :: ns)) ms).2, e.isRemove = false) ∧
    lookupA (cacheRemove (removeSeq (mergeCState s₀ (n₁ :: ns)) ms).1 m).1.counters
      i = none ∧
    lookupA (cacheRemove (removeSeq (mergeCState s₀ (n₁ :: ns)) ms).1 m).1.children
      i = none ∧
    (cacheRemove (removeSeq (mergeCState s₀ (n₁ :: ns)) ms).1 m).1.keys =
      s₀.keys ∧
    (cacheRemove (removeSeq (mergeCState s₀ (n₁ :: ns)) ms).1 m).1.sheet =
      (removeSeq (mergeCState s₀ (n₁ :: ns)) ms).1.sheet.eraseIdx
        s₀.keys.length ∧
    (cacheRemove (removeSeq (mergeCState s₀ (n₁ :: ns)) ms).1 m).2 =
      [CEvent.remove i s₀.keys.length] := by
  have hD : lookupD s₀.counters (nodeId n₁) = 0 := by
    rw [lookupD, hid1, hcnt]
    rfl
  have hfresh := cacheAdd_fresh hD (by rw [hid1]; exact hch)
  rw [mergeCState_cons, hfresh]
  set A : CState :=
    { sheet := s₀.sheet ++ [renderNode (cloneNode n₁)],
      changeId := s₀.changeId + 1,
      keys := s₀.keys ++ [nodeId n₁],
      children := assocSet s₀.children (nodeId n₁) (cloneNode n₁),
      counters := assocSet s₀.counters (nodeId n₁) 1 } with hA
  have hAc : lookupA A.counters i = some 1 := by
    rw [hA]
    show lookupA (assocSet s₀.counters (nodeId n₁) 1) i = some 1
    rw [hid1, lookupA_assocSet_self]
  have hAch : lookupA A.children i = some (cloneNode n₁) := by
    rw [hA]
    show lookupA (assocSet s₀.children (nodeId n₁) (cloneNode n₁)) i = some _
    rw [hid1, lookupA_assocSet_self]
  have hAid : nodeId (cloneNode n₁) = i := by rw [cloneNode_id, hid1]
  obtain ⟨h1c, ⟨it₁, h1ch, h1id⟩, h1k⟩ :=
    add_fold_same_id ns A 1 (cloneNode n₁) hnsid hAc one_ne_zero hAch hAid
  obtain ⟨h2c, ⟨it₂, h2ch, h2id⟩, h2k, h2ev⟩ :=
    remove_fold_same_id ms (mergeCState A ns) (1 + ns.length) it₁ hmsid h1c
      (by omega) h1ch h1id
  have h2c1 : lookupA (removeSeq (mergeCState A ns) ms).1.counters i = some 1 := by
    rw [h2c, hlen]
    congr 1
    omega
  have hkeys2 : (removeSeq (mergeCState A ns) ms).1.keys = s₀.keys ++ [i] := by
    rw [h2k, h1k, hA, hid1]
  have hidx : idxOfStr (removeSeq (mergeCState A ns) ms).1.keys i =
      s₀.keys.length := by
    rw [hkeys2, idxOfStr_append_not_mem _ _ hk]
  have hlast := @cacheRemove_last _ _ it₂
    (by rw [hm]; exact h2c1) (by rw [hm]; exact h2ch)
  rw [hlast]
  refine ⟨h1c, h2c1, hkeys2, h2ev, ?_, ?_, ?_, ?_, ?_⟩
  · show lookupA (assocDelete (assocSet _ (nodeId m) 0) (nodeId m)) i = none
    rw [hm, lookupA_assocDelete_self]
  · show lookupA (assocDelete _ (nodeId m)) i = none
    rw [hm, lookupA_assocDelete_self]
  · show (removeSeq (mergeCState A ns) ms).1.keys.eraseIdx
        (idxOfStr (removeSeq (mergeCState A ns) ms).1.keys (nodeId it₂)) = s₀.keys
    rw [h2id, hidx, hkeys2, eraseIdx_append_last]
  · show (removeSeq (mergeCState A ns) ms).1.sheet.eraseIdx
        (idxOfStr (removeSeq (mergeCState A ns) ms).1.keys (nodeId it₂)) = _
    rw [h2id, hidx]
  · show [CEvent.remove (nodeId it₂)
        (idxOfStr (removeSeq (mergeCState A ns) ms).1.keys (nodeId it₂))] = _
    rw [h2id, hidx]

/-! ### Selector interpolation: general facts and nested evaluation -/

/-- A plain selector over a declaration-only subtree: one flat style entry
(when the rendered declarations are non-empty) and nothing else. -/
theorem stylize_plain_flat (sel : String) (styles : Styles)
    (rl : List StylizeRule) (sl : List StylizeStyle) (parent : String)
    (hat : startsAt sel = false) (hflat : flatStyles styles = true) :
    stylize sel styles rl sl parent =
      (rl,
       (if (parseStyles styles (sel != "")).style ≠ "" then
         sl ++ [⟨if parent ≠ "" then interpolate sel parent else sel,
           (parseStyles styles (sel != "")).style,
           (parseStyles styles (sel != "")).isUnique⟩] else sl),
       (parseStyles styles (sel != "")).style) := by
  rw [stylize_plain styles rl sl parent hat, parseStyles_flat_nested _ hflat,
    stylizeList_nil]

theorem interpolate_has_amp (s p : String) (h : hasAmp s = true) :
    interpolate s p = replaceAmp s p := by
  rw [interpolate, if_neg (by simp [h])]

theorem interpolate_no_amp (s p : String) (h : hasAmp s = false) :
    interpolate s p = p ++ " " ++ s := by
  rw [interpolate, if_pos (by simp [h])]

theorem no_amp_foldr {l : List Char} (p : String) (h : l.any (· = '&') = false) :
    l.foldr (fun c acc => if c = '&' then p.data ++ acc else c :: acc) [] = l := by
  induction l with
  | nil => rfl
  | cons c cs ih =>
      simp only [List.any_cons, Bool.or_eq_false_iff] at h
      rw [List.foldr_cons, ih h.2, if_neg (by simpa using h.1)]

/-- `&`-substitution on a selector that starts with `&` and mentions it
nowhere else: prefix replacement. -/
theorem interpolate_amp_prefix (t p : String) (h : hasAmp t = false) :
    interpolate ("&" ++ t) p = p ++ t := by
  have hd : ("&" ++ t).data = '&' :: t.data := by
    rw [String.data_append]
    rfl
  have hamp : hasAmp ("&" ++ t) = true := by
    rw [hasAmp, hd]
    simp
  rw [interpolate, if_neg (by simp [hamp]), replaceAmp, hd]
  rw [hasAmp] at h
  rw [List.foldr_cons, no_amp_foldr p h]
  show String.mk (if '&' = '&' then p.data ++ t.data else '&' :: t.data) = p ++ t
  rw [if_pos rfl, ← String.data_append]

/-- The root call of `registerStyle` on a tree whose own entries are exactly
two nested sub-mappings, each declaration-only with non-empty declarations:
two flat style entries in authoring order, and the concatenated trace. -/
theorem stylize_root_two (root sub₁ sub₂ : Styles) (n₁ n₂ : String)
    (h1 : startsAt n₁ = false) (h2 : startsAt n₂ = false)
    (hb1 : (n₁ != "") = true) (hb2 : (n₂ != "") = true)
    (hf1 : flatStyles sub₁ = true) (hf2 : flatStyles sub₂ = true)
    (hparse : (parseStyles root true).nested = [(n₁, sub₁), (n₂, sub₂)])
    (hstyle : (parseStyles root true).style = "")
    (hs1 : (parseStyles sub₁ true).style ≠ "")
    (hs2 : (parseStyles sub₂ true).style ≠ "") :
    stylize "&" root [] [] "" =
      ([],
       [⟨interpolate n₁ "&", (parseStyles sub₁ true).style, sub₁.isUnique⟩,
        ⟨interpolate n₂ "&", (parseStyles sub₂ true).style, sub₂.isUnique⟩],
       "" ++ n₁ ++ (parseStyles sub₁ true).style ++ n₂ ++
         (parseStyles sub₂ true).style) := by
  rw [stylize_plain root [] [] "" (by decide),
    show ("&" != "") = true from rfl, hparse, hstyle]
  rw [if_neg (by simp), if_neg (by simp)]
  rw [stylizeList_cons]
  simp only []
  rw [stylize_plain_flat n₁ sub₁ [] [] "&" h1 hf1, hb1,
    if_pos hs1, if_pos (by decide : ("&" : String) ≠ "")]
  simp only [List.nil_append]
  rw [stylizeList_cons]
  simp only []
  rw [stylize_plain_flat n₂ sub₂ [] _ "&" h2 hf2, hb2,
    if_pos hs2, if_pos (by decide : ("&" : String) ≠ "")]
  rw [stylizeList_nil]
  dsimp only
  rfl

/-! ### Registration of a root with exactly two flat nested entries -/

/-- The class selector `registerStyle` derives from the trace `pid`. -/
def clsOf (pid : String) (styles : Styles) (prod : Bool) : String :=
  "." ++ (if prod then key pid styles prod else escape (key pid styles prod))

theorem nodeId_mkStyle (st nid pid k : String) :
    nodeId (mkStyleNode st nid pid k) = nid := rfl

theorem intercalate_single (x : String) : String.intercalate "," [x] = x := by
  simp [String.intercalate]
  rfl

theorem renderNode_mkStyle (st nid pid k : String) :
    renderNode (mkStyleNode st nid pid k) = k ++ "\x7b" ++ st ++ "\x7d" := by
  rw [mkStyleNode_eval]
  show String.intercalate "," [k] ++ "\x7b" ++ st ++ "\x7d" = _
  rw [intercalate_single]

theorem cloneNode_mkStyle (st nid pid k : String) :
    cloneNode (mkStyleNode st nid pid k) = mkStyleNode st nid pid k := by
  rw [mkStyleNode_eval]
  exact singleStyleNode_clone st nid k _

/-- The node list of a registration whose root `stylize` produced exactly two
non-unique flat style entries. -/
theorem regNodes_two_flat (root : Styles) (uid : Nat) (prod : Bool)
    (s₁ s₂ : StylizeStyle) (pid : String)
    (hstz : stylize "&" root [] [] "" = ([], [s₁, s₂], pid))
    (hu1 : s₁.isUnique = false) (hu2 : s₂.isUnique = false) :
    regNodes uid root prod =
      ([mkStyleNode s₁.style ("s\x00" ++ pid ++ "\x00" ++ s₁.style) pid
          (interpolate s₁.selector (clsOf pid root prod)),
        mkStyleNode s₂.style ("s\x00" ++ pid ++ "\x00" ++ s₂.style) pid
          (interpolate s₂.selector (clsOf pid root prod))], uid) := by
  rw [regNodes]
  simp only [hstz]
  rw [composeNodesStyles]
  simp only [hu1, Bool.false_eq_true, if_false]
  rw [composeNodesStyles]
  simp only [hu2, Bool.false_eq_true, if_false]
  rw [composeNodesStyles, composeNodesRules]
  simp only [List.append_nil]
  rw [clsOf]
  rfl

/-- Two fresh single-style nodes with distinct ids fill an empty cache in
order. -/
theorem mergeC_two_fresh (n₁ n₂ : Node)
    (hne : nodeId n₂ ≠ nodeId n₁)
    (hc1 : cloneNode n₁ = n₁) (hc2 : cloneNode n₂ = n₂) :
    mergeCState emptyCState [n₁, n₂] =
      ⟨[renderNode n₁, renderNode n₂], 2, [nodeId n₁, nodeId n₂],
        assocSet (assocSet [] (nodeId n₁) n₁) (nodeId n₂) n₂,
        assocSet (assocSet [] (nodeId n₁) 1) (nodeId n₂) 1⟩ := by
  rw [mergeCState_cons, cacheAdd_fresh (by rfl) (by rfl), hc1]
  have hcnt : lookupD (assocSet emptyCState.counters (nodeId n₁) 1)
      (nodeId n₂) = 0 := by
    rw [lookupD]
    show (lookupA (assocSet [] (nodeId n₁) 1) (nodeId n₂)).getD 0 = 0
    rw [lookupA_assocSet_ne _ _ _ _ (fun he => hne he.symm)]
    rfl
  have hch : lookupA (assocSet emptyCState.children (nodeId n₁) n₁)
      (nodeId n₂) = none := by
    show lookupA (assocSet [] (nodeId n₁) n₁) (nodeId n₂) = none
    rw [lookupA_assocSet_ne _ _ _ _ (fun he => hne he.symm)]
    rfl
  rw [mergeC_single_fresh _ n₂ hcnt hch hc2]
  rfl

/-! ### Concrete example trees -/

def credStyles : Styles := .mk false none [("color", .val (.str "red"))]

def cblueStyles : Styles := .mk false none [("color", .val (.str "blue"))]

/-- `{ "&": { color: "red" }, "&:hover": { color: "blue" } }`. -/
def hoverStyles : Styles := .mk false none
  [("&", .nested credStyles), ("&:hover", .nested cblueStyles)]

/-- Two nested entries authored out of lexicographic order. -/
def nestedBA : Styles := .mk false none
  [("&:b", .nested credStyles), ("&:a", .nested credStyles)]

/-- The same two nested entries, authored in lexicographic order. -/
def nestedAB : Styles := .mk false none
  [("&:a", .nested credStyles), ("&:b", .nested credStyles)]

/-- Two differently-authored names that hyphenate to the same property. -/
def dupNamesA : Styles := .mk false none
  [("marginTop", .val (.str "1")), ("margin-top", .val (.str "2"))]

def dupNamesB : Styles := .mk false none
  [("margin-top", .val (.str "2")), ("marginTop", .val (.str "1"))]

def uniqueRed : Styles := .mk true none [("color", .val (.str "red"))]

def uniqueBlue : Styles := .mk true none [("color", .val (.str "blue"))]

def uniqueZero : Styles := .mk true none [("margin", .val (.str "0"))]

def permA : Styles := .mk false none
  [("color", .val (.str "red")), ("margin", .val (.num 1 0))]

def permB : Styles := .mk false none
  [("margin", .val (.num 1 0)), ("color", .val (.str "red"))]

/-! ### Full evaluation of the `hoverStyles` registration -/

def hoverPid : String := "&color:red&:hovercolor:blue"

def hoverCls : String := clsOf hoverPid hoverStyles false

def hoverN1 : Node :=
  mkStyleNode "color:red" ("s\x00" ++ hoverPid ++ "\x00" ++ "color:red")
    hoverPid hoverCls

def hoverN2 : Node :=
  mkStyleNode "color:blue" ("s\x00" ++ hoverPid ++ "\x00" ++ "color:blue")
    hoverPid (hoverCls ++ ":hover")

theorem stylize_hover :
    stylize "&" hoverStyles [] [] "" =
      ([], [⟨"&", "color:red", false⟩, ⟨"&:hover", "color:blue", false⟩],
        hoverPid) := by
  rw [stylize_root_two hoverStyles credStyles cblueStyles "&" "&:hover"
    rfl rfl rfl rfl (by decide) (by decide) rfl rfl (by decide) (by decide)]
  rfl

theorem regNodes_hover :
    regNodes 0 hoverStyles false = ([hoverN1, hoverN2], 0) := by
  rw [regNodes_two_flat hoverStyles 0 false _ _ _ stylize_hover rfl rfl]
  show ([mkStyleNode "color:red" _ _ (interpolate "&" (clsOf hoverPid hoverStyles false)),
    mkStyleNode "color:blue" _ _
      (interpolate "&:hover" (clsOf hoverPid hoverStyles false))], 0) = _
  rw [interpolate_amp,
    show ("&:hover" : String) = "&" ++ ":hover" from rfl,
    interpolate_amp_prefix ":hover" _ (by decide)]
  rfl

theorem register_hover_eval :
    (registerStyle emptyCState 0 hoverStyles false).2.1.sheet =
      ["." ++ escape (registerStyle emptyCState 0 hoverStyles false).1 ++
         "\x7bcolor:red\x7d",
       "." ++ escape (registerStyle emptyCState 0 hoverStyles false).1 ++
         ":hover\x7bcolor:blue\x7d"] := by
  have hid : (registerStyle emptyCState 0 hoverStyles false).1 =
      key hoverPid hoverStyles false := by
    rw [registerStyle_as_merge, stylize_hover]
  rw [hid, registerStyle_as_merge]
  show (mergeCState emptyCState (regNodes 0 hoverStyles false).1).sheet = _
  rw [regNodes_hover]
  show (mergeCState emptyCState [hoverN1, hoverN2]).sheet = _
  rw [mergeC_two_fresh hoverN1 hoverN2 (by decide)
    (cloneNode_mkStyle _ _ _ _) (cloneNode_mkStyle _ _ _ _)]
  show [renderNode hoverN1, renderNode hoverN2] = _
  rw [hoverN1, hoverN2, renderNode_mkStyle, renderNode_mkStyle]
  decide

/-! ### The trace of a registration with unsorted nested entries -/

theorem stylize_nestedBA :
    (stylize "&" nestedBA [] [] "").2.2 = "&:bcolor:red&:acolor:red" := by
  rw [stylize_root_two nestedBA credStyles credStyles "&:b" "&:a"
    rfl rfl rfl rfl (by decide) (by decide) rfl rfl (by decide) (by decide)]
  decide

theorem stylize_nestedAB :
    (stylize "&" nestedAB [] [] "").2.2 = "&:acolor:red&:bcolor:red" := by
  rw [stylize_root_two nestedAB credStyles credStyles "&:a" "&:b"
    rfl rfl rfl rfl (by decide) (by decide) rfl rfl (by decide) (by decide)]
  decide

/-! ## The claims -/

/-- Claim C1 (amended): for every `$unique`-free style tree, registering the
same tree twice returns the same identifier both times and leaves the key
list and the stylesheet text unchanged (each selector's rule appears exactly
once), while every internal reference count doubles (in particular the
deduplicated entry's count goes from 1 to 2).  The original universal claim
fails for trees using `$unique` (see the counterexample). -/
theorem claim_C1 (styles : Styles) (prod : Bool)
    (h : uniqueFreeS styles = true) :
    (registerStyle (registerStyle emptyCState 0 styles prod).2.1
        (registerStyle emptyCState 0 styles prod).2.2 styles prod).1 =
      (registerStyle emptyCState 0 styles prod).1 ∧
    (registerStyle (registerStyle emptyCState 0 styles prod).2.1
        (registerStyle emptyCState 0 styles prod).2.2 styles prod).2.1.keys =
      (registerStyle emptyCState 0 styles prod).2.1.keys ∧
    (registerStyle (registerStyle emptyCState 0 styles prod).2.1
        (registerStyle emptyCState 0 styles prod).2.2 styles prod).2.1.sheet =
      (registerStyle emptyCState 0 styles prod).2.1.sheet ∧
    ∀ i, lookupD (registerStyle (registerStyle emptyCState 0 styles prod).2.1
        (registerStyle emptyCState 0 styles prod).2.2 styles prod).2.1.counters i =
      2 * lookupD (registerStyle emptyCState 0 styles prod).2.1.counters i :=
  registerStyle_twice styles prod h

/-- Claim C1, witness: the double registration of `{color: "red"}` returns
the same identifier both times. -/
theorem claim_C1_witness :
    (registerStyle (registerStyle emptyCState 0 credStyles false).2.1
        (registerStyle emptyCState 0 credStyles false).2.2 credStyles false).1 =
      (registerStyle emptyCState 0 credStyles false).1 :=
  (claim_C1 credStyles false (by decide)).1

/-- Claim C1, counterexample to the original universal statement: the tree
`{color: "blue", $unique: true}` registered twice leaves the rendered rule in
the stylesheet twice, and both entries carry reference count 1, not 2. -/
theorem claim_C1_counterexample :
    (registerStyle (registerStyle emptyCState 0 uniqueBlue false).2.1
        (registerStyle emptyCState 0 uniqueBlue false).2.2 uniqueBlue false).2.1.sheet =
      [flatRender uniqueBlue false, flatRender uniqueBlue false] ∧
    (registerStyle (registerStyle emptyCState 0 uniqueBlue false).2.1
        (registerStyle emptyCState 0 uniqueBlue false).2.2 uniqueBlue false).2.1.counters =
      [("u\x00" ++ toBase36 1, 1), ("u\x00" ++ toBase36 2, 1)] := by
  obtain ⟨-, -, -, hsheet, hcnt⟩ :=
    registerStyle_unique_twice uniqueBlue false 0 (by decide) rfl (by decide)
  exact ⟨hsheet, hcnt⟩

/-- Claim C2 (amended): two declaration-only trees whose entry lists are
permutations of each other register identically — same identifier and same
resulting cache state — provided their hyphenated declaration names are
pairwise distinct and their `$unique`/`$displayName` controls agree.  The
original claim fails when two authored names hyphenate to the same property
name (see the counterexample): the comparator never returns 0, so equal keys
keep their authoring order and the rendered text differs. -/
theorem claim_C2 (A B : Styles) (uid : Nat) (prod : Bool)
    (hperm : A.entries.Perm B.entries) (hflatA : flatStyles A = true)
    (hu : A.isUnique = B.isUnique) (hdn : A.displayName = B.displayName)
    (hnd : (((splitEntries A.entries).1).map Prod.fst).Nodup) :
    registerStyle emptyCState uid A prod =
      registerStyle emptyCState uid B prod :=
  registerStyle_perm_flat A B uid prod hperm hflatA hu hdn hnd

/-- Claim C2, witness: `{color:"red", margin:1}` and `{margin:1, color:"red"}`
register identically. -/
theorem claim_C2_witness :
    registerStyle emptyCState 0 permA false =
      registerStyle emptyCState 0 permB false :=
  claim_C2 permA permB 0 false
    (by
      show ([("color", StyleValue.val (.str "red")),
        ("margin", StyleValue.val (.num 1 0))]).Perm
        [("margin", StyleValue.val (.num 1 0)),
          ("color", StyleValue.val (.str "red"))]
      exact List.Perm.swap _ _ _)
    (by decide) rfl rfl (by decide)

/-- Claim C2, counterexample to the original statement: `marginTop` and
`margin-top` hyphenate to the same declaration name, so the permuted trees
`{marginTop:"1", "margin-top":"2"}` and `{"margin-top":"2", marginTop:"1"}`
hold the same set of declaration pairs yet register different identifiers. -/
theorem claim_C2_counterexample :
    dupNamesA.entries.Perm dupNamesB.entries ∧
    dupNamesA.isUnique = dupNamesB.isUnique ∧
    dupNamesA.displayName = dupNamesB.displayName ∧
    (registerStyle emptyCState 0 dupNamesA false).1 ≠
      (registerStyle emptyCState 0 dupNamesB false).1 := by
  refine ⟨?_, rfl, rfl, ?_⟩
  · show ([("marginTop", StyleValue.val (.str "1")),
      ("margin-top", StyleValue.val (.str "2"))]).Perm
      [("margin-top", StyleValue.val (.str "2")),
        ("marginTop", StyleValue.val (.str "1"))]
    exact List.Perm.swap _ _ _
  · have hA : (registerStyle emptyCState 0 dupNamesA false).1 =
        key (parseStyles dupNamesA true).style dupNamesA false := by
      rw [registerStyle_as_merge, stylize_flat (by decide)]
    have hB : (registerStyle emptyCState 0 dupNamesB false).1 =
        key (parseStyles dupNamesB true).style dupNamesB false := by
      rw [registerStyle_as_merge, stylize_flat (by decide)]
    rw [hA, hB]
    decide

/-- Claim C3: removing an id whose counter slot is absent (never added, or
removed more often than added, whose entry was therefore deleted) is a silent
no-op; and for every N ≥ 1, after N adds of nodes sharing one fresh id the
counter reads N and the key is present, after N−1 removes the counter reads 1,
the key is still present and no `remove` event has fired, and the Nth remove
deletes the counter, the stored node, the key and its text slot, emitting
exactly one `remove` event. -/
theorem claim_C3 :
    (∀ (s : CState) (n : Node), lookupD s.counters (nodeId n) = 0 →
      cacheRemove s n = (s, [])) ∧
    (∀ (s₀ : CState) (i : String) (n₁ : Node) (ns ms : List Node) (m : Node),
      nodeId n₁ = i → (∀ n ∈ ns, nodeId n = i) → (∀ n ∈ ms, nodeId n = i) →
      nodeId m = i → ms.length = ns.length → i ∉ s₀.keys →
      lookupA s₀.counters i = none → lookupA s₀.children i = none →
      lookupA (mergeCState s₀ (n₁ :: ns)).counters i = some (1 + ns.length) ∧
      lookupA (removeSeq (mergeCState s₀ (n₁ :: ns)) ms).1.counters i = some 1 ∧
      (removeSeq (mergeCState s₀ (n₁ :: ns)) ms).1.keys = s₀.keys ++ [i] ∧
      (∀ e ∈ (removeSeq (mergeCState s₀ (n₁ :: ns)) ms).2,
        e.isRemove = false) ∧
      lookupA (cacheRemove
        (removeSeq (mergeCState s₀ (n₁ :: ns)) ms).1 m).1.counters i = none ∧
      lookupA (cacheRemove
        (removeSeq (mergeCState s₀ (n₁ :: ns)) ms).1 m).1.children i = none ∧
      (cacheRemove (removeSeq (mergeCState s₀ (n₁ :: ns)) ms).1 m).1.keys =
        s₀.keys ∧
      (cacheRemove (removeSeq (mergeCState s₀ (n₁ :: ns)) ms).1 m).1.sheet =
        (removeSeq (mergeCState s₀ (n₁ :: ns)) ms).1.sheet.eraseIdx
          s₀.keys.length ∧
      (cacheRemove (removeSeq (mergeCState s₀ (n₁ :: ns)) ms).1 m).2 =
        [CEvent.remove i s₀.keys.length]) :=
  ⟨fun _ _ h => cacheRemove_absent h,
   fun s₀ i n₁ ns ms m h1 h2 h3 h4 h5 h6 h7 h8 =>
     refcount_cycle s₀ i n₁ ns ms m h1 h2 h3 h4 h5 h6 h7 h8⟩

/-- Claim C4 (amended): `parseStyles` returns the nested entries sorted
exactly when its `hasNestedStyles` argument is `false`, and in authoring
order when it is `true`; `registerStyle` stylizes its root with selector
`"&"`, so the root of a registration passes `"&" != "" = true` and its nested
entries are *not* sorted — they stay in authoring order at every level.  The
original claim (sorted exactly at the outermost node) is refuted by the
counterexample. -/
theorem claim_C4 :
    (∀ (s : Styles) (b : Bool), (parseStyles s b).nested =
      if b then (splitEntries s.entries).2
      else sortTuples (splitEntries s.entries).2) ∧
    (∀ (styles : Styles),
      (parseStyles styles ("&" != "")).nested =
        (splitEntries styles.entries).2) := by
  constructor
  · intro s b
    cases b <;> rfl
  · intro styles
    rfl

/-- Claim C4, counterexample to the original statement: at the outermost node
of a registration the nested names come back in authoring order `&:b, &:a`,
not sorted (`&:a < &:b`), and the permuted authorings register different
identifiers, which sorting at the root would have prevented. -/
theorem claim_C4_counterexample :
    (parseStyles nestedBA ("&" != "")).nested.map Prod.fst = ["&:b", "&:a"] ∧
    keyLt "&:a" "&:b" = true ∧
    (registerStyle emptyCState 0 nestedBA false).1 ≠
      (registerStyle emptyCState 0 nestedAB false).1 := by
  refine ⟨rfl, by decide, ?_⟩
  have hA : (registerStyle emptyCState 0 nestedBA false).1 =
      key "&:bcolor:red&:acolor:red" nestedBA false := by
    rw [registerStyle_as_merge, stylize_nestedBA]
  have hB : (registerStyle emptyCState 0 nestedAB false).1 =
      key "&:acolor:red&:bcolor:red" nestedAB false := by
    rw [registerStyle_as_merge, stylize_nestedAB]
  rw [hA, hB]
  decide

/-- Claim C5 (amended): registering a non-empty declaration-only tree with
`$unique` set twice returns the *same* class identifier both times, but the
two registrations never dedup: the cache gains two distinct entries keyed by
counter-derived node ids `u\0(uid+1)` and `u\0(uid+2)`, each with reference
count 1, and the (byte-identical) rendered rule is stored twice.  The
original claim's "two distinct ids and two distinct stylesheet entries" fails
for the returned identifiers and for the entries' text (see the
counterexample); distinctness holds only for the internal node ids. -/
theorem claim_C5 (styles : Styles) (prod : Bool) (uid : Nat)
    (hflat : flatStyles styles = true) (hu : styles.isUnique = true)
    (hst : (parseStyles styles true).style ≠ "") :
    (registerStyle (registerStyle emptyCState uid styles prod).2.1
        (registerStyle emptyCState uid styles prod).2.2 styles prod).1 =
      (registerStyle emptyCState uid styles prod).1 ∧
    (registerStyle (registerStyle emptyCState uid styles prod).2.1
        (registerStyle emptyCState uid styles prod).2.2 styles prod).2.1.keys =
      ["u\x00" ++ toBase36 (uid + 1), "u\x00" ++ toBase36 (uid + 2)] ∧
    "u\x00" ++ toBase36 (uid + 1) ≠ "u\x00" ++ toBase36 (uid + 2) ∧
    (registerStyle (registerStyle emptyCState uid styles prod).2.1
        (registerStyle emptyCState uid styles prod).2.2 styles prod).2.1.sheet =
      [flatRender styles prod, flatRender styles prod] ∧
    (registerStyle (registerStyle emptyCState uid styles prod).2.1
        (registerStyle emptyCState uid styles prod).2.2 styles prod).2.1.counters =
      [("u\x00" ++ toBase36 (uid + 1), 1), ("u\x00" ++ toBase36 (uid + 2), 1)] :=
  registerStyle_unique_twice styles prod uid hflat hu hst

/-- Claim C5, witness: two registrations of `{margin:"0", $unique:true}`
store two entries under distinct counter-derived keys. -/
theorem claim_C5_witness :
    (registerStyle (registerStyle emptyCState 0 uniqueZero false).2.1
        (registerStyle emptyCState 0 uniqueZero false).2.2 uniqueZero false).2.1.keys =
      ["u\x00" ++ toBase36 1, "u\x00" ++ toBase36 2] :=
  (claim_C5 uniqueZero false 0 (by decide) rfl (by decide)).2.1

/-- Claim C5, counterexample to the original statement: for
`{color:"red", $unique:true}` the two registrations return *equal*
identifiers, and the two stylesheet entries are byte-identical, not
distinct. -/
theorem claim_C5_counterexample :
    (registerStyle (registerStyle emptyCState 0 uniqueRed false).2.1
        (registerStyle emptyCState 0 uniqueRed false).2.2 uniqueRed false).1 =
      (registerStyle emptyCState 0 uniqueRed false).1 ∧
    (registerStyle (registerStyle emptyCState 0 uniqueRed false).2.1
        (registerStyle emptyCState 0 uniqueRed false).2.2 uniqueRed false).2.1.sheet =
      [flatRender uniqueRed false, flatRender uniqueRed false] := by
  obtain ⟨hid, -, -, hsheet, -⟩ :=
    registerStyle_unique_twice uniqueRed false 0 (by decide) rfl (by decide)
  exact ⟨hid, hsheet⟩

/-- Claim C6 (amended): a *truthy* (non-zero) scalar numeric value renders
bare when the property is in the unit-less table (vendor-prefixed variants
included) and with a `px` suffix otherwise; `{opacity:0.5}` renders
`opacity:0.5` and `{margin:10}` renders `margin:10px`.  The original claim,
quantified over every scalar numeric value, fails at `0` (see the
counterexample), where the truthiness guard suppresses the suffix. -/
theorem claim_C6 :
    (∀ (k : String) (m : Int) (e : Nat), m ≠ 0 →
      styleToString k (.num m e) =
        if cssNumber k then k ++ ":" ++ renderNum m e
        else k ++ ":" ++ renderNum m e ++ "px") ∧
    styleToString "opacity" (.num 5 1) = "opacity:0.5" ∧
    styleToString "margin" (.num 10 0) = "margin:10px" := by
  refine ⟨?_, by decide, by decide⟩
  intro k m e hm
  rw [styleToString]
  by_cases hc : cssNumber k = true
  · rw [if_neg (by simp [hc]), if_pos hc]
    rfl
  · replace hc := Bool.not_eq_true _ ▸ hc
    rw [if_pos ⟨by simpa [valueTruthy] using hm,
      by simp [valueIsNumber], by simp [hc]⟩, if_neg (by simp [hc])]
    rfl

/-- Claim C6, counterexample to the original statement: `margin` is not
unit-less, yet `{margin: 0}` renders `margin:0` without the `px` suffix. -/
theorem claim_C6_counterexample :
    cssNumber "margin" = false ∧
    styleToString "margin" (.num 0 0) = "margin:0" ∧
    styleToString "margin" (.num 0 0) ≠ "margin:0px" := by
  decide

/-- Claim C7: with a parent selector, a selector mentioning `&` has every
`&` replaced by the parent's text and otherwise is appended after the parent
and a space; with no parent the selector is used verbatim (the flat entry's
selector is the selector itself); and registering
`{ "&": {color:"red"}, "&:hover": {color:"blue"} }` yields exactly the rules
`.c{color:red}` and `.c:hover{color:blue}` for the generated class `.c`. -/
theorem claim_C7 :
    (∀ s p, hasAmp s = true → interpolate s p = replaceAmp s p) ∧
    (∀ s p, hasAmp s = false → interpolate s p = p ++ " " ++ s) ∧
    (∀ (sel : String) (styles : Styles) (rl : List StylizeRule)
        (sl : List StylizeStyle), startsAt sel = false →
      stylize sel styles rl sl "" =
        stylizeList (parseStyles styles (sel != "")).nested rl
          (if (parseStyles styles (sel != "")).style ≠ "" then
            sl ++ [⟨sel, (parseStyles styles (sel != "")).style,
              (parseStyles styles (sel != "")).isUnique⟩] else sl)
          sel (parseStyles styles (sel != "")).style) ∧
    (registerStyle emptyCState 0 hoverStyles false).2.1.sheet =
      ["." ++ escape (registerStyle emptyCState 0 hoverStyles false).1 ++
         "\x7bcolor:red\x7d",
       "." ++ escape (registerStyle emptyCState 0 hoverStyles false).1 ++
         ":hover\x7bcolor:blue\x7d"] := by
  refine ⟨interpolate_has_amp, interpolate_no_amp, ?_, register_hover_eval⟩
  intro sel styles rl sl hat
  rw [stylize_plain styles rl sl "" hat]
  rw [if_neg (by simp : ¬("" : String) ≠ "")]

/-- Claim C8: the empty cache satisfies the key/sheet alignment invariant,
both `add` and `remove` preserve it, and under it the key list and the
rendered-text list have equal length with `sheet[j]` the rendering of the
stored node keyed at position `j`. -/
theorem claim_C8 :
    cacheWF emptyCState ∧
    (∀ (s : CState) (n : Node), cacheWF s → cacheWF (cacheAdd s n).1) ∧
    (∀ (s : CState) (n : Node), cacheWF s → cacheWF (cacheRemove s n).1) ∧
    (∀ (s : CState), cacheWF s → s.sheet.length = s.keys.length ∧
      ∀ j : Nat, s.sheet[j]? =
        (s.keys[j]?.bind (lookupA s.children)).map renderNode) :=
  ⟨cacheWF_empty, fun _ n h => cacheWF_cacheAdd h n,
   fun _ n h => cacheWF_cacheRemove h n,
   fun _ h => ⟨keysWF_length h.2, h.2.2.2⟩⟩

/-- Claim C9: an `add` never reorders — it leaves the key list unchanged or
appends the new id at the end — a `remove` at most deletes one slot, and
adding a node whose id is already stored merges in place: keys unchanged,
sheet length unchanged and modified at most at the entry's existing index,
and every emitted event is a `change` whose `oldIndex` equals its
`newIndex`. -/
theorem claim_C9 :
    (∀ (s : CState) (n : Node), stateWF s →
      (cacheAdd s n).1.keys = s.keys ∨
      (cacheAdd s n).1.keys = s.keys ++ [nodeId n]) ∧
    (∀ (s : CState) (n : Node),
      (cacheRemove s n).1.keys = s.keys ∨
      ∃ j, (cacheRemove s n).1.keys = s.keys.eraseIdx j) ∧
    (∀ (s : CState) (n : Node), stateWF s →
      lookupD s.counters (nodeId n) ≠ 0 →
      (cacheAdd s n).1.keys = s.keys ∧
      (cacheAdd s n).1.sheet.length = s.sheet.length ∧
      (∀ j, j ≠ idxOfStr s.keys (nodeId n) →
        (cacheAdd s n).1.sheet[j]? = s.sheet[j]?) ∧
      ∀ e ∈ (cacheAdd s n).2,
        e = CEvent.change (nodeId n) (idxOfStr s.keys (nodeId n))
              (idxOfStr s.keys (nodeId n))) :=
  ⟨fun _ n h => cacheAdd_keys_shape h n, cacheRemove_keys_shape,
   fun _ _ h1 h2 => cacheAdd_seen_in_place h1 h2⟩

/-- Claim C10: for every property name — unit-less or not — a scalar numeric
value of `0` renders as `name:0` with no `px` suffix, because the
px-appending branch also requires the value to be truthy. -/
theorem claim_C10 (k : String) :
    styleToString k (.num 0 0) = k ++ ":0" := by
  rw [styleToString, if_neg (by simp [valueTruthy])]
  show k ++ ":" ++ "0" = k ++ ":0"
  rw [String.append_assoc]
  rfl

end FreeStyle
